import Mathlib

/-!
# Verification of the MCP Memory core (storage-manager, knowledge-graph, query-engine)

A shallow embedding of the entity store (`StorageManager`), the relationship
graph (`KnowledgeGraph`) and the search layer (`QueryEngine`) of the repository,
together with proofs of the testable properties stated in the specification.

Modelling conventions, used consistently below:

* The filesystem is a value: one association list per storage area, keyed by
  the file name (entity/relationship files are named `<id>.json` in the source;
  the `.json` suffix is dropped uniformly, so keys are plain ids).
  `fs.writeFile` replaces the value at an existing key in place, or appends a
  new file at the end; `fs.unlink` removes the key and reports `ENOENT` when it
  was absent; `fs.readdir` of the `agents`/`projects`/`templates` areas lists
  the sub-directories in order of first appearance (empty directories are not
  tracked: reading a file from one behaves exactly like reading from a missing
  directory, which is what the source's catch-and-continue does).
* JavaScript `Map`s are association lists in insertion order: `set` of an
  existing key updates the value in place keeping its position, `set` of a new
  key appends, iteration follows the list.  JavaScript `Set`s are duplicate-free
  lists in insertion order.
* Timestamps (`Date.now`, `new Date().toISOString()`) and generated ids
  (`crypto.randomBytes`) are impure inputs; operations that use them take the
  fresh value as an explicit argument (`now`, `freshId`).
* Exceptions are `Except Err`.  A JavaScript error object carries a `code`
  property only when it comes from `fs` (`Err.enoent`); the `new Error(...)`
  values thrown by the module itself carry no code, which matters for the
  `error.code === 'ENOENT'` tests in the source.
* JavaScript truthiness on optional strings: `undefined` and `""` are falsy.
* The per-path file locks and `await` interleavings are invisible in this
  sequential model: every operation is modelled as one atomic state
  transformation, which is the behaviour of the source when no two operations
  overlap.  `_saveIndices` persists index snapshots that nothing modelled here
  ever reads back, so it is a no-op on the state.
-/

namespace Memory

/-- JavaScript truthiness of an optional string (`undefined` and `""` falsy). -/
def truthy : Option String → Bool
  | none => false
  | some s => s ≠ ""

/-- `Map.set` semantics: update the first occurrence of the key in place,
append at the end when the key is new. -/
def mapSet {α : Type} (m : List (String × α)) (k : String) (v : α) :
    List (String × α) :=
  match m with
  | [] => [(k, v)]
  | (k', v') :: rest => if k' = k then (k, v) :: rest else (k', v') :: mapSet rest k v

/-- `Map.delete` semantics: remove the first occurrence of the key. -/
def eraseKey {α : Type} (m : List (String × α)) (k : String) : List (String × α) :=
  match m with
  | [] => []
  | (k', v') :: rest => if k' = k then rest else (k', v') :: eraseKey rest k

/-- `Set.add` semantics: append when absent. -/
def setAdd (s : List String) (x : String) : List String :=
  if x ∈ s then s else s ++ [x]

/-- `new Set(iterable)`: keep the first occurrence of each element. -/
def dedup (l : List String) : List String :=
  l.foldl setAdd []

/-- Add `rid` to the set stored at key `k` of a `Map<string, Set<string>>`
index (creating the set when the key is new), as `_indexRelationship`,
`_indexText` and `_indexAgentId` do. -/
def indexAdd (idx : List (String × List String)) (k rid : String) :
    List (String × List String) :=
  mapSet idx k (setAdd ((idx.lookup k).getD []) rid)

/-- Remove `rid` from the set at key `k` and drop the key when its set becomes
empty, as `_removeRelationshipFromIndices` does. -/
def indexRemove (idx : List (String × List String)) (k rid : String) :
    List (String × List String) :=
  match idx.lookup k with
  | none => idx
  | some s =>
      let s' := s.erase rid
      if s' = [] then eraseKey idx k else mapSet idx k s'

/-- Trim a cache `Map` that exceeded `maxSize`: drop the required number of
oldest (front) entries, as `_cacheEntity` / `_cacheRelationship` do. -/
def trimCache {α : Type} (m : List (String × α)) (maxSize : Nat) :
    List (String × α) :=
  if maxSize < m.length then m.drop (m.length - maxSize) else m

/-- Stable insertion into a list sorted by `le`: the new element goes after
every element that compares `le` to it, so that among ties the earlier-inserted
element stays first. -/
def stableInsert {α : Type} (le : α → α → Bool) (x : α) : List α → List α
  | [] => [x]
  | y :: ys => if le y x then y :: stableInsert le x ys else x :: y :: ys

/-- `Array.prototype.sort` with a consistent comparator: a stable sort by the
boolean relation `le a b` (meaning "`a` may stay before `b`").  Elements are
inserted in their original order, so ties keep that order, exactly the
stability ECMAScript guarantees. -/
def stableSort {α : Type} (le : α → α → Bool) (l : List α) : List α :=
  l.foldl (fun acc x => stableInsert le x acc) []

/-- Errors.  `enoent` models an `fs` error whose `code` is `'ENOENT'`; the
other constructors model the module's own `new Error(...)` values, which have
no `code`.  `fuelExhausted` is the bookkeeping value of the traversal loop's
explicit fuel; the termination theorem shows it never escapes. -/
inductive Err : Type
  | enoent : Err
  | entityNotFound (id : String) : Err
  | relNotFound (id : String) : Err
  | validation (msg : String) : Err
  | fuelExhausted : Err
deriving Repr, DecidableEq

/-- A metadata value: a scalar (already through JavaScript `String(...)`) or an
array of scalars. -/
inductive MetaVal : Type
  | str (s : String)
  | arr (l : List String)
deriving Repr, DecidableEq

/-- An entity as the storage manager sees it: the indexed attributes are
explicit fields, `id` uses `""` for "absent" (matching JavaScript truthiness
on `entity.id`). -/
structure Entity where
  id : String
  type : String
  content : Option String := none
  name : Option String := none
  description : Option String := none
  metadata : List (String × MetaVal) := []
  tags : List String := []
  agentId : Option String := none
  projectId : Option String := none
  templateId : Option String := none
  created : Option String := none
  updated : Option String := none
deriving Repr, DecidableEq

/-- An entity storage directory: one of the context partitions of
`StorageManager.directories` (the per-agent / per-project / per-template areas
carry their sub-directory name). -/
inductive EDir : Type
  | agents (sub : String)
  | projects (sub : String)
  | templates (sub : String)
  | shared
  | temp
deriving Repr, DecidableEq

/-- One entity file on disk. -/
structure EFile where
  dir : EDir
  name : String
  entity : Entity
deriving Repr, DecidableEq

/-- `fs.writeFile` on the entity area. -/
def writeEFile (fs : List EFile) (d : EDir) (n : String) (e : Entity) :
    List EFile :=
  match fs with
  | [] => [⟨d, n, e⟩]
  | f :: rest =>
      if f.dir = d ∧ f.name = n then ⟨d, n, e⟩ :: rest
      else f :: writeEFile rest d n e

/-- `fs.readFile` (parsed): the entity stored at `(d, n)`, if any. -/
def fileRead (fs : List EFile) (d : EDir) (n : String) : Option Entity :=
  (fs.find? (fun f => f.dir = d ∧ f.name = n)).map (·.entity)

/-- `fs.unlink`: `none` models the `ENOENT` rejection. -/
def unlinkEFile (fs : List EFile) (d : EDir) (n : String) :
    Option (List EFile) :=
  match fs with
  | [] => none
  | f :: rest =>
      if f.dir = d ∧ f.name = n then some rest
      else (unlinkEFile rest d n).map (f :: ·)

/-- The sub-directories of the `agents` area, in readdir order. -/
def agentSubdirs (fs : List EFile) : List String :=
  dedup (fs.filterMap (fun f => match f.dir with | .agents a => some a | _ => none))

/-- The sub-directories of the `projects` area. -/
def projectSubdirs (fs : List EFile) : List String :=
  dedup (fs.filterMap (fun f => match f.dir with | .projects a => some a | _ => none))

/-- The sub-directories of the `templates` area. -/
def templateSubdirs (fs : List EFile) : List String :=
  dedup (fs.filterMap (fun f => match f.dir with | .templates a => some a | _ => none))

/-- The in-memory state of `StorageManager`: the entity files, the three
indices `this.indices.text` / `.metadata` / `.agentId` (the `vector` index is
declared and never used by any modelled operation), and the bounded entity
cache.  -/
structure SMState where
  files : List EFile
  textIndex : List (String × List String)
  metadataIndex : List (String × List (String × List String))
  agentIdIndex : List (String × List String)
  entityCache : List (String × Entity)
  maxCacheSize : Nat
deriving Repr, DecidableEq

/-- `StorageManager._cacheEntity`. -/
def cacheEntityS (st : SMState) (e : Entity) : SMState :=
  { st with entityCache := trimCache (mapSet st.entityCache e.id e) st.maxCacheSize }

/-- `StorageManager._getEntityPath`: the directory an entity is stored in,
given the `context` string.  Note the final fallback is the `temp` directory. -/
def getEntityPath (e : Entity) (ctx : String) : EDir :=
  if ctx = "agent" ∧ truthy e.agentId then .agents (e.agentId.getD "")
  else if ctx = "project" ∧ truthy e.projectId then .projects (e.projectId.getD "")
  else if ctx = "template" ∧ truthy e.templateId then .templates (e.templateId.getD "")
  else if ctx = "shared" then .shared
  else .temp

/-- `StorageManager._tokenizeText` (identical code also appears as
`QueryEngine._tokenizeText`): lowercase, replace every character that is
neither a word character (`[A-Za-z0-9_]`) nor whitespace by a space, split on
whitespace runs, keep tokens of length `> 1`.  Splitting at every whitespace
character and then filtering by length is the same as splitting on runs,
because the extra pieces produced between adjacent separators are empty.  -/
def isWordChar (c : Char) : Bool :=
  ('a' ≤ c ∧ c ≤ 'z') ∨ ('A' ≤ c ∧ c ≤ 'Z') ∨ ('0' ≤ c ∧ c ≤ '9') ∨ c = '_'

/-- Whitespace for the `\s` class (the characters relevant to this model). -/
def isWs (c : Char) : Bool :=
  c = ' ' ∨ c = '\t' ∨ c = '\n' ∨ c = '\r'

/-- Split a character list at every separator character, producing the
(possibly empty) pieces between separators — the semantics of both
JavaScript's `split` on a single-character-class regex and `String.split`,
stated structurally on the character list. -/
def splitChars (p : Char → Bool) : List Char → List (List Char)
  | [] => [[]]
  | c :: rest =>
      if p c then [] :: splitChars p rest
      else
        match splitChars p rest with
        | [] => [[c]]
        | t :: ts => (c :: t) :: ts

/-- See `isWordChar`.  The lowercase / punctuation-replace / split steps act
on the character list of the string (`String.toLower` is `Char.toLower`
mapped over the characters, and splitting a string is splitting its
characters). -/
def tokenizeText (text : String) : List String :=
  ((splitChars isWs ((text.data.map Char.toLower).map
      (fun c => if isWordChar c ∨ isWs c then c else ' '))).map
    (fun cs => String.mk cs)).filter (fun t => 1 < t.length)

/-- `StorageManager._indexText`: add the entity id to every token's set. -/
def indexText (idx : List (String × List String)) (eid text : String) :
    List (String × List String) :=
  (tokenizeText text).foldl (fun i t => indexAdd i t eid) idx

/-- `StorageManager._indexMetadataValue`. -/
def mdIndexAdd (mi : List (String × List (String × List String)))
    (k v eid : String) : List (String × List (String × List String)) :=
  mapSet mi k (indexAdd ((mi.lookup k).getD []) v eid)

/-- `StorageManager._indexMetadata`: arrays are flattened, scalars indexed
directly (values already stringified, see `MetaVal`). -/
def indexMetadata (mi : List (String × List (String × List String)))
    (eid : String) (md : List (String × MetaVal)) :
    List (String × List (String × List String)) :=
  md.foldl (fun i kv =>
    match kv.2 with
    | .str s => mdIndexAdd i kv.1 s eid
    | .arr l => l.foldl (fun i' item => mdIndexAdd i' kv.1 item eid) i) mi

/-- `StorageManager._indexEntity` (the `_saveIndices` call at its end writes
snapshot files nothing modelled here reads, so it does not appear).  `content`,
`name`, `description` and `agentId` are guarded by JavaScript truthiness;
`metadata` and `tags` are guarded by object/array truthiness, under which an
empty object/array is truthy but indexes nothing, so the guard is equivalent
to folding over the (possibly empty) list. -/
def indexEntity (st : SMState) (e : Entity) : SMState :=
  let ti := if truthy e.content then indexText st.textIndex e.id (e.content.getD "") else st.textIndex
  let ti := if truthy e.name then indexText ti e.id (e.name.getD "") else ti
  let ti := if truthy e.description then indexText ti e.id (e.description.getD "") else ti
  let mi := indexMetadata st.metadataIndex e.id e.metadata
  let mi := e.tags.foldl (fun i t => mdIndexAdd i "tags" t e.id) mi
  let ai := if truthy e.agentId then indexAdd st.agentIdIndex (e.agentId.getD "") e.id else st.agentIdIndex
  { st with textIndex := ti, metadataIndex := mi, agentIdIndex := ai }

/-- `StorageManager._removeEntityFromIndices`: delete the id from every text
token set and every metadata value set (keys are kept even when their sets
become empty), and from the entity's agent set. -/
def removeEntityFromIndices (st : SMState) (e : Entity) : SMState :=
  { st with
    textIndex := st.textIndex.map (fun p => (p.1, p.2.erase e.id)),
    metadataIndex := st.metadataIndex.map
      (fun p => (p.1, p.2.map (fun q => (q.1, q.2.erase e.id)))),
    agentIdIndex :=
      if truthy e.agentId then
        match st.agentIdIndex.lookup (e.agentId.getD "") with
        | some s => mapSet st.agentIdIndex (e.agentId.getD "") (s.erase e.id)
        | none => st.agentIdIndex
      else st.agentIdIndex }

/-- `StorageManager.storeEntity`. -/
def storeEntity (st : SMState) (e₀ : Entity) (ctx : String) (now freshId : String) :
    Except Err (Entity × SMState) :=
  let e₁ := if e₀.id = "" then { e₀ with id := freshId } else e₀
  if e₁.type = "" then .error (.validation "Entity must have a type")
  else
    let e := { e₁ with
      created := if truthy e₁.created then e₁.created else some now,
      updated := some now }
    let d := getEntityPath e ctx
    let st₁ := { st with files := writeEFile st.files d e.id e }
    let st₂ := indexEntity st₁ e
    .ok (e, cacheEntityS st₂ e)

/-- `StorageManager._readEntityFile`: `ENOENT` is `none`; a successful read
also refreshes the cache. -/
def readEntityFile (st : SMState) (d : EDir) (n : String) :
    Option Entity × SMState :=
  match fileRead st.files d n with
  | some e => (some e, cacheEntityS st e)
  | none => (none, st)

/-- Probe a list of directories for `<id>.json`, first hit wins (the scan
loops of `_findEntityInContext`). -/
def scanDirs (st : SMState) (id : String) : List EDir → Option Entity × SMState
  | [] => (none, st)
  | d :: rest =>
      match readEntityFile st d id with
      | (some e, st') => (some e, st')
      | (none, _) => scanDirs st id rest

/-- `StorageManager._findEntityInContext`: scan all sub-directories of the
given kind (or the single shared directory); a context string that matches no
branch falls through to the final `Entity not found` throw. -/
def findEntityInContext (st : SMState) (id ctx : String) :
    Except Err (Entity × SMState) :=
  let probe :=
    if ctx = "agent" then scanDirs st id ((agentSubdirs st.files).map .agents)
    else if ctx = "project" then scanDirs st id ((projectSubdirs st.files).map .projects)
    else if ctx = "template" then scanDirs st id ((templateSubdirs st.files).map .templates)
    else if ctx = "shared" then readEntityFile st .shared id
    else (none, st)
  match probe with
  | (some e, st') => .ok (e, st')
  | (none, _) => .error (.entityNotFound id)

/-- `StorageManager.getEntity`: cache first, then the given context, or all
four contexts in order `agent → project → template → shared` when none is
given (probe errors are swallowed and the search continues). -/
def getEntity (st : SMState) (id : String) (ctx : Option String) :
    Except Err (Entity × SMState) :=
  match st.entityCache.lookup id with
  | some e => .ok (e, st)
  | none =>
      match ctx with
      | some c => findEntityInContext st id c
      | none =>
          match findEntityInContext st id "agent" with
          | .ok r => .ok r
          | .error _ =>
            match findEntityInContext st id "project" with
            | .ok r => .ok r
            | .error _ =>
              match findEntityInContext st id "template" with
              | .ok r => .ok r
              | .error _ =>
                match findEntityInContext st id "shared" with
                | .ok r => .ok r
                | .error _ => .error (.entityNotFound id)

/-- `StorageManager._getEntityContext`. -/
def getEntityContext (e : Entity) : String :=
  if truthy e.agentId then "agent"
  else if truthy e.projectId then "project"
  else if truthy e.templateId then "template"
  else "shared"

/-- `context || this._getEntityContext(entity)` (a present-but-empty context
string is falsy). -/
def ctxOrDerived (ctx : Option String) (e : Entity) : String :=
  match ctx with
  | some c => if c = "" then getEntityContext e else c
  | none => getEntityContext e

/-- `StorageManager.deleteEntity`.  The surrounding `catch` only logs and
rethrows, so a failing `getEntity` (absent id) and a failing `unlink` (cached
entity whose file is gone) both surface as errors: there is no path on which
`deleteEntity` returns `false`. -/
def deleteEntity (st : SMState) (id : String) (ctx : Option String) :
    Except Err (Bool × SMState) :=
  match getEntity st id ctx with
  | .error e => .error e
  | .ok (ent, st₁) =>
      let d := getEntityPath ent (ctxOrDerived ctx ent)
      let st₂ := removeEntityFromIndices st₁ ent
      let st₃ := { st₂ with entityCache := eraseKey st₂.entityCache id }
      match unlinkEFile st₃.files d ent.id with
      | some files' => .ok (true, { st₃ with files := files' })
      | none => .error .enoent

/-! ## Knowledge graph -/

/-- A relationship as `KnowledgeGraph` sees it; `id` uses `""` for absent. -/
structure Relationship where
  id : String
  sourceId : String
  targetId : String
  type : String
  properties : List (String × String) := []
  created : Option String := none
  updated : Option String := none
deriving Repr, DecidableEq

/-- The in-memory state of `KnowledgeGraph`: the relationship files in the
flat relations directory (keyed by id), the three indices `this.indices.source`
/ `.target` / `.type`, and the bounded relationship cache. -/
structure KGState where
  relFiles : List (String × Relationship)
  srcIndex : List (String × List String)
  tgtIndex : List (String × List String)
  typeIndex : List (String × List String)
  relCache : List (String × Relationship)
  kgMaxCacheSize : Nat
deriving Repr, DecidableEq

/-- `KnowledgeGraph._cacheRelationship`. -/
def cacheRel (st : KGState) (r : Relationship) : KGState :=
  { st with relCache := trimCache (mapSet st.relCache r.id r) st.kgMaxCacheSize }

/-- `KnowledgeGraph._indexRelationship`. -/
def indexRel (st : KGState) (r : Relationship) : KGState :=
  { st with
    srcIndex := indexAdd st.srcIndex r.sourceId r.id,
    tgtIndex := indexAdd st.tgtIndex r.targetId r.id,
    typeIndex := indexAdd st.typeIndex r.type r.id }

/-- `KnowledgeGraph._removeRelationshipFromIndices`. -/
def removeRelFromIndices (st : KGState) (r : Relationship) : KGState :=
  { st with
    srcIndex := indexRemove st.srcIndex r.sourceId r.id,
    tgtIndex := indexRemove st.tgtIndex r.targetId r.id,
    typeIndex := indexRemove st.typeIndex r.type r.id }

/-- `KnowledgeGraph.createRelationship`. -/
def createRelationship (st : KGState) (r₀ : Relationship) (now freshId : String) :
    Except Err (Relationship × KGState) :=
  if r₀.sourceId = "" then .error (.validation "Relationship must have a source ID")
  else if r₀.targetId = "" then .error (.validation "Relationship must have a target ID")
  else if r₀.type = "" then .error (.validation "Relationship must have a type")
  else
    let r₁ := if r₀.id = "" then { r₀ with id := freshId } else r₀
    let r := { r₁ with
      created := if truthy r₁.created then r₁.created else some now,
      updated := some now }
    let st₁ := { st with relFiles := mapSet st.relFiles r.id r }
    .ok (r, cacheRel (indexRel st₁ r) r)

/-- `KnowledgeGraph.getRelationship`: cache first, then the file; an `ENOENT`
read is rethrown as a plain `Relationship not found` error (which therefore
has no `code` property). -/
def getRelationship (st : KGState) (id : String) :
    Except Err (Relationship × KGState) :=
  match st.relCache.lookup id with
  | some r => .ok (r, st)
  | none =>
      match st.relFiles.lookup id with
      | some r => .ok (r, cacheRel st r)
      | none => .error (.relNotFound id)

/-- `fs.unlink` on the relations directory: `none` is `ENOENT`. -/
def unlinkRelFile (fs : List (String × Relationship)) (id : String) :
    Option (List (String × Relationship)) :=
  match fs with
  | [] => none
  | (k, r) :: rest =>
      if k = id then some rest
      else (unlinkRelFile rest id).map ((k, r) :: ·)

/-- `KnowledgeGraph.deleteRelationship`.  The `catch` returns `false` only for
an error whose `code` is `'ENOENT'` — which can only come from the `unlink`,
because `getRelationship` rewraps its `ENOENT` into a code-less error.  Note
that on the `unlink`-`ENOENT` path the index and cache removals have already
happened and are kept. -/
def deleteRelationship (st : KGState) (id : String) :
    Except Err (Bool × KGState) :=
  match getRelationship st id with
  | .error e => if e = .enoent then .ok (false, st) else .error e
  | .ok (rel, st₁) =>
      let st₂ := removeRelFromIndices st₁ rel
      let st₃ := { st₂ with relCache := eraseKey st₂.relCache id }
      match unlinkRelFile st₃.relFiles id with
      | some files' => .ok (true, { st₃ with relFiles := files' })
      | none => .ok (false, st₃)

/-- The `!type || relationship.type === type` filter of `listRelationships`
(an empty type string is falsy and disables the filter). -/
def typePass (ty : Option String) (r : Relationship) : Bool :=
  match ty with
  | none => true
  | some t => t = "" ∨ r.type = t

/-- The result shape of `listRelationships`. -/
structure ListRelsOut where
  relationships : List Relationship
  total : Nat
  limit : Nat
  offset : Nat
deriving Repr, DecidableEq

/-- Resolve a list of relationship ids via `getRelationship`, skipping
failures, filtering by type (the gather loops of `listRelationships`). -/
def gatherRels (st : KGState) (ids : List String) (ty : Option String)
    (acc : List Relationship) : List Relationship × KGState :=
  match ids with
  | [] => (acc, st)
  | id :: rest =>
      match getRelationship st id with
      | .ok (r, st') =>
          if typePass ty r then gatherRels st' rest ty (acc ++ [r])
          else gatherRels st' rest ty acc
      | .error _ => gatherRels st rest ty acc

/-- `KnowledgeGraph.listRelationships`: gather from the source index
(outgoing) and/or the target index (incoming), then paginate; `total` is the
pre-pagination length.  The source's `indices.source.has(entityId)` guard
followed by iterating the set is embedded as iterating the set-or-empty,
which gathers nothing for an absent key exactly like the guard. -/
def listRelationships (st : KGState) (entityId : String) (ty : Option String)
    (direction : String) (limit offset : Nat) : ListRelsOut × KGState :=
  let outP :=
    if direction = "outgoing" ∨ direction = "both" then
      gatherRels st ((st.srcIndex.lookup entityId).getD []) ty []
    else ([], st)
  let inP :=
    if direction = "incoming" ∨ direction = "both" then
      gatherRels outP.2 ((outP.2.tgtIndex.lookup entityId).getD []) ty []
    else ([], outP.2)
  let all := outP.1 ++ inP.1
  ({ relationships := (all.drop offset).take limit,
     total := all.length, limit := limit, offset := offset }, inP.2)

/-! ## Graph traversal -/

/-- One hop of a recorded traversal path. -/
structure PathStep where
  relationshipId : String
  relationshipType : String
  direction : String
deriving Repr, DecidableEq

/-- A recorded traversal path for one entity. -/
structure PathRec where
  distance : Nat
  path : List PathStep
deriving Repr, DecidableEq

/-- The `{entities, relationships, paths}` result of `traverseGraph`. -/
structure TravResult where
  entities : List Entity
  relationships : List Relationship
  paths : List (String × PathRec)
deriving Repr, DecidableEq

/-- The combined system state (storage manager + knowledge graph). -/
structure Sys where
  sm : SMState
  kg : KGState
deriving Repr, DecidableEq

/-- The `relationshipTypes && !relationshipTypes.includes(...)` filter of
`_traverseBFS` (`none` is `null`; an explicit empty array filters everything
out, as in JavaScript where `[]` is truthy). -/
def typeOk (rts : Option (List String)) (t : String) : Bool :=
  match rts with
  | none => true
  | some l => l.contains t

/-- The connected ("other") endpoint of a relationship relative to `eid`. -/
def connOf (eid : String) (r : Relationship) : String :=
  if r.sourceId = eid then r.targetId else r.sourceId

/-- The evolving state of the relationship loop inside `_traverseBFS`:
storage-manager state (entity reads mutate its cache), visited set, result
under construction, and the entries to append to the BFS queue. -/
structure BfsSt where
  sm : SMState
  visited : List String
  res : TravResult
  newQ : List (String × Nat)
deriving Repr, DecidableEq

/-- The body of `for (const relationship of relationships)` in
`_traverseBFS`, processing one relationship of the entity `eid` dequeued at
`depth`. -/
def processRel (rts : Option (List String)) (eid : String) (depth : Nat)
    (b : BfsSt) (rel : Relationship) : BfsSt :=
  if ¬ typeOk rts rel.type then b
  else
    let res₁ :=
      if b.res.relationships.any (fun r => r.id = rel.id) then b.res
      else { b.res with relationships := b.res.relationships ++ [rel] }
    let cid := connOf eid rel
    if cid ∈ b.visited then { b with res := res₁ }
    else
      let visited' := b.visited ++ [cid]
      match getEntity b.sm cid none with
      | .ok (ce, sm') =>
          let step : PathStep :=
            ⟨rel.id, rel.type, if rel.sourceId = eid then "outgoing" else "incoming"⟩
          let base := ((res₁.paths.lookup eid).getD ⟨0, []⟩).path
          let res₂ := { res₁ with
            entities := res₁.entities ++ [ce],
            paths := mapSet res₁.paths cid ⟨depth + 1, base ++ [step]⟩ }
          ⟨sm', visited', res₂, b.newQ ++ [(cid, depth + 1)]⟩
      | .error _ => { b with sm := b.sm, visited := visited', res := res₁ }

/-- The `while (queue.length > 0)` loop of `_traverseBFS`, with explicit fuel
(the loop in the source has no fuel; `traverse_loop_terminates` below shows the
fuel supplied by `traverseGraph` is never exhausted, so the two agree).  Each
dequeued entity below the depth bound lists its relationships with
`limit = 1000` and no type filter — the type filter is applied per
relationship afterwards. -/
def traverseLoop (rts : Option (List String)) (maxDepth : Nat) (direction : String) :
    Nat → SMState → KGState → List (String × Nat) → List String → TravResult →
    Except Err (TravResult × SMState × KGState)
  | fuel, sm, kg, queue, visited, res =>
    match queue with
    | [] => .ok (res, sm, kg)
    | (eid, depth) :: rest =>
        match fuel with
        | 0 => .error .fuelExhausted
        | fuel' + 1 =>
            if maxDepth ≤ depth then
              traverseLoop rts maxDepth direction fuel' sm kg rest visited res
            else
              let lr := listRelationships kg eid none direction 1000 0
              let b := lr.1.relationships.foldl (processRel rts eid depth)
                ⟨sm, visited, res, []⟩
              traverseLoop rts maxDepth direction fuel' b.sm lr.2
                (rest ++ b.newQ) b.visited b.res

/-- Every entity id that occurs as an endpoint of a relationship on file or in
the cache.  The traversal only ever visits the start entity and members of
this list, which bounds the fuel it can consume. -/
def relEndpoints (kg : KGState) : List String :=
  kg.relFiles.map (fun p => p.2.sourceId) ++ kg.relFiles.map (fun p => p.2.targetId)
    ++ kg.relCache.map (fun p => p.2.sourceId) ++ kg.relCache.map (fun p => p.2.targetId)

/-- `KnowledgeGraph.traverseGraph`: resolve the start entity (its absence is
the only error the source lets escape), seed the visited set and the start
path, run the breadth-first loop.  (The `if (!startEntity)` branch in the
source is dead code, because `getEntity` throws rather than returning a falsy
value.) -/
def traverseGraph (sys : Sys) (startId : String) (rts : Option (List String))
    (maxDepth : Nat) (direction : String) : Except Err (TravResult × Sys) :=
  match getEntity sys.sm startId none with
  | .error e => .error e
  | .ok (startEntity, sm₁) =>
      let res₀ : TravResult :=
        { entities := [startEntity], relationships := [],
          paths := [(startId, ⟨0, []⟩)] }
      let fuel := 2 * (relEndpoints sys.kg).length + 2
      match traverseLoop rts maxDepth direction fuel sm₁ sys.kg
          [(startId, 0)] [startId] res₀ with
      | .ok (res, sm', kg') => .ok (res, ⟨sm', kg'⟩)
      | .error e => .error e

/-- `getEntity` over a list of ids (the `Promise.all` in
`findCommonConnections`; under the cooperative single-thread model the awaits
run in order, and any rejection rejects the whole call). -/
def getAll (sm : SMState) (ids : List String) :
    Except Err (List Entity × SMState) :=
  match ids with
  | [] => .ok ([], sm)
  | id :: rest =>
      match getEntity sm id none with
      | .error e => .error e
      | .ok (e, sm') =>
          match getAll sm' rest with
          | .error e => .error e
          | .ok (es, sm'') => .ok (e :: es, sm'')

/-- `traverseGraph` over a list of start ids (the `Promise.all` in
`findCommonConnections`, sequentialised as above). -/
def travAll (sys : Sys) (ids : List String) (rts : Option (List String))
    (maxDepth : Nat) (direction : String) :
    Except Err (List TravResult × Sys) :=
  match ids with
  | [] => .ok ([], sys)
  | i :: rest =>
      match traverseGraph sys i rts maxDepth direction with
      | .error e => .error e
      | .ok (r, sys') =>
          match travAll sys' rest rts maxDepth direction with
          | .error e => .error e
          | .ok (rs, sys'') => .ok (r :: rs, sys'')

/-- The average traversal distance of `findCommonConnections`: a missing path
entry contributes `0` (`result.paths[id]?.distance || 0`; `|| 0` also maps a
present distance `0` to `0`, which is the same value). -/
def avgDistance (results : List TravResult) (eid : String) : Rat :=
  mkRat ((results.map (fun r => ((r.paths.lookup eid).map PathRec.distance).getD 0)).foldl
      (· + ·) 0 : Nat) results.length

/-- `KnowledgeGraph.findCommonConnections`: require at least two ids, traverse
from each, intersect the entity-id sets, drop the original ids, fetch the
common entities, sort ascending by average distance, truncate to `limit`. -/
def findCommonConnections (sys : Sys) (entityIds : List String)
    (rts : Option (List String)) (maxDepth : Nat) (direction : String)
    (limit : Nat) : Except Err (List Entity × Sys) :=
  if entityIds.length < 2 then
    .error (.validation "At least two entity IDs are required")
  else
    match travAll sys entityIds rts maxDepth direction with
    | .error e => .error e
    | .ok (trs, sys₁) =>
        let entitySets : List (List String) :=
          trs.map (fun r => dedup (r.entities.map (·.id)))
        let commonIds₀ := (entitySets.drop 1).foldl
          (fun acc s => acc.filter (fun id => id ∈ s)) (entitySets.headD [])
        let commonIds := commonIds₀.filter (fun id => ¬ id ∈ entityIds)
        match getAll sys₁.sm commonIds with
        | .error e => .error e
        | .ok (commonEntities, sm₂) =>
            let scored := commonEntities.map (fun e => (e, avgDistance trs e.id))
            let sorted := stableSort (fun a b => a.2 ≤ b.2) scored
            .ok ((sorted.take limit).map (·.1), ⟨sm₂, sys₁.kg⟩)

/-! ## Query engine -/

/-- A pre-resolution text-search hit: entity id with normalized score. -/
structure ScoredId where
  entityId : String
  score : Rat
deriving Repr, DecidableEq

/-- A resolved `{entity, score}` result item. -/
structure ScoredEntity where
  entity : Entity
  score : Rat
deriving Repr, DecidableEq

/-- The result shape of `searchByText`. -/
structure TextOut where
  query : String
  results : List ScoredEntity
  total : Nat
  limit : Nat
  offset : Nat
deriving Repr, DecidableEq

/-- The `matchingEntityIds` map of `searchByText`: for every query token with
an entry in the text index, each entity id in that token's set gets its count
incremented. -/
def buildScores (idx : List (String × List String)) (toks : List String) :
    List (String × Nat) :=
  toks.foldl (fun m t =>
    match idx.lookup t with
    | some entities =>
        entities.foldl (fun m' eid => mapSet m' eid (((m'.lookup eid).getD 0) + 1)) m
    | none => m) []

/-- Resolve scored ids to `{entity, score}` items via `getEntity`, dropping
ids that fail to resolve (the `Promise.all` + null filter of `searchByText`). -/
def resolveScored (sm : SMState) (ctx : Option String) :
    List ScoredId → List ScoredEntity × SMState
  | [] => ([], sm)
  | i :: rest =>
      match getEntity sm i.entityId ctx with
      | .ok (e, sm') =>
          let r := resolveScored sm' ctx rest
          (⟨e, i.score⟩ :: r.1, r.2)
      | .error _ => resolveScored sm ctx rest

/-- The cache-only `agentId` post-filter of `searchByText` /
`searchByMetadata`: an entity not in the cache is invisible to the filter. -/
def cacheAgentPass (sm : SMState) (ag : String) (eid : String) : Bool :=
  match sm.entityCache.lookup eid with
  | some e => e.agentId = some ag
  | none => false

/-- The cache-only `type` post-filter. -/
def cacheTypePass (sm : SMState) (t : String) (eid : String) : Bool :=
  match sm.entityCache.lookup eid with
  | some e => e.type = t
  | none => false

/-- The scored, thresholded, descending-sorted hit list of `searchByText`:
count matching tokens per entity via the inverted index, normalize by the
query token count (the source divides two numbers; `mkRat` is that division
on `Rat`, see `mkRat_nat_div`), drop scores below the threshold, sort
descending (stable). -/
def textScored (sm : SMState) (query : String) (threshold : Rat) :
    List ScoredId :=
  stableSort (fun a b => b.score ≤ a.score)
    (((buildScores sm.textIndex (tokenizeText query)).map
        (fun p => (⟨p.1, mkRat p.2 (tokenizeText query).length⟩ : ScoredId))).filter
      (fun i => threshold ≤ i.score))

/-- The pre-pagination result list of `searchByText`: `textScored` under the
cache-only `agentId`/`type` filters. -/
def textPreResults (sm : SMState) (query : String) (threshold : Rat)
    (ty agentId : Option String) : List ScoredId :=
  let results₃ :=
    match agentId with
    | none => textScored sm query threshold
    | some ag => (textScored sm query threshold).filter
        (fun i => cacheAgentPass sm ag i.entityId)
  match ty with
  | none => results₃
  | some t => results₃.filter (fun i => cacheTypePass sm t i.entityId)

/-- `QueryEngine.searchByText`: the pre-pagination results of
`textPreResults`, paginated and resolved.  `total` is the post-filter,
pre-pagination count. -/
def searchByText (sm : SMState) (query : String) (limit offset : Nat)
    (threshold : Rat) (ctx ty agentId : Option String) : TextOut × SMState :=
  let results := textPreResults sm query threshold ty agentId
  let page := (results.drop offset).take limit
  let r := resolveScored sm ctx page
  ({ query := query, results := r.1, total := results.length,
     limit := limit, offset := offset }, r.2)

/-- The result shape of `searchByMetadata` (its items are bare `{entity}`
wrappers; the model returns the entities directly). -/
structure MetaOut where
  results : List Entity
  total : Nat
  limit : Nat
  offset : Nat
deriving Repr, DecidableEq

/-- The `matchingSets` of `searchByMetadata`: for each queried key/value pair
present in the metadata index, its id set, in query order; absent keys and
values contribute nothing. -/
def mdMatchingSets (sm : SMState) (md : List (String × String)) :
    List (List String) :=
  md.foldl (fun acc kv =>
    match sm.metadataIndex.lookup kv.1 with
    | some vm =>
        match vm.lookup kv.2 with
        | some s => acc ++ [s]
        | none => acc
    | none => acc) []

/-- Combine the matching sets: intersection of all of them when `matchAll`,
union otherwise (both rebuilt as insertion-ordered `Set`s, hence the
`dedup`s). -/
def mdCombineIds (sets : List (List String)) (matchAll : Bool) : List String :=
  if matchAll then
    (sets.drop 1).foldl (fun acc s => acc.filter (fun id => id ∈ s))
      (dedup (sets.headD []))
  else dedup (sets.foldl (· ++ ·) [])

/-- Resolve ids to entities via `getEntity`, dropping failures (the
`Promise.all` + null filter of `searchByMetadata`). -/
def resolveIds (sm : SMState) (ctx : Option String) :
    List String → List Entity × SMState
  | [] => ([], sm)
  | id :: rest =>
      match getEntity sm id ctx with
      | .ok (e, sm') =>
          let r := resolveIds sm' ctx rest
          (e :: r.1, r.2)
      | .error _ => resolveIds sm ctx rest

/-- The combined, cache-filtered id list of `searchByMetadata`. -/
def mdPreIds (sm : SMState) (md : List (String × String))
    (ty agentId : Option String) (matchAll : Bool) : List String :=
  let ids := mdCombineIds (mdMatchingSets sm md) matchAll
  let ids₁ :=
    match agentId with
    | none => ids
    | some ag => ids.filter (fun eid => cacheAgentPass sm ag eid)
  match ty with
  | none => ids₁
  | some t => ids₁.filter (fun eid => cacheTypePass sm t eid)

/-- `QueryEngine.searchByMetadata`: collect the per-pair index sets, return
empty immediately when none matched, combine by intersection or union, apply
the cache-only filters, paginate, resolve. -/
def searchByMetadata (sm : SMState) (md : List (String × String))
    (limit offset : Nat) (ctx ty agentId : Option String) (matchAll : Bool) :
    MetaOut × SMState :=
  if mdMatchingSets sm md = [] then
    ({ results := [], total := 0, limit := limit, offset := offset }, sm)
  else
    let ids₂ := mdPreIds sm md ty agentId matchAll
    let page := (ids₂.drop offset).take limit
    let r := resolveIds sm ctx page
    ({ results := r.1, total := ids₂.length,
       limit := limit, offset := offset }, r.2)

/-! ## Concrete states for witnesses and counterexamples -/

/-- A plain typed entity. -/
def entN (i : String) : Entity := { id := i, type := "node" }

/-- A plain relationship. -/
def relN (rid s t ty : String) : Relationship :=
  { id := rid, sourceId := s, targetId := t, type := ty }

/-- A storage-manager state whose shared directory holds the given entities
(fresh caches and indices, default cache bound). -/
def mkSM (es : List Entity) : SMState :=
  { files := es.map (fun e => ⟨.shared, e.id, e⟩),
    textIndex := [], metadataIndex := [], agentIdIndex := [],
    entityCache := [], maxCacheSize := 1000 }

/-- A knowledge-graph state as `initialize`/`_loadIndices` builds it from the
given relationship files: every relationship indexed and cached. -/
def mkKG (rs : List Relationship) : KGState :=
  let st₀ : KGState :=
    { relFiles := rs.map (fun r => (r.id, r)),
      srcIndex := [], tgtIndex := [], typeIndex := [],
      relCache := [], kgMaxCacheSize := 1000 }
  rs.foldl (fun st r => cacheRel (indexRel st r) r) st₀

/-- The A–B–C–D chain of the traversal property: relationships of type
`next`. -/
def chainSys : Sys :=
  { sm := mkSM [entN "A", entN "B", entN "C", entN "D"],
    kg := mkKG [relN "r1" "A" "B" "next", relN "r2" "B" "C" "next",
                relN "r3" "C" "D" "next"] }

/-- The diamond A→B, A→C, C→B of the shortest-path property. -/
def diamondSys : Sys :=
  { sm := mkSM [entN "A", entN "B", entN "C"],
    kg := mkKG [relN "r1" "A" "B" "e", relN "r2" "A" "C" "e",
                relN "r3" "C" "B" "e"] }

/-- A graph in which B is reachable from A only by a 4-hop and a 5-hop path —
both longer than the default `maxDepth = 3`. -/
def farSys : Sys :=
  { sm := mkSM [entN "A", entN "B", entN "X1", entN "X2", entN "X3",
                entN "Y1", entN "Y2", entN "Y3", entN "Y4"],
    kg := mkKG [relN "p1" "A" "X1" "e", relN "p2" "X1" "X2" "e",
                relN "p3" "X2" "X3" "e", relN "p4" "X3" "B" "e",
                relN "q1" "A" "Y1" "e", relN "q2" "Y1" "Y2" "e",
                relN "q3" "Y2" "Y3" "e", relN "q4" "Y3" "Y4" "e",
                relN "q5" "Y4" "B" "e"] }

/-- The entity ids a traversal returned, or `none` when it threw. -/
def travEntityIds (x : Except Err (TravResult × Sys)) : Option (List String) :=
  match x with
  | .ok (r, _) => some (r.entities.map (·.id))
  | .error _ => none

/-- The recorded path for one entity, or `none` when the traversal threw or
recorded nothing. -/
def travPathOf (x : Except Err (TravResult × Sys)) (eid : String) :
    Option PathRec :=
  match x with
  | .ok (r, _) => r.paths.lookup eid
  | .error _ => none

/-- The boolean a delete call returned, or `none` when it threw. -/
def relDelOutcome (x : Except Err (Bool × KGState)) : Option Bool :=
  match x with
  | .ok (b, _) => some b
  | .error _ => none

/-- See `relDelOutcome`. -/
def entDelOutcome (x : Except Err (Bool × SMState)) : Option Bool :=
  match x with
  | .ok (b, _) => some b
  | .error _ => none

/-- The state after a relationship delete (the input state when it threw). -/
def relDelState (st : KGState) (id : String) : KGState :=
  match deleteRelationship st id with
  | .ok (_, st') => st'
  | .error _ => st

/-- The state after an entity delete (the input state when it threw). -/
def entDelState (st : SMState) (id : String) (ctx : Option String) : SMState :=
  match deleteEntity st id ctx with
  | .ok (_, st') => st'
  | .error _ => st

/-! ## Association-list and cache lemmas -/

/-- The directory list of a successful store (diagnostic view used by the
counterexample). -/
def storeDirs (x : Except Err (Entity × SMState)) : Option (List EDir) :=
  match x with
  | .ok (_, st) => some (st.files.map EFile.dir)
  | .error _ => none

/-- The entity produced by the concrete store of `claim_C5_witness`. -/
def c5Ent : Entity := { entN "e1" with created := some "T", updated := some "T" }

/-- The state produced by the concrete store of `claim_C5_witness`. -/
def c5St : SMState :=
  { files := [⟨.temp, "e1", c5Ent⟩], textIndex := [], metadataIndex := [],
    agentIdIndex := [], entityCache := [("e1", c5Ent)], maxCacheSize := 1000 }

/-- The error a delete call raised, if any (diagnostic view for the
counterexample). -/
def relDelErr (x : Except Err (Bool × KGState)) : Option Err :=
  match x with
  | .error e => some e
  | .ok _ => none

/-- See `relDelErr`. -/
def entDelErr (x : Except Err (Bool × SMState)) : Option Err :=
  match x with
  | .error e => some e
  | .ok _ => none

/-- A knowledge-graph state holding one relationship on file, not cached. -/
def c4KG : KGState :=
  { relFiles := [("r1", relN "r1" "A" "B" "next")],
    srcIndex := [("A", ["r1"])], tgtIndex := [("B", ["r1"])],
    typeIndex := [("next", ["r1"])], relCache := [], kgMaxCacheSize := 1000 }

/-- Every relationship file is named after the id it contains. -/
def WFkgFiles (kg : KGState) : Prop := ∀ p ∈ kg.relFiles, p.2.id = p.1

/-- Every cached relationship is named after its id and backed by an
identical file. -/
def WFkgCache (kg : KGState) : Prop :=
  ∀ p ∈ kg.relCache, p.2.id = p.1 ∧ kg.relFiles.lookup p.1 = some p.2

/-- A well-formed knowledge-graph state. -/
def WFkg (kg : KGState) : Prop := WFkgFiles kg ∧ WFkgCache kg

/-- The pure value of the gather loops of `listRelationships` on a well-formed
state: resolve each id against the files, skip misses, filter by type. -/
def gatherPure (fsm : List (String × Relationship)) (ids : List String)
    (ty : Option String) : List Relationship :=
  match ids with
  | [] => []
  | id :: rest =>
      match fsm.lookup id with
      | some r =>
          if typePass ty r then r :: gatherPure fsm rest ty
          else gatherPure fsm rest ty
      | none => gatherPure fsm rest ty

/-- The pure value of `listRelationships` on a well-formed state: the gathered
outgoing/incoming lists and the pre-pagination total. -/
def listedPure (fsm : List (String × Relationship))
    (srcIdx tgtIdx : List (String × List String)) (entityId : String)
    (ty : Option String) (direction : String) : List Relationship :=
  (if direction = "outgoing" ∨ direction = "both" then
    gatherPure fsm ((srcIdx.lookup entityId).getD []) ty
  else []) ++
  (if direction = "incoming" ∨ direction = "both" then
    gatherPure fsm ((tgtIdx.lookup entityId).getD []) ty
  else [])

/-- The knowledge-graph state of the C10 witness: one self-loop on `E`. -/
def c10KG : KGState := mkKG [relN "r1" "E" "E" "self"]

/-- Entity files are named after the id they contain, and cache keys match the
cached entity's id — the invariant every reachable storage state satisfies
(files are written at `<entity.id>.json`, cache keys are `entity.id`). -/
def WFsmKeys (sm : SMState) : Prop :=
  (∀ f ∈ sm.files, f.entity.id = f.name) ∧ (∀ p ∈ sm.entityCache, p.2.id = p.1)

/-- The number of query tokens whose inverted-index set contains the entity. -/
def scoreCount (idx : List (String × List String)) (toks : List String)
    (eid : String) : Nat :=
  (toks.filter (fun t => eid ∈ ((idx.lookup t).getD []))).length

/-- The normalized score `searchByText` assigns: matched token count over
total token count. -/
def tokenScore (idx : List (String × List String)) (toks : List String)
    (eid : String) : Rat :=
  mkRat (scoreCount idx toks eid) toks.length

/-- The state after storing the entity `x` with content `alpha beta gamma`. -/
def stC6 : SMState :=
  match storeEntity (mkSM [])
      { entN "x" with content := some "alpha beta gamma" } "shared" "T" "F" with
  | .ok (_, st) => st
  | .error _ => mkSM []

/-- The stored entity of the C6 state. -/
def c6Ent : Entity :=
  { entN "x" with
    content := some "alpha beta gamma",
    created := some "T",
    updated := some "T" }

/-- The metadata state of the C7 example: `e1` tagged `{color: red}` and `e2`
tagged `{color: red, size: large}`. -/
def stC7 : SMState :=
  match storeEntity (mkSM [])
      { entN "e1" with metadata := [("color", .str "red")] } "shared" "T" "F" with
  | .ok (_, st) =>
      match storeEntity st
          { entN "e2" with
            metadata := [("color", .str "red"), ("size", .str "large")] }
          "shared" "T" "F" with
      | .ok (_, st') => st'
      | .error _ => st
  | .error _ => mkSM []

/-- How many of the endpoint ids are not yet visited. -/
def unvisCount (E₀ visited : List String) : Nat :=
  (E₀.filter (fun x => ¬ x ∈ visited)).length

/-- Entity id `bid` is resolvable nowhere in the storage state: no entity file
is named `bid` or holds an entity with id `bid`, and no cached entity has id
`bid`.  A "dangling" relationship endpoint is one that satisfies this. -/
def Unres (sm : SMState) (bid : String) : Prop :=
  (∀ f ∈ sm.files, f.name ≠ bid ∧ f.entity.id ≠ bid) ∧
  (∀ p ∈ sm.entityCache, p.2.id ≠ bid)

/-- A system holding one relationship A→B and no entity files at all. -/
def c8Sys : Sys := ⟨mkSM [], mkKG [relN "r1" "A" "B" "next"]⟩

/-- A system holding the entity A and the dangling relationship A→B (B is
never stored). -/
def danglingSys : Sys := ⟨mkSM [entN "A"], mkKG [relN "r1" "A" "B" "next"]⟩

/-- The common connections returned by `findCommonConnections`, as an id
list (`none` when the call threw). -/
def fccIds (x : Except Err (List Entity × Sys)) : Option (List String) :=
  match x with
  | .ok (es, _) => some (es.map (·.id))
  | .error _ => none

/-- Entities A, B, C, D with C and D each connected to both A and B (and an
extra C→D edge): the common connections of {A, B}. -/
def c9Sys : Sys :=
  { sm := mkSM [entN "A", entN "B", entN "C", entN "D"],
    kg := mkKG [relN "r1" "A" "C" "e", relN "r2" "B" "C" "e",
                relN "r3" "A" "D" "e", relN "r4" "B" "D" "e",
                relN "r5" "C" "D" "e"] }

/-- The static graph data the BFS walks over: the relationship files and the
two endpoint indices, which the loop never modifies, together with the active
type filter and direction. -/
structure GraphView where
  fsm : List (String × Relationship)
  srcIdx : List (String × List String)
  tgtIdx : List (String × List String)
  rts : Option (List String)
  direction : String

/-- The successors the BFS discovers from `x`: the first 1000 of its listed
relationships, filtered by type, each mapped to its connected endpoint. -/
def succsOf (G : GraphView) (x : String) : List String :=
  (((listedPure G.fsm G.srcIdx G.tgtIdx x none G.direction).take 1000).filter
    (fun rel => typeOk G.rts rel.type)).map (fun rel => connOf x rel)

/-- `z` is reachable from `start` in exactly `n` successor hops. -/
inductive ReachS (G : GraphView) (start : String) : String → Nat → Prop
  | refl : ReachS G start start 0
  | step {y z : String} {n : Nat} (h : ReachS G start y n)
      (hz : z ∈ succsOf G y) : ReachS G start z (n + 1)

/-- All entity ids appearing as endpoints of on-file relationships. -/
def fileEnds (fsm : List (String × Relationship)) : List String :=
  fsm.map (fun p => p.2.sourceId) ++ fsm.map (fun p => p.2.targetId)

/-- The breadth-first invariant, at the top of each `while` iteration: the
graph data is fixed and well-formed, storage keys stay consistent and every
file endpoint stays resolvable; visited = recorded; the start is recorded at
distance 0; queue entries carry their recorded distances, in nondecreasing
order with spread at most one; every recorded distance is within one of every
queued depth; every recorded node is still queued, was cut off by `maxDepth`,
or has all its successors recorded within distance +1; and every recorded
distance is a true hop count and minimal. -/
structure LoopInv (G : GraphView) (maxDepth : Nat) (start : String)
    (sm : SMState) (kg : KGState) (queue : List (String × Nat))
    (visited : List String) (res : TravResult) : Prop where
  hfsm : kg.relFiles = G.fsm
  hsrc : kg.srcIndex = G.srcIdx
  htgt : kg.tgtIndex = G.tgtIdx
  hwfkg : WFkg kg
  hwfsm : WFsmKeys sm
  hfb : ∀ x ∈ fileEnds G.fsm, ∃ f ∈ sm.files, f.name = x ∧ f.dir ≠ EDir.temp
  hvp : ∀ y, y ∈ visited ↔ ∃ p, res.paths.lookup y = some p
  hstart : ∃ p, res.paths.lookup start = some p ∧ p.distance = 0
  hqrec : ∀ yd ∈ queue, ∃ p, res.paths.lookup yd.1 = some p ∧ p.distance = yd.2
  hqsorted : queue.Pairwise (fun a b => a.2 ≤ b.2)
  hqspread : ∀ a ∈ queue, ∀ b ∈ queue, a.2 ≤ b.2 + 1
  hqbound : ∀ y p, res.paths.lookup y = some p → ∀ b ∈ queue, p.distance ≤ b.2 + 1
  hfront : ∀ y p, res.paths.lookup y = some p →
    (y, p.distance) ∈ queue ∨ maxDepth ≤ p.distance ∨
    ∀ z ∈ succsOf G y, ∃ q, res.paths.lookup z = some q ∧
      q.distance ≤ p.distance + 1
  hmin : ∀ y p, res.paths.lookup y = some p →
    ReachS G start y p.distance ∧
    ∀ m, ReachS G start y m → p.distance ≤ m

/-- The invariant of the `for (const relationship of relationships)` loop
processing the front entity `x` at depth `dx`: relative to the iteration-start
result `res₀`, paths only grow, new queue entries sit at `dx + 1` and are
recorded, every recorded distance is at most `dx + 1`, minimality holds, and
every recorded node is queued, cut off, successor-complete, or is `x` itself
(whose successor-completeness the running loop is establishing). -/
structure FoldInv (G : GraphView) (maxDepth : Nat) (start x : String)
    (dx : Nat) (rest : List (String × Nat)) (res₀ : TravResult)
    (b : BfsSt) : Prop where
  hwfsm : WFsmKeys b.sm
  hfb : ∀ x' ∈ fileEnds G.fsm, ∃ f ∈ b.sm.files, f.name = x' ∧ f.dir ≠ EDir.temp
  hmono : ∀ y p, res₀.paths.lookup y = some p → b.res.paths.lookup y = some p
  hvp : ∀ y, y ∈ b.visited ↔ ∃ p, b.res.paths.lookup y = some p
  hnewq : ∀ yd ∈ b.newQ, yd.2 = dx + 1 ∧
    ∃ p, b.res.paths.lookup yd.1 = some p ∧ p.distance = yd.2
  hbound : ∀ y p, b.res.paths.lookup y = some p → p.distance ≤ dx + 1
  hmin : ∀ y p, b.res.paths.lookup y = some p →
    ReachS G start y p.distance ∧
    ∀ m, ReachS G start y m → p.distance ≤ m
  hfront : ∀ y p, b.res.paths.lookup y = some p →
    (y, p.distance) ∈ rest ++ b.newQ ∨ maxDepth ≤ p.distance ∨
    (∀ z ∈ succsOf G y, ∃ q, b.res.paths.lookup z = some q ∧
      q.distance ≤ p.distance + 1) ∨
    (y = x ∧ p.distance = dx)

/-- The BFS successor view of `farSys` with no type filter, direction
`both`. -/
def farG : GraphView :=
  ⟨farSys.kg.relFiles, farSys.kg.srcIndex, farSys.kg.tgtIndex, none, "both"⟩

/-- The BFS successor view of the diamond with no type filter, direction
`both`. -/
def diaG : GraphView :=
  ⟨diamondSys.kg.relFiles, diamondSys.kg.srcIndex, diamondSys.kg.tgtIndex,
   none, "both"⟩

/-- One entity A and no relationships at all. -/
def c3Sys : Sys := ⟨mkSM [entN "A"], mkKG []⟩

theorem lookup_cons_self {α : Type} (k : String) (b : α) (es : List (String × α)) :
    ((k, b) :: es).lookup k = some b := by
  rw [List.lookup_cons, beq_self_eq_true]

theorem lookup_cons_ne {α : Type} {k a : String} (h : k ≠ a) (b : α)
    (es : List (String × α)) : ((a, b) :: es).lookup k = es.lookup k := by
  rw [List.lookup_cons, beq_eq_false_iff_ne.mpr h]

theorem lookup_mapSet_self {α : Type} (m : List (String × α)) (k : String) (v : α) :
    (mapSet m k v).lookup k = some v := by
  induction m with
  | nil => simp [mapSet, lookup_cons_self]
  | cons p rest ih =>
      obtain ⟨k', v'⟩ := p
      by_cases h : k' = k
      · simp [mapSet, h, lookup_cons_self]
      · rw [show mapSet ((k', v') :: rest) k v = (k', v') :: mapSet rest k v from by
          simp [mapSet, h]]
        rw [lookup_cons_ne (Ne.symm h), ih]

theorem lookup_mapSet_ne {α : Type} (m : List (String × α)) {k k' : String} (v : α)
    (h : k' ≠ k) : (mapSet m k v).lookup k' = m.lookup k' := by
  induction m with
  | nil => simp [mapSet, lookup_cons_ne h]
  | cons p rest ih =>
      obtain ⟨k₁, v₁⟩ := p
      by_cases h1 : k₁ = k
      · have h2 : k' ≠ k₁ := fun hk => h (hk.trans h1)
        rw [show mapSet ((k₁, v₁) :: rest) k v = (k, v) :: rest from by
          simp [mapSet, h1]]
        rw [lookup_cons_ne h, lookup_cons_ne h2]
      · rw [show mapSet ((k₁, v₁) :: rest) k v = (k₁, v₁) :: mapSet rest k v from by
          simp [mapSet, h1]]
        by_cases h2 : k' = k₁
        · subst h2
          rw [lookup_cons_self, lookup_cons_self]
        · rw [lookup_cons_ne h2, lookup_cons_ne h2, ih]

theorem mapSet_of_lookup_none {α : Type} {m : List (String × α)} {k : String} (v : α)
    (h : m.lookup k = none) : mapSet m k v = m ++ [(k, v)] := by
  induction m with
  | nil => simp [mapSet]
  | cons p rest ih =>
      obtain ⟨k₁, v₁⟩ := p
      by_cases h1 : k = k₁
      · subst h1
        rw [lookup_cons_self] at h
        exact absurd h (by simp)
      · rw [lookup_cons_ne h1] at h
        have h2 : ¬ k₁ = k := fun hk => h1 hk.symm
        simp [mapSet, h2, ih h]

theorem length_mapSet_of_lookup_some {α : Type} {m : List (String × α)} {k : String}
    (v : α) {w : α} (h : m.lookup k = some w) : (mapSet m k v).length = m.length := by
  induction m with
  | nil => simp [List.lookup] at h
  | cons p rest ih =>
      obtain ⟨k₁, v₁⟩ := p
      by_cases h1 : k₁ = k
      · simp [mapSet, h1]
      · rw [lookup_cons_ne (fun hk => h1 hk.symm)] at h
        simp [mapSet, h1, ih h]

theorem lookup_append_of_none {α : Type} {l₁ : List (String × α)}
    (l₂ : List (String × α)) {k : String} (h : l₁.lookup k = none) :
    (l₁ ++ l₂).lookup k = l₂.lookup k := by
  induction l₁ with
  | nil => simp
  | cons p rest ih =>
      obtain ⟨k₁, v₁⟩ := p
      by_cases h1 : k = k₁
      · subst h1
        rw [lookup_cons_self] at h
        exact absurd h (by simp)
      · rw [lookup_cons_ne h1] at h
        rw [List.cons_append, lookup_cons_ne h1, ih h]

theorem lookup_eq_none_of_forall {α : Type} {l : List (String × α)} {k : String}
    (h : ∀ p ∈ l, p.1 ≠ k) : l.lookup k = none := by
  induction l with
  | nil => rfl
  | cons p rest ih =>
      obtain ⟨k₁, v₁⟩ := p
      have h1 : k₁ ≠ k := h (k₁, v₁) (by simp)
      rw [lookup_cons_ne (Ne.symm h1)]
      exact ih (fun q hq => h q (by simp [hq]))

theorem forall_of_lookup_eq_none {α : Type} {l : List (String × α)} {k : String}
    (h : l.lookup k = none) : ∀ p ∈ l, p.1 ≠ k := by
  induction l with
  | nil => simp
  | cons p rest ih =>
      obtain ⟨k₁, v₁⟩ := p
      by_cases h1 : k = k₁
      · subst h1
        rw [lookup_cons_self] at h
        exact absurd h (by simp)
      · rw [lookup_cons_ne h1] at h
        intro q hq
        rcases List.mem_cons.mp hq with h2 | h2
        · subst h2; exact fun hk => h1 hk.symm
        · exact ih h q h2

theorem lookup_drop_none {α : Type} {l : List (String × α)} {k : String}
    (h : l.lookup k = none) (n : Nat) : (l.drop n).lookup k = none :=
  lookup_eq_none_of_forall fun p hp =>
    forall_of_lookup_eq_none h p (List.drop_subset n l hp)

theorem trim_of_le {α : Type} {m : List (String × α)} {mx : Nat}
    (h : m.length ≤ mx) : trimCache m mx = m := by
  simp [trimCache, Nat.not_lt_of_le h]

/-- The cache lookup that makes the store/get round trip work: after
`_cacheEntity`-style set-and-trim on a cache that respected its bound, the
entity just written is found. -/
theorem lookup_cache_after_set {α : Type} {m : List (String × α)} {k : String}
    (v : α) {mx : Nat} (hlen : m.length ≤ mx) (hmx : 1 ≤ mx) :
    (trimCache (mapSet m k v) mx).lookup k = some v := by
  cases hm : m.lookup k with
  | some w =>
      rw [trim_of_le (by rw [length_mapSet_of_lookup_some v hm]; exact hlen)]
      exact lookup_mapSet_self m k v
  | none =>
      rw [mapSet_of_lookup_none v hm]
      by_cases hlen2 : m.length + 1 ≤ mx
      · rw [trim_of_le (by simpa using hlen2)]
        rw [lookup_append_of_none _ hm]
        simp [List.lookup]
      · have hmxeq : m.length = mx := Nat.le_antisymm hlen (by omega)
        have hgt : mx < (m ++ [(k, v)]).length := by simp [hmxeq]
        have hdrop : (m ++ [(k, v)]).length - mx = 1 := by simp [hmxeq]
        rw [trimCache, if_pos hgt, hdrop,
          List.drop_append_of_le_length (by omega)]
        rw [lookup_append_of_none _ (lookup_drop_none hm 1)]
        simp [List.lookup]

/-! ## C5: storage partition -/

theorem fileRead_writeEFile_self (fs : List EFile) (d : EDir) (n : String)
    (e : Entity) : fileRead (writeEFile fs d n e) d n = some e := by
  induction fs with
  | nil =>
      simp only [writeEFile, fileRead]
      rw [List.find?_cons_of_pos _ (by simp)]
      rfl
  | cons f rest ih =>
      by_cases h : f.dir = d ∧ f.name = n
      · simp only [writeEFile, if_pos h, fileRead]
        rw [List.find?_cons_of_pos _ (by simp)]
        rfl
      · simp only [writeEFile, if_neg h]
        simp only [fileRead] at ih ⊢
        rw [List.find?_cons_of_neg _ (by simpa using h)]
        exact ih

/-- Decomposition of a successful `storeEntity`: the returned entity is the
stamped input, the file is written at the path `_getEntityPath` chose, and the
cache was refreshed with it. -/
theorem storeEntity_ok_state {st : SMState} {e : Entity} {ctx now fid : String}
    {s : Entity} {st' : SMState}
    (h : storeEntity st e ctx now fid = .ok (s, st')) :
    st'.files = writeEFile st.files (getEntityPath s ctx) s.id s ∧
    st'.entityCache = trimCache (mapSet st.entityCache s.id s) st.maxCacheSize ∧
    st'.maxCacheSize = st.maxCacheSize := by
  unfold storeEntity at h
  by_cases h1 : (if e.id = "" then { e with id := fid } else e).type = ""
  · simp only [h1, if_true, reduceCtorEq] at h
  · simp only [h1, if_false] at h
    rw [Except.ok.injEq, Prod.mk.injEq] at h
    obtain ⟨hs, hst⟩ := h
    subst hs
    subst hst
    refine ⟨rfl, ?_, rfl⟩
    simp [cacheEntityS, indexEntity]

/-- Claim C5 (amended): `storeEntity` writes the entity file into the
partition `_getEntityPath` selects: the agent partition for context `agent`
with a truthy `agentId`, the project partition for `project` with `projectId`,
the template partition for `template` with `templateId`, the shared partition
for context `shared` — and in every other case (unrecognized context, or a
recognized context whose required attribute is missing) the `temp` partition,
not the shared one. -/
theorem claim_C5_storage_partition (st : SMState) (e : Entity)
    (ctx now fid : String) (s : Entity) (st' : SMState)
    (h : storeEntity st e ctx now fid = .ok (s, st')) :
    fileRead st'.files (getEntityPath s ctx) s.id = some s ∧
    (ctx = "agent" → truthy s.agentId →
      getEntityPath s ctx = .agents (s.agentId.getD "")) ∧
    (ctx = "project" → truthy s.projectId →
      getEntityPath s ctx = .projects (s.projectId.getD "")) ∧
    (ctx = "template" → truthy s.templateId →
      getEntityPath s ctx = .templates (s.templateId.getD "")) ∧
    (ctx = "shared" → getEntityPath s ctx = .shared) ∧
    (¬ (ctx = "agent" ∧ truthy s.agentId) → ¬ (ctx = "project" ∧ truthy s.projectId) →
      ¬ (ctx = "template" ∧ truthy s.templateId) → ctx ≠ "shared" →
      getEntityPath s ctx = .temp) := by
  obtain ⟨hf, _, _⟩ := storeEntity_ok_state h
  refine ⟨by rw [hf]; exact fileRead_writeEFile_self _ _ _ _, ?_, ?_, ?_, ?_, ?_⟩
  · intro h1 h2; simp [getEntityPath, h1, h2]
  · intro h1 h2
    subst h1
    simp only [getEntityPath]
    rw [if_neg (by simp), if_pos (by simp [h2])]
  · intro h1 h2
    subst h1
    simp only [getEntityPath]
    rw [if_neg (by simp), if_neg (by simp), if_pos (by simp [h2])]
  · intro h1
    subst h1
    simp only [getEntityPath]
    rw [if_neg (by simp), if_neg (by simp), if_neg (by simp), if_pos (by simp)]
  · intro h1 h2 h3 h4
    simp only [getEntityPath]
    rw [if_neg (by simpa using h1), if_neg (by simpa using h2),
      if_neg (by simpa using h3), if_neg h4]

/-- Claim C5, as frozen, is false: storing with context `agent` an entity that
has no `agentId` (and likewise storing with an unrecognized context) places the
file in the `temp` partition, not the `shared` one. -/
theorem claim_C5_counterexample :
    storeDirs (storeEntity (mkSM []) (entN "e1") "agent" "T" "F")
      = some [EDir.temp] ∧
    storeDirs (storeEntity (mkSM []) (entN "e1") "bogus" "T" "F")
      = some [EDir.temp] := by
  constructor <;> rfl

theorem claim_C5_witness :
    storeEntity (mkSM []) (entN "e1") "bogus" "T" "F" = .ok (c5Ent, c5St) ∧
    getEntityPath c5Ent "bogus" = .temp ∧
    fileRead c5St.files (getEntityPath c5Ent "bogus") c5Ent.id = some c5Ent := by
  have h : storeEntity (mkSM []) (entN "e1") "bogus" "T" "F" = .ok (c5Ent, c5St) := rfl
  have hc := claim_C5_storage_partition (mkSM []) (entN "e1") "bogus" "T" "F" c5Ent c5St h
  exact ⟨h, hc.2.2.2.2.2 (by decide) (by decide) (by decide) (by decide), hc.1⟩

/-! ## C1: store/get round trip -/

/-- Claim C1: after a successful `storeEntity` on a state whose cache respects
its (positive) bound, `getEntity` with the stored id — under any context —
returns the stored entity exactly (in particular equal modulo the `updated`
timestamp), because the store refreshed the cache and `getEntity` is
cache-first. -/
theorem claim_C1_store_get_round_trip (st : SMState) (e : Entity)
    (ctx now fid : String) (s : Entity) (st' : SMState)
    (hlen : st.entityCache.length ≤ st.maxCacheSize)
    (hmx : 1 ≤ st.maxCacheSize)
    (h : storeEntity st e ctx now fid = .ok (s, st')) :
    getEntity st' s.id (some ctx) = .ok (s, st') := by
  obtain ⟨_, hc, hm⟩ := storeEntity_ok_state h
  unfold getEntity
  rw [hc, lookup_cache_after_set s hlen hmx]

theorem claim_C1_witness :
    (mkSM []).entityCache.length ≤ (mkSM []).maxCacheSize ∧
    1 ≤ (mkSM []).maxCacheSize ∧
    storeEntity (mkSM []) (entN "e1") "shared" "T" "F" =
      .ok ({ entN "e1" with created := some "T", updated := some "T" },
           { files := [⟨.shared, "e1", { entN "e1" with created := some "T", updated := some "T" }⟩],
             textIndex := [], metadataIndex := [], agentIdIndex := [],
             entityCache := [("e1", { entN "e1" with created := some "T", updated := some "T" })],
             maxCacheSize := 1000 }) ∧
    getEntity
      { files := [⟨.shared, "e1", { entN "e1" with created := some "T", updated := some "T" }⟩],
        textIndex := [], metadataIndex := [], agentIdIndex := [],
        entityCache := [("e1", { entN "e1" with created := some "T", updated := some "T" })],
        maxCacheSize := 1000 }
      "e1" (some "shared") =
      .ok ({ entN "e1" with created := some "T", updated := some "T" },
           { files := [⟨.shared, "e1", { entN "e1" with created := some "T", updated := some "T" }⟩],
             textIndex := [], metadataIndex := [], agentIdIndex := [],
             entityCache := [("e1", { entN "e1" with created := some "T", updated := some "T" })],
             maxCacheSize := 1000 }) := by
  refine ⟨by decide, by decide, rfl, ?_⟩
  exact claim_C1_store_get_round_trip (mkSM []) (entN "e1") "shared" "T" "F" _ _
    (by decide) (by decide) rfl

/-! ## C4: delete behaviour -/

theorem eraseKey_append_self {α : Type} {m : List (String × α)} {k : String} (v : α)
    (h : m.lookup k = none) : eraseKey (m ++ [(k, v)]) k = m := by
  induction m with
  | nil => simp [eraseKey]
  | cons p rest ih =>
      obtain ⟨k₁, v₁⟩ := p
      by_cases h1 : k = k₁
      · subst h1
        rw [lookup_cons_self] at h
        exact absurd h (by simp)
      · rw [lookup_cons_ne h1] at h
        have h2 : ¬ k₁ = k := fun hk => h1 hk.symm
        simp [eraseKey, h2, ih h]

theorem unlinkRelFile_found {fs : List (String × Relationship)} {id : String}
    {r : Relationship}
    (hu : (fs.filter (fun p => p.1 = id)).length ≤ 1)
    (hf : fs.lookup id = some r) :
    ∃ fs', unlinkRelFile fs id = some fs' ∧ fs'.lookup id = none := by
  induction fs with
  | nil => simp [List.lookup] at hf
  | cons p rest ih =>
      obtain ⟨k, w⟩ := p
      by_cases h1 : k = id
      · subst h1
        refine ⟨rest, by simp [unlinkRelFile], ?_⟩
        rw [List.filter_cons_of_pos (by simp)] at hu
        have : rest.filter (fun p => p.1 = k) = [] := by
          cases hr : rest.filter (fun p => p.1 = k) with
          | nil => rfl
          | cons a l => rw [hr] at hu; simp at hu
        exact lookup_eq_none_of_forall fun q hq => by
          have := List.filter_eq_nil_iff.mp this q hq
          simpa using this
      · rw [lookup_cons_ne (fun hk => h1 hk.symm)] at hf
        rw [List.filter_cons_of_neg (by simp [h1])] at hu
        obtain ⟨fs', hfs', hnone⟩ := ih hu hf
        refine ⟨(k, w) :: fs', by simp [unlinkRelFile, h1, hfs'], ?_⟩
        rw [lookup_cons_ne (fun hk => h1 hk.symm)]
        exact hnone

/-- Conjunct (a): deleting a relationship id that is neither cached nor on
file throws the code-less `Relationship not found` error rather than
returning `false` — `getRelationship` swallowed the only `ENOENT`. -/
theorem deleteRelationship_absent {kg : KGState} {id : String}
    (hc : kg.relCache.lookup id = none) (hf : kg.relFiles.lookup id = none) :
    deleteRelationship kg id = .error (.relNotFound id) := by
  unfold deleteRelationship getRelationship
  rw [hc, hf]
  rfl

theorem fileRead_none_of_none (fs : List EFile) (d : EDir) {n : String}
    (h : ∀ f ∈ fs, ¬ (f.dir = d ∧ f.name = n)) : fileRead fs d n = none := by
  simp only [fileRead, Option.map_eq_none']
  rw [List.find?_eq_none]
  intro f hf
  simpa using h f hf

theorem scanDirs_none {st : SMState} {id : String} {ds : List EDir}
    (h : ∀ d ∈ ds, fileRead st.files d id = none) :
    scanDirs st id ds = (none, st) := by
  induction ds with
  | nil => rfl
  | cons d rest ih =>
      have hd := h d (by simp)
      rw [show scanDirs st id (d :: rest) = scanDirs st id rest from by
        simp [scanDirs, readEntityFile, hd]]
      exact ih fun d' hd' => h d' (by simp [hd'])

/-- A context probe for an id that has no file of that name anywhere. -/
theorem findEntityInContext_absent {st : SMState} {id : String} (c : String)
    (hnone : ∀ f ∈ st.files, f.name ≠ id) :
    findEntityInContext st id c = .error (.entityNotFound id) := by
  have hread : ∀ d : EDir, fileRead st.files d id = none := fun d =>
    fileRead_none_of_none st.files d (fun f hf hfd => hnone f hf hfd.2)
  have hscan : ∀ ds : List EDir, scanDirs st id ds = (none, st) := fun ds =>
    scanDirs_none (fun d _ => hread d)
  unfold findEntityInContext
  split_ifs <;> simp [hscan, hread, readEntityFile]

/-- `getEntity` for an id that is neither cached nor stored under any name. -/
theorem getEntity_absent {st : SMState} {id : String}
    (hc : st.entityCache.lookup id = none)
    (hnone : ∀ f ∈ st.files, f.name ≠ id) (ctx : Option String) :
    getEntity st id ctx = .error (.entityNotFound id) := by
  unfold getEntity
  rw [hc]
  cases ctx with
  | some c => exact findEntityInContext_absent c hnone
  | none => simp [findEntityInContext_absent _ hnone]

theorem unlinkEFile_found {fs : List EFile} {d : EDir} {n : String} {e : Entity}
    (hu : (fs.filter (fun f => f.name = n)).length ≤ 1)
    (hf : fileRead fs d n = some e) :
    ∃ fs', unlinkEFile fs d n = some fs' ∧ ∀ f ∈ fs', f.name ≠ n := by
  induction fs with
  | nil => simp [fileRead, List.find?] at hf
  | cons f₀ rest ih =>
      by_cases h1 : f₀.dir = d ∧ f₀.name = n
      · refine ⟨rest, by simp [unlinkEFile, h1], ?_⟩
        rw [List.filter_cons_of_pos (by simp [h1.2])] at hu
        have hnil : rest.filter (fun f => f.name = n) = [] := by
          cases hr : rest.filter (fun f => f.name = n) with
          | nil => rfl
          | cons a l => rw [hr] at hu; simp at hu
        exact fun q hq => by simpa using List.filter_eq_nil_iff.mp hnil q hq
      · simp only [fileRead] at hf
        rw [List.find?_cons_of_neg _ (by simpa using h1)] at hf
        by_cases h2 : f₀.name = n
        · exfalso
          obtain ⟨g, hg⟩ := Option.map_eq_some'.mp hf
          have hgmem := List.mem_of_find?_eq_some hg.1
          have hgp := List.find?_some hg.1
          have : g ∈ rest.filter (fun f => f.name = n) := by
            rw [List.mem_filter]
            exact ⟨hgmem, by simpa using (by simpa using hgp : g.dir = d ∧ g.name = n).2⟩
          rw [List.filter_cons_of_pos (by simp [h2])] at hu
          rcases hx : rest.filter (fun f => f.name = n) with _ | ⟨a, l⟩
          · rw [hx] at this; simp at this
          · rw [hx] at hu; simp at hu
        · rw [List.filter_cons_of_neg (by simp [h2])] at hu
          obtain ⟨fs', hfs', hnames⟩ := ih hu hf
          refine ⟨f₀ :: fs', by simp [unlinkEFile, h1, hfs'], ?_⟩
          intro q hq
          rcases List.mem_cons.mp hq with h3 | h3
          · subst h3; exact h2
          · exact hnames q h3

/-- `getEntity` without a context for an id that lives (only) in the shared
directory and is not cached: the agent/project/template probes fail and the
shared probe succeeds, refreshing the cache. -/
theorem getEntity_shared {st : SMState} {id : String} {e : Entity}
    (hc : st.entityCache.lookup id = none)
    (hother : ∀ f ∈ st.files, f.name = id → f.dir = .shared)
    (hshared : fileRead st.files .shared id = some e) :
    getEntity st id none = .ok (e, cacheEntityS st e) := by
  have hread : ∀ a : String, ∀ d ∈ [EDir.agents a], fileRead st.files d id = none := by
    intro a d hd
    simp only [List.mem_singleton] at hd
    subst hd
    exact fileRead_none_of_none _ _ fun f hf hfd => by
      have := hother f hf hfd.2
      rw [this] at hfd
      exact absurd hfd.1 (by simp)
  have hreadAny : ∀ d : EDir, d ≠ .shared → fileRead st.files d id = none := by
    intro d hd
    exact fileRead_none_of_none _ _ fun f hf hfd => by
      have := hother f hf hfd.2
      rw [this] at hfd
      exact hd hfd.1.symm
  have hagent : findEntityInContext st id "agent" = .error (.entityNotFound id) := by
    unfold findEntityInContext
    rw [if_pos rfl]
    rw [scanDirs_none (fun d hd => by
      obtain ⟨a, _, ha⟩ := List.mem_map.mp hd
      exact hreadAny d (by rw [← ha]; simp))]
  have hproject : findEntityInContext st id "project" = .error (.entityNotFound id) := by
    unfold findEntityInContext
    rw [if_neg (by decide), if_pos rfl]
    rw [scanDirs_none (fun d hd => by
      obtain ⟨a, _, ha⟩ := List.mem_map.mp hd
      exact hreadAny d (by rw [← ha]; simp))]
  have htemplate : findEntityInContext st id "template" = .error (.entityNotFound id) := by
    unfold findEntityInContext
    rw [if_neg (by decide), if_neg (by decide), if_pos rfl]
    rw [scanDirs_none (fun d hd => by
      obtain ⟨a, _, ha⟩ := List.mem_map.mp hd
      exact hreadAny d (by rw [← ha]; simp))]
  have hsharedp : findEntityInContext st id "shared" = .ok (e, cacheEntityS st e) := by
    unfold findEntityInContext
    rw [if_neg (by decide), if_neg (by decide), if_neg (by decide), if_pos rfl]
    simp [readEntityFile, hshared]
  unfold getEntity
  rw [hc]
  simp only [hagent, hproject, htemplate, hsharedp]

theorem unlinkRelFile_absent {fs : List (String × Relationship)} {id : String}
    (h : ∀ p ∈ fs, p.1 ≠ id) : unlinkRelFile fs id = none := by
  induction fs with
  | nil => rfl
  | cons p rest ih =>
      obtain ⟨k, w⟩ := p
      have hk : k ≠ id := h (k, w) (by simp)
      simp [unlinkRelFile, hk, ih (fun q hq => h q (by simp [hq]))]

/-- Everything `deleteRelationship` does after a successful `getRelationship`:
index removal, cache eviction, then the unlink deciding `true` / `false`. -/
theorem deleteRelationship_found {kg : KGState} {id : String} {r : Relationship}
    {st₁ : KGState} (hget : getRelationship kg id = .ok (r, st₁)) :
    deleteRelationship kg id =
      match unlinkRelFile st₁.relFiles id with
      | some fs' => .ok (true, { removeRelFromIndices st₁ r with
          relCache := eraseKey st₁.relCache id, relFiles := fs' })
      | none => .ok (false, { removeRelFromIndices st₁ r with
          relCache := eraseKey st₁.relCache id }) := by
  unfold deleteRelationship
  rw [hget]
  rfl

/-- Everything `deleteEntity` does after a successful `getEntity`: the unlink
either succeeds (`true`) or raises the `ENOENT`, which the `catch` rethrows. -/
theorem deleteEntity_found {sm : SMState} {id : String} {ctx : Option String}
    {e : Entity} {st₁ : SMState} (hget : getEntity sm id ctx = .ok (e, st₁)) :
    deleteEntity sm id ctx =
      match unlinkEFile st₁.files (getEntityPath e (ctxOrDerived ctx e)) e.id with
      | some fs' => .ok (true, { removeEntityFromIndices st₁ e with
          entityCache := eraseKey st₁.entityCache id, files := fs' })
      | none => .error .enoent := by
  unfold deleteEntity
  rw [hget]
  rfl

/-- Conjunct (d): deleting a cleanly stored relationship twice returns `true`
and then throws `Relationship not found` — it does not return `false`. -/
theorem deleteRelationship_twice {kg : KGState} {id : String} {r : Relationship}
    (hc : kg.relCache.lookup id = none)
    (hlen : kg.relCache.length < kg.kgMaxCacheSize)
    (hf : kg.relFiles.lookup id = some r)
    (hr : r.id = id)
    (hu : (kg.relFiles.filter (fun p => p.1 = id)).length ≤ 1) :
    ∃ kg₁, deleteRelationship kg id = .ok (true, kg₁) ∧
      deleteRelationship kg₁ id = .error (.relNotFound id) := by
  obtain ⟨fs', hfs', hnone⟩ := unlinkRelFile_found hu hf
  have hget : getRelationship kg id = .ok (r, cacheRel kg r) := by
    unfold getRelationship
    rw [hc, hf]
  have hcache : (cacheRel kg r).relCache = kg.relCache ++ [(id, r)] := by
    simp only [cacheRel]
    rw [hr, mapSet_of_lookup_none r hc,
      trim_of_le (by simpa using Nat.succ_le_of_lt hlen)]
  have hstep := deleteRelationship_found hget
  rw [show (cacheRel kg r).relFiles = kg.relFiles from rfl, hfs'] at hstep
  refine ⟨_, hstep, ?_⟩
  apply deleteRelationship_absent
  · show (eraseKey (cacheRel kg r).relCache id).lookup id = none
    rw [hcache, eraseKey_append_self r hc]
    exact hc
  · exact hnone

/-- Conjunct (e): deleting a cleanly stored shared entity twice returns `true`
and then throws `Entity not found`. -/
theorem deleteEntity_twice {sm : SMState} {id : String} {e : Entity}
    (hc : sm.entityCache.lookup id = none)
    (hlen : sm.entityCache.length < sm.maxCacheSize)
    (hshared : fileRead sm.files .shared id = some e)
    (hother : ∀ f ∈ sm.files, f.name = id → f.dir = .shared)
    (hu : (sm.files.filter (fun f => f.name = id)).length ≤ 1)
    (hid : e.id = id)
    (hagent : truthy e.agentId = false) (hproj : truthy e.projectId = false)
    (htempl : truthy e.templateId = false) :
    ∃ sm₁, deleteEntity sm id none = .ok (true, sm₁) ∧
      deleteEntity sm₁ id none = .error (.entityNotFound id) := by
  have hget := getEntity_shared hc hother hshared
  have hcache : (cacheEntityS sm e).entityCache = sm.entityCache ++ [(id, e)] := by
    simp only [cacheEntityS]
    rw [hid, mapSet_of_lookup_none e hc,
      trim_of_le (by simpa using Nat.succ_le_of_lt hlen)]
  have hctx : ctxOrDerived none e = "shared" := by
    simp [ctxOrDerived, getEntityContext, hagent, hproj, htempl]
  have hpath : getEntityPath e "shared" = EDir.shared := by
    simp [getEntityPath]
  obtain ⟨fs', hfs', hnames⟩ := unlinkEFile_found hu hshared
  have hstep := deleteEntity_found hget
  rw [hctx, hpath, show (cacheEntityS sm e).files = sm.files from rfl,
    hid, hfs'] at hstep
  refine ⟨_, hstep, ?_⟩
  have habsent : getEntity
      { removeEntityFromIndices (cacheEntityS sm e) e with
        entityCache := eraseKey (cacheEntityS sm e).entityCache id,
        files := fs' } id none = .error (.entityNotFound id) := by
    apply getEntity_absent
    · show (eraseKey (cacheEntityS sm e).entityCache id).lookup id = none
      rw [hcache, eraseKey_append_self e hc]
      exact hc
    · exact hnames
  unfold deleteEntity
  rw [habsent]

/-- Claim C4 (amended): delete is not idempotent. (a) A relationship id that
is neither cached nor on file makes `deleteRelationship` throw the code-less
`Relationship not found` error (the `ENOENT` check in its `catch` never sees
this error). (b) An entity id with no backing file makes `deleteEntity` throw
`Entity not found`; `deleteEntity` has no `false`-returning path at all.
(c) `deleteRelationship` returns `false` exactly in the one reachable case the
source's `ENOENT` check covers: the relationship is still cached but its
backing file is already gone.  (d)/(e) Delete called twice on a stored
relationship or shared entity returns `true` and then throws the respective
not-found error — it does not return `false` on the second call. -/
theorem claim_C4_delete_behaviour :
    (∀ (kg : KGState) (id : String), kg.relCache.lookup id = none →
      kg.relFiles.lookup id = none →
      deleteRelationship kg id = .error (.relNotFound id)) ∧
    (∀ (sm : SMState) (id : String) (ctx : Option String),
      sm.entityCache.lookup id = none → (∀ f ∈ sm.files, f.name ≠ id) →
      deleteEntity sm id ctx = .error (.entityNotFound id)) ∧
    (∀ (kg : KGState) (id : String) (r : Relationship),
      kg.relCache.lookup id = some r → (∀ p ∈ kg.relFiles, p.1 ≠ id) →
      ∃ kg', deleteRelationship kg id = .ok (false, kg')) ∧
    (∀ (kg : KGState) (id : String) (r : Relationship),
      kg.relCache.lookup id = none → kg.relCache.length < kg.kgMaxCacheSize →
      kg.relFiles.lookup id = some r → r.id = id →
      (kg.relFiles.filter (fun p => p.1 = id)).length ≤ 1 →
      ∃ kg₁, deleteRelationship kg id = .ok (true, kg₁) ∧
        deleteRelationship kg₁ id = .error (.relNotFound id)) ∧
    (∀ (sm : SMState) (id : String) (e : Entity),
      sm.entityCache.lookup id = none → sm.entityCache.length < sm.maxCacheSize →
      fileRead sm.files .shared id = some e →
      (∀ f ∈ sm.files, f.name = id → f.dir = .shared) →
      (sm.files.filter (fun f => f.name = id)).length ≤ 1 →
      e.id = id → truthy e.agentId = false → truthy e.projectId = false →
      truthy e.templateId = false →
      ∃ sm₁, deleteEntity sm id none = .ok (true, sm₁) ∧
        deleteEntity sm₁ id none = .error (.entityNotFound id)) := by
  refine ⟨fun kg id hc hf => deleteRelationship_absent hc hf,
    fun sm id ctx hc hn => ?_,
    fun kg id r hc hn => ?_,
    fun kg id r hc hlen hf hr hu => deleteRelationship_twice hc hlen hf hr hu,
    fun sm id e hc hlen hsh hot hu hid ha hp ht =>
      deleteEntity_twice hc hlen hsh hot hu hid ha hp ht⟩
  · unfold deleteEntity
    rw [getEntity_absent hc hn ctx]
  · have hget : getRelationship kg id = .ok (r, kg) := by
      unfold getRelationship
      rw [hc]
    have hstep := deleteRelationship_found hget
    rw [unlinkRelFile_absent hn] at hstep
    exact ⟨_, hstep⟩

/-- Claim C4, as frozen, is false: on a freshly loaded store holding one
relationship (resp. one shared entity), the first delete returns `true` but
the second delete throws a not-found error instead of returning `false`. -/
theorem claim_C4_counterexample :
    relDelOutcome (deleteRelationship (mkKG [relN "r1" "A" "B" "next"]) "r1")
      = some true ∧
    relDelErr (deleteRelationship
        (relDelState (mkKG [relN "r1" "A" "B" "next"]) "r1") "r1")
      = some (.relNotFound "r1") ∧
    entDelOutcome (deleteEntity (mkSM [entN "A"]) "A" none) = some true ∧
    entDelErr (deleteEntity (entDelState (mkSM [entN "A"]) "A" none) "A" none)
      = some (.entityNotFound "A") :=
  ⟨rfl, rfl, rfl, rfl⟩

theorem claim_C4_witness :
    deleteRelationship (mkKG []) "zzz" = .error (.relNotFound "zzz") ∧
    (∃ kg₁, deleteRelationship c4KG "r1" = .ok (true, kg₁) ∧
      deleteRelationship kg₁ "r1" = .error (.relNotFound "r1")) ∧
    (∃ sm₁, deleteEntity (mkSM [entN "A"]) "A" none = .ok (true, sm₁) ∧
      deleteEntity sm₁ "A" none = .error (.entityNotFound "A")) :=
  ⟨claim_C4_delete_behaviour.1 (mkKG []) "zzz" rfl rfl,
   claim_C4_delete_behaviour.2.2.2.1 c4KG "r1" (relN "r1" "A" "B" "next")
     rfl (by decide) rfl rfl (by decide),
   claim_C4_delete_behaviour.2.2.2.2 (mkSM [entN "A"]) "A" (entN "A")
     rfl (by decide) rfl (by decide) (by decide) rfl rfl rfl rfl⟩

/-! ## Well-formed knowledge-graph states and the pure view of listing

On a state whose relationship cache agrees with the files on disk — the
invariant every reachable state satisfies, since the cache is only ever filled
from successful file writes and reads — `getRelationship` and
`listRelationships` behave like pure functions of the files and indices.
This section proves that correspondence. -/

theorem mem_of_lookup_some {α : Type} {m : List (String × α)} {k : String} {v : α}
    (h : m.lookup k = some v) : (k, v) ∈ m := by
  induction m with
  | nil => simp [List.lookup] at h
  | cons p rest ih =>
      obtain ⟨k₁, v₁⟩ := p
      by_cases h1 : k = k₁
      · subst h1
        rw [lookup_cons_self] at h
        simp at h
        simp [h]
      · rw [lookup_cons_ne h1] at h
        simp [ih h]

theorem mem_mapSet {α : Type} {m : List (String × α)} {k : String} {v : α}
    {p : String × α} (h : p ∈ mapSet m k v) : p ∈ m ∨ p = (k, v) := by
  induction m with
  | nil => simpa [mapSet] using h
  | cons q rest ih =>
      obtain ⟨k₁, v₁⟩ := q
      by_cases h1 : k₁ = k
      · rw [show mapSet ((k₁, v₁) :: rest) k v = (k, v) :: rest from by
          simp [mapSet, h1]] at h
        rcases List.mem_cons.mp h with h2 | h2
        · exact Or.inr h2
        · exact Or.inl (List.mem_cons_of_mem _ h2)
      · rw [show mapSet ((k₁, v₁) :: rest) k v = (k₁, v₁) :: mapSet rest k v from by
          simp [mapSet, h1]] at h
        rcases List.mem_cons.mp h with h2 | h2
        · exact Or.inl (by simp [h2])
        · rcases ih h2 with h3 | h3
          · exact Or.inl (List.mem_cons_of_mem _ h3)
          · exact Or.inr h3

theorem mem_trimCache {α : Type} {m : List (String × α)} {mx : Nat}
    {p : String × α} (h : p ∈ trimCache m mx) : p ∈ m := by
  unfold trimCache at h
  split at h
  · exact List.drop_subset _ m h
  · exact h

/-- Caching a relationship that is identical to its file keeps the state
well-formed. -/
theorem cacheRel_wf {kg : KGState} {r : Relationship} (hwf : WFkg kg)
    (hfile : kg.relFiles.lookup r.id = some r) : WFkg (cacheRel kg r) := by
  refine ⟨hwf.1, fun p hp => ?_⟩
  have hp' := mem_trimCache hp
  rcases mem_mapSet hp' with h | h
  · exact hwf.2 p h
  · subst h
    exact ⟨rfl, hfile⟩

/-- On a well-formed state, `getRelationship` of an id with a file returns
exactly the file's relationship and preserves files, indices and
well-formedness. -/
theorem getRelationship_found {kg : KGState} (hwf : WFkg kg) {id : String}
    {r : Relationship} (hf : kg.relFiles.lookup id = some r) :
    ∃ kg', getRelationship kg id = .ok (r, kg') ∧
      kg'.relFiles = kg.relFiles ∧ kg'.srcIndex = kg.srcIndex ∧
      kg'.tgtIndex = kg.tgtIndex ∧ kg'.typeIndex = kg.typeIndex ∧
      kg'.kgMaxCacheSize = kg.kgMaxCacheSize ∧ WFkg kg' := by
  unfold getRelationship
  cases hc : kg.relCache.lookup id with
  | some r' =>
      obtain ⟨hrid, hrfile⟩ := hwf.2 _ (mem_of_lookup_some hc)
      have : r' = r := by
        rw [hf] at hrfile
        exact (Option.some.injEq _ _ ▸ hrfile.symm :)
      subst this
      exact ⟨kg, rfl, rfl, rfl, rfl, rfl, rfl, hwf⟩
  | none =>
      rw [hf]
      have hrid : r.id = id := hwf.1 _ (mem_of_lookup_some hf)
      refine ⟨cacheRel kg r, rfl, rfl, rfl, rfl, rfl, rfl, ?_⟩
      exact cacheRel_wf hwf (by rw [hrid]; exact hf)

/-- On a well-formed state, `getRelationship` of an id with no file throws.
(A cache hit is impossible: cached entries are file-backed.) -/
theorem getRelationship_none {kg : KGState} (hwf : WFkg kg) {id : String}
    (hf : kg.relFiles.lookup id = none) :
    getRelationship kg id = .error (.relNotFound id) := by
  unfold getRelationship
  cases hc : kg.relCache.lookup id with
  | some r' =>
      obtain ⟨_, hrfile⟩ := hwf.2 _ (mem_of_lookup_some hc)
      rw [hf] at hrfile
      exact absurd hrfile (by simp)
  | none => rw [hf]

theorem gatherRels_pure {kg : KGState} (hwf : WFkg kg) (ids : List String)
    (ty : Option String) (acc : List Relationship) :
    ∃ kg', gatherRels kg ids ty acc = (acc ++ gatherPure kg.relFiles ids ty, kg') ∧
      kg'.relFiles = kg.relFiles ∧ kg'.srcIndex = kg.srcIndex ∧
      kg'.tgtIndex = kg.tgtIndex ∧ kg'.typeIndex = kg.typeIndex ∧
      kg'.kgMaxCacheSize = kg.kgMaxCacheSize ∧ WFkg kg' := by
  induction ids generalizing kg acc with
  | nil => exact ⟨kg, by simp [gatherRels, gatherPure], rfl, rfl, rfl, rfl, rfl, hwf⟩
  | cons id rest ih =>
      cases hf : kg.relFiles.lookup id with
      | some r =>
          obtain ⟨kg₁, hget, hfl, hsrc, htgt, htyp, hmx, hwf₁⟩ :=
            getRelationship_found hwf hf
          by_cases hty : typePass ty r
          · obtain ⟨kg', hg, p1, p2, p3, p4, p5, hwf'⟩ := ih hwf₁ (acc ++ [r])
            refine ⟨kg', ?_, by rw [p1, hfl], by rw [p2, hsrc],
              by rw [p3, htgt], by rw [p4, htyp], by rw [p5, hmx], hwf'⟩
            rw [show gatherRels kg (id :: rest) ty acc
                = gatherRels kg₁ rest ty (acc ++ [r]) from by
              simp [gatherRels, hget, hty]]
            rw [hg, hfl]
            simp [gatherPure, hf, hty]
          · obtain ⟨kg', hg, p1, p2, p3, p4, p5, hwf'⟩ := ih hwf₁ acc
            refine ⟨kg', ?_, by rw [p1, hfl], by rw [p2, hsrc],
              by rw [p3, htgt], by rw [p4, htyp], by rw [p5, hmx], hwf'⟩
            rw [show gatherRels kg (id :: rest) ty acc
                = gatherRels kg₁ rest ty acc from by
              simp [gatherRels, hget, hty]]
            rw [hg, hfl]
            simp [gatherPure, hf, hty]
      | none =>
          have hget := getRelationship_none hwf hf
          obtain ⟨kg', hg, p1, p2, p3, p4, p5, hwf'⟩ := ih hwf acc
          refine ⟨kg', ?_, p1, p2, p3, p4, p5, hwf'⟩
          rw [show gatherRels kg (id :: rest) ty acc
              = gatherRels kg rest ty acc from by simp [gatherRels, hget]]
          rw [hg]
          simp [gatherPure, hf]

theorem listRelationships_pure {kg : KGState} (hwf : WFkg kg) (entityId : String)
    (ty : Option String) (direction : String) (limit offset : Nat) :
    ∃ kg', listRelationships kg entityId ty direction limit offset =
      ({ relationships :=
           (((listedPure kg.relFiles kg.srcIndex kg.tgtIndex entityId ty
               direction).drop offset).take limit),
         total := (listedPure kg.relFiles kg.srcIndex kg.tgtIndex entityId ty
               direction).length,
         limit := limit, offset := offset }, kg') ∧
      kg'.relFiles = kg.relFiles ∧ kg'.srcIndex = kg.srcIndex ∧
      kg'.tgtIndex = kg.tgtIndex ∧ kg'.typeIndex = kg.typeIndex ∧
      kg'.kgMaxCacheSize = kg.kgMaxCacheSize ∧ WFkg kg' := by
  by_cases hout : direction = "outgoing" ∨ direction = "both" <;>
    by_cases hin : direction = "incoming" ∨ direction = "both"
  · obtain ⟨kg₁, h1, q1, q2, q3, q4, q5, hwf₁⟩ :=
      gatherRels_pure hwf ((kg.srcIndex.lookup entityId).getD []) ty []
    rw [List.nil_append] at h1
    obtain ⟨kg₂, h2, p1, p2, p3, p4, p5, hwf₂⟩ :=
      gatherRels_pure hwf₁ ((kg₁.tgtIndex.lookup entityId).getD []) ty []
    rw [List.nil_append, q3, q1] at h2
    refine ⟨kg₂, ?_, by rw [p1, q1], by rw [p2, q2], by rw [p3]; exact q3,
      by rw [p4, q4], by rw [p5, q5], hwf₂⟩
    unfold listRelationships
    simp only [if_pos hout, if_pos hin, h1, q3, h2, listedPure]
  · obtain ⟨kg₁, h1, q1, q2, q3, q4, q5, hwf₁⟩ :=
      gatherRels_pure hwf ((kg.srcIndex.lookup entityId).getD []) ty []
    rw [List.nil_append] at h1
    refine ⟨kg₁, ?_, q1, q2, q3, q4, q5, hwf₁⟩
    unfold listRelationships
    simp only [if_pos hout, if_neg hin, h1, listedPure, List.append_nil]
  · obtain ⟨kg₁, h1, q1, q2, q3, q4, q5, hwf₁⟩ :=
      gatherRels_pure hwf ((kg.tgtIndex.lookup entityId).getD []) ty []
    rw [List.nil_append] at h1
    refine ⟨kg₁, ?_, q1, q2, q3, q4, q5, hwf₁⟩
    unfold listRelationships
    simp only [if_neg hout, if_pos hin, h1, listedPure, List.nil_append]
  · refine ⟨kg, ?_, rfl, rfl, rfl, rfl, rfl, hwf⟩
    unfold listRelationships
    simp only [if_neg hout, if_neg hin, listedPure, List.nil_append]

/-! ## C10: self-loop relationships are listed twice -/

/-- Counting a relationship in a gather: each occurrence of its id in the
gathered id list contributes one copy (other ids resolve to relationships with
other ids, by file well-formedness). -/
theorem count_gatherPure {fsm : List (String × Relationship)} {id : String}
    {r : Relationship} {ty : Option String}
    (hwff : ∀ p ∈ fsm, p.2.id = p.1)
    (hf : fsm.lookup id = some r) (hty : typePass ty r = true)
    (ids : List String) :
    (gatherPure fsm ids ty).count r = ids.count id := by
  have hrid : r.id = id := hwff _ (mem_of_lookup_some hf)
  induction ids with
  | nil => simp [gatherPure]
  | cons i rest ih =>
      by_cases h1 : i = id
      · subst h1
        simp only [gatherPure, hf, hty, if_pos]
        rw [List.count_cons_self, List.count_cons_self, ih]
      · have hcnt : (i :: rest).count id = rest.count id :=
          List.count_cons_of_ne (fun he => h1 he.symm) rest
        cases h2 : fsm.lookup i with
        | some r' =>
            have hr' : r'.id = i := hwff _ (mem_of_lookup_some h2)
            have hne : r ≠ r' := fun he => h1 (by rw [← hr', ← he, hrid])
            by_cases h3 : typePass ty r'
            · simp only [gatherPure, h2, h3, if_pos]
              rw [List.count_cons_of_ne hne, ih, hcnt]
            · simp only [gatherPure, h2]
              rw [if_neg h3, ih, hcnt]
        | none =>
            simp only [gatherPure, h2]
            rw [ih, hcnt]

/-- Claim C10: a self-loop relationship (source = target = `E`) whose id is
recorded once in `E`'s source-index set and once in `E`'s target-index set is
returned twice by `listRelationships(E, null, 'both')` (when the listing fits
the default page) and counted twice in `total`: the two index gathers are
concatenated with no de-duplication before pagination. -/
theorem claim_C10_self_loop_double_listing (kg : KGState) (E : String)
    (r : Relationship) (hwf : WFkg kg)
    (hsrc : r.sourceId = E) (htgt : r.targetId = E)
    (hfile : kg.relFiles.lookup r.id = some r)
    (hsl : ((kg.srcIndex.lookup E).getD []).count r.id = 1)
    (htl : ((kg.tgtIndex.lookup E).getD []).count r.id = 1)
    (hsmall : (listRelationships kg E none "both" 100 0).1.total ≤ 100) :
    (listRelationships kg E none "both" 100 0).1.relationships.count r = 2 ∧
    (listRelationships kg E none "both" 100 0).1.total =
      (listRelationships kg E none "both" 100 0).1.relationships.length := by
  obtain ⟨kg', hlist, -⟩ := listRelationships_pure hwf E none "both" 100 0
  rw [hlist] at hsmall ⊢
  simp only at hsmall ⊢
  set L := listedPure kg.relFiles kg.srcIndex kg.tgtIndex E none "both" with hL
  rw [List.drop_zero, List.take_of_length_le hsmall]
  have hsplit : L = gatherPure kg.relFiles ((kg.srcIndex.lookup E).getD []) none
      ++ gatherPure kg.relFiles ((kg.tgtIndex.lookup E).getD []) none := by
    rw [hL]
    unfold listedPure
    rw [if_pos (Or.inr rfl), if_pos (Or.inr rfl)]
  constructor
  · rw [hsplit, List.count_append,
      count_gatherPure hwf.1 hfile (show typePass none r = true from rfl),
      count_gatherPure hwf.1 hfile (show typePass none r = true from rfl),
      hsl, htl]
  · rfl

theorem claim_C10_witness :
    (listRelationships c10KG "E" none "both" 100 0).1.relationships.count
      (relN "r1" "E" "E" "self") = 2 ∧
    (listRelationships c10KG "E" none "both" 100 0).1.total =
      (listRelationships c10KG "E" none "both" 100 0).1.relationships.length :=
  claim_C10_self_loop_double_listing c10KG "E" (relN "r1" "E" "E" "self")
    (by unfold WFkg WFkgFiles WFkgCache; decide)
    rfl rfl rfl rfl rfl (by decide)

/-! ## Stable sort membership -/

theorem mem_stableInsert {α : Type} (le : α → α → Bool) (x : α) (l : List α)
    (a : α) : a ∈ stableInsert le x l ↔ a = x ∨ a ∈ l := by
  induction l with
  | nil => simp [stableInsert]
  | cons y ys ih =>
      by_cases h : le y x
      · simp only [stableInsert, if_pos h, List.mem_cons, ih]
        try tauto
      · simp only [stableInsert, if_neg h, List.mem_cons]
        try tauto

theorem mem_stableSort {α : Type} (le : α → α → Bool) (l : List α) (a : α) :
    a ∈ stableSort le l ↔ a ∈ l := by
  suffices h : ∀ acc, a ∈ l.foldl (fun acc x => stableInsert le x acc) acc ↔
      a ∈ acc ∨ a ∈ l by
    simpa using h []
  induction l with
  | nil => simp
  | cons x xs ih =>
      intro acc
      simp only [List.foldl_cons, ih, mem_stableInsert, List.mem_cons]
      tauto

/-! ## Well-formed storage states and entity resolution -/

theorem fileRead_some_spec {fs : List EFile} {d : EDir} {n : String} {e : Entity}
    (h : fileRead fs d n = some e) : ∃ f ∈ fs, f.entity = e ∧ f.dir = d ∧ f.name = n := by
  obtain ⟨f, hf, he⟩ := Option.map_eq_some'.mp h
  have hmem := List.mem_of_find?_eq_some hf
  have hp := List.find?_some hf
  simp only [decide_eq_true_eq] at hp
  exact ⟨f, hmem, he, hp.1, hp.2⟩

/-- `_cacheEntity` keeps the key invariant. -/
theorem cacheEntityS_keys {sm : SMState} {e : Entity} (hwk : WFsmKeys sm) :
    WFsmKeys (cacheEntityS sm e) := by
  refine ⟨hwk.1, fun p hp => ?_⟩
  have := mem_trimCache hp
  rcases mem_mapSet this with h | h
  · exact hwk.2 p h
  · subst h; rfl

theorem scanDirs_ok {st : SMState} {id : String} {ds : List EDir} {e : Entity}
    {st' : SMState} (h : scanDirs st id ds = (some e, st')) :
    (∃ d ∈ ds, fileRead st.files d id = some e) ∧ st' = cacheEntityS st e := by
  induction ds with
  | nil => simp [scanDirs] at h
  | cons d rest ih =>
      by_cases hd : fileRead st.files d id = none
      · rw [show scanDirs st id (d :: rest) = scanDirs st id rest from by
          simp [scanDirs, readEntityFile, hd]] at h
        obtain ⟨⟨d', hd', hr⟩, hst⟩ := ih h
        exact ⟨⟨d', by simp [hd'], hr⟩, hst⟩
      · obtain ⟨e', he'⟩ := Option.ne_none_iff_exists'.mp hd
        rw [show scanDirs st id (d :: rest) = (some e', cacheEntityS st e') from by
          simp [scanDirs, readEntityFile, he']] at h
        obtain ⟨h1, h2⟩ := Prod.mk.injEq .. ▸ h
        cases h1
        exact ⟨⟨d, by simp, he'⟩, h2.symm ▸ rfl⟩

theorem findEntityInContext_ok {st : SMState} {id c : String} {e : Entity}
    {st' : SMState} (h : findEntityInContext st id c = .ok (e, st')) :
    (∃ d, fileRead st.files d id = some e) ∧ st' = cacheEntityS st e := by
  unfold findEntityInContext at h
  split_ifs at h
  all_goals first
  | (rcases hscan : scanDirs st id _ with ⟨o, st₁⟩
     · rw [hscan] at h
       cases o with
       | none => simp at h
       | some e' =>
           simp only [Except.ok.injEq, Prod.mk.injEq] at h
           obtain ⟨he, hst⟩ := h
           cases he
           obtain ⟨⟨d, _, hr⟩, h2⟩ := scanDirs_ok hscan
           exact ⟨⟨d, hr⟩, hst ▸ h2⟩)
  | (rcases hread : fileRead st.files .shared id with _ | e'
     · simp only [readEntityFile, hread] at h
       simp at h
     · simp only [readEntityFile, hread] at h
       simp only [Except.ok.injEq, Prod.mk.injEq] at h
       obtain ⟨he, hst⟩ := h
       cases he
       exact ⟨⟨.shared, hread⟩, hst.symm⟩)
  | simp at h

/-- A successful `getEntity` returns an entity whose id is the requested one,
keeps the files untouched and the key invariant intact. -/
theorem getEntity_ok_spec {sm : SMState} {id : String} {ctx : Option String}
    {e : Entity} {sm' : SMState} (hwk : WFsmKeys sm)
    (h : getEntity sm id ctx = .ok (e, sm')) :
    e.id = id ∧ sm'.files = sm.files ∧ sm'.textIndex = sm.textIndex ∧
    sm'.metadataIndex = sm.metadataIndex ∧ sm'.entityCache.length ≥ 0 ∧
    WFsmKeys sm' := by
  have hfromCtx : ∀ (c : String) (st' : SMState),
      findEntityInContext sm id c = .ok (e, st') →
      e.id = id ∧ st'.files = sm.files ∧ st'.textIndex = sm.textIndex ∧
      st'.metadataIndex = sm.metadataIndex ∧ st'.entityCache.length ≥ 0 ∧
      WFsmKeys st' := by
    intro c st' hc
    obtain ⟨⟨d, hr⟩, hst⟩ := findEntityInContext_ok hc
    obtain ⟨f, hf, hfe, _, hfn⟩ := fileRead_some_spec hr
    have hid : e.id = id := by rw [← hfe, hwk.1 f hf, hfn]
    subst hst
    exact ⟨hid, rfl, rfl, rfl, Nat.zero_le _, cacheEntityS_keys hwk⟩
  unfold getEntity at h
  cases hc : sm.entityCache.lookup id with
  | some e' =>
      rw [hc] at h
      simp only [Except.ok.injEq, Prod.mk.injEq] at h
      obtain ⟨he, hst⟩ := h
      cases he
      have hid := hwk.2 _ (mem_of_lookup_some hc)
      subst hst
      exact ⟨hid, rfl, rfl, rfl, Nat.zero_le _, hwk⟩
  | none =>
      rw [hc] at h
      cases ctx with
      | some c => exact hfromCtx c sm' h
      | none =>
          rcases h1 : findEntityInContext sm id "agent" with e1 | r1
          · rw [h1] at h
            rcases h2 : findEntityInContext sm id "project" with e2 | r2
            · rw [h2] at h
              rcases h3 : findEntityInContext sm id "template" with e3 | r3
              · rw [h3] at h
                rcases h4 : findEntityInContext sm id "shared" with e4 | r4
                · rw [h4] at h
                  simp at h
                · rw [h4] at h
                  simp only [Except.ok.injEq] at h
                  obtain ⟨e4a, st4⟩ := r4
                  cases h
                  exact hfromCtx _ _ h4
              · rw [h3] at h
                simp only [Except.ok.injEq] at h
                obtain ⟨e3a, st3⟩ := r3
                cases h
                exact hfromCtx _ _ h3
            · rw [h2] at h
              simp only [Except.ok.injEq] at h
              obtain ⟨e2a, st2⟩ := r2
              cases h
              exact hfromCtx _ _ h2
          · rw [h1] at h
            simp only [Except.ok.injEq] at h
            obtain ⟨e1a, st1⟩ := r1
            cases h
            exact hfromCtx _ _ h1

/-! ## C6: text-search scoring -/

/-- `mkRat` on naturals is exactly the division the source performs. -/
theorem mkRat_nat_div (a b : Nat) : mkRat a b = (a : Rat) / (b : Rat) := by
  rw [Rat.mkRat_eq_div]
  norm_num

/-- Effect of one token's per-entity increment loop on a fixed entity's
count. -/
theorem innerFold_lookup (eid : String) :
    ∀ (S : List String), S.Nodup → ∀ m : List (String × Nat),
      ((S.foldl (fun m' e => mapSet m' e (((m'.lookup e).getD 0) + 1)) m).lookup eid)
        = if eid ∈ S then some (((m.lookup eid).getD 0) + 1) else m.lookup eid := by
  intro S
  induction S with
  | nil => intro _ m; simp
  | cons e S' ih =>
      intro hnd m
      obtain ⟨hne, hnd'⟩ := List.nodup_cons.mp hnd
      rw [List.foldl_cons, ih hnd' _]
      by_cases he : e = eid
      · subst he
        rw [if_neg hne, if_pos (by simp), lookup_mapSet_self]
      · have hne2 : eid ≠ e := fun hh => he hh.symm
        rw [lookup_mapSet_ne _ _ hne2]
        by_cases hm : eid ∈ S'
        · rw [if_pos hm, if_pos (by simp [hm])]
        · rw [if_neg hm, if_neg (by simp [hm, hne2])]

/-- The count accumulated by `buildScores` for a fixed entity: its previous
count plus the number of matching tokens. -/
theorem buildScores_fold (idx : List (String × List String))
    (hidx : ∀ p ∈ idx, p.2.Nodup) (eid : String) :
    ∀ (toks : List String) (m : List (String × Nat)),
      (((toks.foldl (fun m t =>
          match idx.lookup t with
          | some entities =>
              entities.foldl (fun m' e => mapSet m' e (((m'.lookup e).getD 0) + 1)) m
          | none => m) m).lookup eid).getD 0)
        = ((m.lookup eid).getD 0) + scoreCount idx toks eid := by
  intro toks
  induction toks with
  | nil => intro m; simp [scoreCount]
  | cons t toks' ih =>
      intro m
      rw [List.foldl_cons]
      cases hl : idx.lookup t with
      | none =>
          simp only [hl]
          rw [ih m]
          have : scoreCount idx (t :: toks') eid = scoreCount idx toks' eid := by
            unfold scoreCount
            rw [List.filter_cons_of_neg (by simp [hl])]
          rw [this]
      | some S =>
          simp only [hl]
          rw [ih _]
          have hnd : S.Nodup := hidx _ (mem_of_lookup_some hl)
          rw [innerFold_lookup eid S hnd m]
          by_cases hm : eid ∈ S
          · rw [if_pos hm]
            have : scoreCount idx (t :: toks') eid = scoreCount idx toks' eid + 1 := by
              unfold scoreCount
              rw [List.filter_cons_of_pos (by simp [hl, hm])]
              simp [Nat.add_comm]
            rw [this]
            simp
            omega
          · rw [if_neg hm]
            have : scoreCount idx (t :: toks') eid = scoreCount idx toks' eid := by
              unfold scoreCount
              rw [List.filter_cons_of_neg (by simp [hl, hm])]
            rw [this]

theorem keys_mapSet_some {α : Type} {m : List (String × α)} {k : String} (v : α)
    {w : α} (h : m.lookup k = some w) :
    (mapSet m k v).map Prod.fst = m.map Prod.fst := by
  induction m with
  | nil => simp [List.lookup] at h
  | cons p rest ih =>
      obtain ⟨k₁, v₁⟩ := p
      by_cases h1 : k₁ = k
      · simp [mapSet, h1]
      · rw [lookup_cons_ne (fun hk => h1 hk.symm)] at h
        simp [mapSet, h1, ih h]

theorem keys_nodup_mapSet {α : Type} {m : List (String × α)} (k : String) (v : α)
    (h : (m.map Prod.fst).Nodup) : ((mapSet m k v).map Prod.fst).Nodup := by
  cases hl : m.lookup k with
  | some w => rw [keys_mapSet_some v hl]; exact h
  | none =>
      rw [mapSet_of_lookup_none v hl, List.map_append]
      simp only [List.map_cons, List.map_nil]
      rw [List.nodup_append]
      refine ⟨h, List.nodup_singleton k, ?_⟩
      intro a ha hb
      simp only [List.mem_singleton] at hb
      subst hb
      obtain ⟨p, hp, hpk⟩ := List.mem_map.mp ha
      exact forall_of_lookup_eq_none hl p hp hpk

theorem keys_nodup_innerFold (S : List String) :
    ∀ m : List (String × Nat), (m.map Prod.fst).Nodup →
      ((S.foldl (fun m' e => mapSet m' e (((m'.lookup e).getD 0) + 1)) m).map
        Prod.fst).Nodup := by
  induction S with
  | nil => intro m h; exact h
  | cons e S' ih =>
      intro m h
      rw [List.foldl_cons]
      exact ih _ (keys_nodup_mapSet _ _ h)

theorem keys_nodup_buildScores (idx : List (String × List String))
    (toks : List String) : ((buildScores idx toks).map Prod.fst).Nodup := by
  unfold buildScores
  suffices hgen : ∀ m : List (String × Nat), (m.map Prod.fst).Nodup →
      ((toks.foldl (fun m t =>
          match idx.lookup t with
          | some entities =>
              entities.foldl (fun m' e => mapSet m' e (((m'.lookup e).getD 0) + 1)) m
          | none => m) m).map Prod.fst).Nodup by
    exact hgen [] (by simp)
  induction toks with
  | nil => intro m h; exact h
  | cons t toks' ih =>
      intro m h
      rw [List.foldl_cons]
      cases hl : idx.lookup t with
      | none => simp only [hl]; exact ih m h
      | some S => simp only [hl]; exact ih _ (keys_nodup_innerFold S m h)

theorem lookup_of_mem_nodup {α : Type} {m : List (String × α)} {k : String}
    {v : α} (h : (m.map Prod.fst).Nodup) (hm : (k, v) ∈ m) :
    m.lookup k = some v := by
  induction m with
  | nil => simp at hm
  | cons p rest ih =>
      obtain ⟨k₁, v₁⟩ := p
      rcases List.mem_cons.mp hm with h1 | h1
      · cases h1
        exact lookup_cons_self _ _ _
      · by_cases h2 : k = k₁
        · subst h2
          exfalso
          have : k ∈ rest.map Prod.fst := List.mem_map.mpr ⟨(k, v), h1, rfl⟩
          exact (List.nodup_cons.mp (by simpa using h)).1 this
        · rw [lookup_cons_ne h2]
          exact ih (List.nodup_cons.mp (by simpa using h)).2 h1

/-- The value of every `buildScores` entry: the matched-token count of its
entity. -/
theorem buildScores_entry {idx : List (String × List String)}
    (hidx : ∀ p ∈ idx, p.2.Nodup) {toks : List String} {p : String × Nat}
    (hp : p ∈ buildScores idx toks) : p.2 = scoreCount idx toks p.1 := by
  have hl : (buildScores idx toks).lookup p.1 = some p.2 :=
    lookup_of_mem_nodup (keys_nodup_buildScores idx toks) (by simpa using hp)
  have := buildScores_fold idx hidx p.1 toks []
  unfold buildScores at hl
  rw [hl] at this
  simpa using this

/-- Any item a resolution pass returns keeps its score and resolves to an
entity whose id is the requested one. -/
theorem resolveScored_mem {ctx : Option String} :
    ∀ {sm : SMState}, WFsmKeys sm → ∀ (items : List ScoredId),
      ∀ x ∈ (resolveScored sm ctx items).1, ∃ i ∈ items,
        x.score = i.score ∧ x.entity.id = i.entityId := by
  intro sm hwk items
  induction items generalizing sm with
  | nil => simp [resolveScored]
  | cons i rest ih =>
      intro x hx
      unfold resolveScored at hx
      cases hg : getEntity sm i.entityId ctx with
      | error e =>
          rw [hg] at hx
          obtain ⟨j, hj, hs⟩ := ih hwk x hx
          exact ⟨j, by simp [hj], hs⟩
      | ok p =>
          obtain ⟨e, sm'⟩ := p
          rw [hg] at hx
          obtain ⟨hid, _, _, _, _, hwk'⟩ := getEntity_ok_spec hwk hg
          rcases List.mem_cons.mp hx with h | h
          · subst h
            exact ⟨i, by simp, rfl, hid⟩
          · obtain ⟨j, hj, hs⟩ := ih hwk' x h
            exact ⟨j, by simp [hj], hs⟩

/-- Claim C6: every result item of `searchByText` carries the score
`(matched query tokens) / (total query tokens)` for its entity, where a token
matches when the inverted text index maps it to a set containing the entity;
concretely, after storing `{id: x, content: "alpha beta gamma"}`,
`searchByText "alpha beta"` returns `x` with score `1` and
`searchByText "alpha zeta"` returns `x` with score `1/2`. -/
theorem claim_C6_text_search_scoring :
    (∀ (sm : SMState) (q : String) (limit offset : Nat) (threshold : Rat)
      (ctx ty ag : Option String) (x : ScoredEntity),
      WFsmKeys sm → (∀ p ∈ sm.textIndex, p.2.Nodup) →
      x ∈ (searchByText sm q limit offset threshold ctx ty ag).1.results →
      x.score = tokenScore sm.textIndex (tokenizeText q) x.entity.id) ∧
    (∀ (idx : List (String × List String)) (toks : List String) (eid : String),
      tokenScore idx toks eid
        = (scoreCount idx toks eid : Rat) / (toks.length : Rat)) ∧
    (searchByText stC6 "alpha beta" 10 0 0 none none none).1.results.map
        (fun r => (r.entity.id, r.score)) = [("x", 1)] ∧
    (searchByText stC6 "alpha zeta" 10 0 0 none none none).1.results.map
        (fun r => (r.entity.id, r.score)) = [("x", mkRat 1 2)] := by
  refine ⟨?_, fun idx toks eid => mkRat_nat_div _ _, by decide, by decide⟩
  intro sm q limit offset threshold ctx ty ag x hwk hidx hx
  unfold searchByText at hx
  simp only at hx
  obtain ⟨i, hi, hscore, hid⟩ := resolveScored_mem hwk _ x hx
  have hipre : i ∈ textPreResults sm q threshold ty ag :=
    List.drop_subset _ _ (List.take_subset _ _ hi)
  have hi2 : i ∈ textScored sm q threshold := by
    cases ty <;> cases ag <;> simp only [textPreResults] at hipre <;>
      first
      | exact hipre
      | exact List.mem_of_mem_filter hipre
      | exact List.mem_of_mem_filter (List.mem_of_mem_filter hipre)
  unfold textScored at hi2
  obtain ⟨p, hpmem, hpe⟩ := List.mem_map.mp
    (List.mem_of_mem_filter ((mem_stableSort _ _ _).mp hi2))
  have hval := buildScores_entry hidx hpmem
  rw [hscore, ← hpe]
  simp only
  rw [hval, hid, ← hpe]
  rfl

theorem claim_C6_witness :
    WFsmKeys stC6 ∧ (∀ p ∈ stC6.textIndex, p.2.Nodup) ∧
    (⟨c6Ent, 1⟩ : ScoredEntity) ∈
      (searchByText stC6 "alpha beta" 10 0 0 none none none).1.results ∧
    (⟨c6Ent, 1⟩ : ScoredEntity).score
      = tokenScore stC6.textIndex (tokenizeText "alpha beta") c6Ent.id :=
  ⟨by unfold WFsmKeys; decide, by decide, by decide,
   claim_C6_text_search_scoring.1 stC6 "alpha beta" 10 0 0 none none none
     ⟨c6Ent, 1⟩ (by unfold WFsmKeys; decide) (by decide) (by decide)⟩

/-! ## C7: metadata search combination -/

theorem mem_dedup (l : List String) (x : String) : x ∈ dedup l ↔ x ∈ l := by
  suffices h : ∀ acc, x ∈ l.foldl setAdd acc ↔ x ∈ acc ∨ x ∈ l by
    simpa using h []
  induction l with
  | nil => simp
  | cons a l' ih =>
      intro acc
      rw [List.foldl_cons, ih]
      unfold setAdd
      by_cases ha : a ∈ acc
      · rw [if_pos ha]
        simp only [List.mem_cons]
        constructor
        · rintro (h | h)
          · exact Or.inl h
          · exact Or.inr (Or.inr h)
        · rintro (h | h | h)
          · exact Or.inl h
          · exact Or.inl (h ▸ ha)
          · exact Or.inr h
      · rw [if_neg ha]
        simp only [List.mem_append, List.mem_singleton, List.mem_cons]
        tauto

theorem foldl_filter_mem (L : List (List String)) (x : String) :
    ∀ acc : List String,
      x ∈ L.foldl (fun acc s => acc.filter (fun id => id ∈ s)) acc ↔
      x ∈ acc ∧ ∀ s ∈ L, x ∈ s := by
  induction L with
  | nil => intro acc; simp
  | cons s L' ih =>
      intro acc
      rw [List.foldl_cons, ih]
      simp only [List.mem_filter, List.mem_cons, decide_eq_true_eq]
      constructor
      · rintro ⟨⟨h1, h2⟩, h3⟩
        exact ⟨h1, fun s' hs' => by
          rcases hs' with h | h
          · exact h ▸ h2
          · exact h3 s' h⟩
      · rintro ⟨h1, h2⟩
        exact ⟨⟨h1, h2 s (Or.inl rfl)⟩, fun s' hs' => h2 s' (Or.inr hs')⟩

theorem foldl_append_mem (L : List (List String)) (x : String) :
    ∀ acc : List String,
      x ∈ L.foldl (· ++ ·) acc ↔ x ∈ acc ∨ ∃ s ∈ L, x ∈ s := by
  induction L with
  | nil => intro acc; simp
  | cons s L' ih =>
      intro acc
      rw [List.foldl_cons, ih]
      simp only [List.mem_append, List.mem_cons]
      constructor
      · rintro ((h | h) | ⟨s', hs', h⟩)
        · exact Or.inl h
        · exact Or.inr ⟨s, Or.inl rfl, h⟩
        · exact Or.inr ⟨s', Or.inr hs', h⟩
      · rintro (h | ⟨s', (h1 | h1), h2⟩)
        · exact Or.inl (Or.inl h)
        · exact Or.inl (Or.inr (h1 ▸ h2))
        · exact Or.inr ⟨s', h1, h2⟩

/-- Intersection semantics of `matchAll = true`. -/
theorem mdCombineIds_true {sets : List (List String)} (hne : sets ≠ [])
    (x : String) : x ∈ mdCombineIds sets true ↔ ∀ s ∈ sets, x ∈ s := by
  obtain ⟨s₀, rest, rfl⟩ := List.exists_cons_of_ne_nil hne
  unfold mdCombineIds
  simp only [if_pos rfl, if_true, List.drop_succ_cons, List.drop_zero,
    List.headD_cons]
  rw [foldl_filter_mem, mem_dedup]
  simp [List.mem_cons]
  try tauto

/-- Union semantics of `matchAll = false`. -/
theorem mdCombineIds_false (sets : List (List String)) (x : String) :
    x ∈ mdCombineIds sets false ↔ ∃ s ∈ sets, x ∈ s := by
  unfold mdCombineIds
  simp only [Bool.false_eq_true, if_false]
  rw [mem_dedup, foldl_append_mem]
  simp

/-- Which sets participate: exactly the index sets of the queried pairs whose
key and stringified value are present in the metadata index. -/
theorem mdMatchingSets_mem (sm : SMState) (md : List (String × String))
    (s : List String) :
    s ∈ mdMatchingSets sm md ↔ ∃ kv ∈ md,
      ((sm.metadataIndex.lookup kv.1).bind (fun vm => vm.lookup kv.2)) = some s := by
  unfold mdMatchingSets
  suffices h : ∀ acc, s ∈ md.foldl (fun acc kv =>
      match sm.metadataIndex.lookup kv.1 with
      | some vm =>
          match vm.lookup kv.2 with
          | some s => acc ++ [s]
          | none => acc
      | none => acc) acc ↔ s ∈ acc ∨ ∃ kv ∈ md,
      ((sm.metadataIndex.lookup kv.1).bind (fun vm => vm.lookup kv.2)) = some s by
    simpa using h []
  induction md with
  | nil => intro acc; simp
  | cons kv md' ih =>
      intro acc
      rw [List.foldl_cons]
      cases h1 : sm.metadataIndex.lookup kv.1 with
      | none =>
          simp only [h1]
          rw [ih]
          simp only [List.mem_cons, Option.bind]
          constructor
          · rintro (h | ⟨kv', h2, h3⟩)
            · exact Or.inl h
            · exact Or.inr ⟨kv', Or.inr h2, h3⟩
          · rintro (h | ⟨kv', (h2 | h2), h3⟩)
            · exact Or.inl h
            · subst h2; rw [h1] at h3; simp at h3
            · exact Or.inr ⟨kv', h2, h3⟩
      | some vm =>
          simp only [h1]
          cases h2 : vm.lookup kv.2 with
          | none =>
              simp only [h2]
              rw [ih]
              constructor
              · rintro (h | ⟨kv', h3, h4⟩)
                · exact Or.inl h
                · exact Or.inr ⟨kv', List.mem_cons_of_mem _ h3, h4⟩
              · rintro (h | ⟨kv', h3, h4⟩)
                · exact Or.inl h
                · rcases List.mem_cons.mp h3 with h5 | h5
                  · subst h5
                    rw [h1] at h4
                    simp only [Option.some_bind] at h4
                    rw [h2] at h4
                    simp at h4
                  · exact Or.inr ⟨kv', h5, h4⟩
          | some s' =>
              simp only [h2]
              rw [ih]
              simp only [List.mem_append, List.mem_singleton]
              constructor
              · rintro ((h | h) | ⟨kv', h3, h4⟩)
                · exact Or.inl h
                · exact Or.inr ⟨kv, List.mem_cons_self .., by
                    rw [h1]
                    simp only [Option.some_bind]
                    rw [h2, h]⟩
                · exact Or.inr ⟨kv', List.mem_cons_of_mem _ h3, h4⟩
              · rintro (h | ⟨kv', h3, h4⟩)
                · exact Or.inl (Or.inl h)
                · rcases List.mem_cons.mp h3 with h5 | h5
                  · subst h5
                    rw [h1] at h4
                    simp only [Option.some_bind] at h4
                    rw [h2] at h4
                    exact Or.inl (Or.inr (by simpa using h4.symm))
                  · exact Or.inr ⟨kv', h5, h4⟩

/-- Any entity a resolution pass returns has one of the requested ids. -/
theorem resolveIds_mem {ctx : Option String} :
    ∀ {sm : SMState}, WFsmKeys sm → ∀ (ids : List String),
      ∀ x ∈ (resolveIds sm ctx ids).1, x.id ∈ ids := by
  intro sm hwk ids
  induction ids generalizing sm with
  | nil => simp [resolveIds]
  | cons i rest ih =>
      intro x hx
      unfold resolveIds at hx
      cases hg : getEntity sm i ctx with
      | error e =>
          rw [hg] at hx
          exact List.mem_cons_of_mem _ (ih hwk x hx)
      | ok p =>
          obtain ⟨e, sm'⟩ := p
          rw [hg] at hx
          obtain ⟨hid, _, _, _, _, hwk'⟩ := getEntity_ok_spec hwk hg
          rcases List.mem_cons.mp hx with h | h
          · subst h
            simp [hid]
          · exact List.mem_cons_of_mem _ (ih hwk' x h)

/-- Claim C7: with `matchAll = true`, `searchByMetadata` combines the index
sets of the present key/value pairs by intersection, with `matchAll = false`
by union; every returned entity's id belongs to that combination; and on the
two-entity red/large example, `matchAll = true` returns only `e2` while
`matchAll = false` returns both. -/
theorem claim_C7_metadata_match :
    (∀ (sm : SMState) (md : List (String × String)) (x : String),
      mdMatchingSets sm md ≠ [] →
      (x ∈ mdCombineIds (mdMatchingSets sm md) true ↔
        ∀ s ∈ mdMatchingSets sm md, x ∈ s)) ∧
    (∀ (sm : SMState) (md : List (String × String)) (x : String),
      x ∈ mdCombineIds (mdMatchingSets sm md) false ↔
        ∃ s ∈ mdMatchingSets sm md, x ∈ s) ∧
    (∀ (sm : SMState) (md : List (String × String)) (s : List String),
      s ∈ mdMatchingSets sm md ↔ ∃ kv ∈ md,
        ((sm.metadataIndex.lookup kv.1).bind (fun vm => vm.lookup kv.2))
          = some s) ∧
    (∀ (sm : SMState) (md : List (String × String)) (limit offset : Nat)
      (ctx ty ag : Option String) (matchAll : Bool) (e : Entity),
      WFsmKeys sm →
      e ∈ (searchByMetadata sm md limit offset ctx ty ag matchAll).1.results →
      e.id ∈ mdCombineIds (mdMatchingSets sm md) matchAll) ∧
    (searchByMetadata stC7 [("color", "red"), ("size", "large")]
        10 0 none none none true).1.results.map Entity.id = ["e2"] ∧
    (searchByMetadata stC7 [("color", "red"), ("size", "large")]
        10 0 none none none false).1.results.map Entity.id = ["e1", "e2"] := by
  refine ⟨fun sm md x h => mdCombineIds_true h x,
    fun sm md x => mdCombineIds_false _ x,
    fun sm md s => mdMatchingSets_mem sm md s,
    ?_, by decide, by decide⟩
  intro sm md limit offset ctx ty ag matchAll e hwk he
  unfold searchByMetadata at he
  by_cases hsets : mdMatchingSets sm md = []
  · rw [if_pos hsets] at he
    simp at he
  · rw [if_neg hsets] at he
    simp only at he
    have hpage := resolveIds_mem hwk _ e he
    have hpre : e.id ∈ mdPreIds sm md ty ag matchAll :=
      List.drop_subset _ _ (List.take_subset _ _ hpage)
    have : e.id ∈ mdCombineIds (mdMatchingSets sm md) matchAll := by
      cases ty <;> cases ag <;> simp only [mdPreIds] at hpre <;>
        first
        | exact hpre
        | exact List.mem_of_mem_filter hpre
        | exact List.mem_of_mem_filter (List.mem_of_mem_filter hpre)
    exact this

theorem claim_C7_witness :
    mdMatchingSets stC7 [("color", "red"), ("size", "large")] ≠ [] ∧
    ("e2" ∈ mdCombineIds
        (mdMatchingSets stC7 [("color", "red"), ("size", "large")]) true ↔
      ∀ s ∈ mdMatchingSets stC7 [("color", "red"), ("size", "large")],
        "e2" ∈ s) :=
  ⟨by decide,
   claim_C7_metadata_match.1 stC7 [("color", "red"), ("size", "large")] "e2"
     (by decide)⟩

/-! ## C2: traversal termination and the chain example

The breadth-first loop terminates on every finite relationship graph: each
processed queue entry either just shrinks the queue or enqueues only entities
that were freshly marked visited, and every enqueued entity id is an endpoint
of some relationship on file or in the cache.  The measure
`2 * (unvisited endpoints) + queue length` therefore drops at every step, and
the fuel `traverseGraph` supplies dominates it. -/

theorem filter_unvis_append (E₀ visited : List String) (cid : String) :
    (E₀.filter (fun x => ¬ x ∈ (visited ++ [cid]))) =
      ((E₀.filter (fun x => ¬ x ∈ visited)).filter (fun x => ¬ x = cid)) := by
  rw [List.filter_filter]
  apply List.filter_congr
  intro x _
  simp [List.mem_append, not_or, Bool.and_comm]

theorem unvisCount_append_le (E₀ visited : List String) (cid : String) :
    unvisCount E₀ (visited ++ [cid]) ≤ unvisCount E₀ visited := by
  unfold unvisCount
  rw [filter_unvis_append]
  exact List.length_filter_le _ _

theorem unvisCount_append_lt {E₀ visited : List String} {cid : String}
    (hE : cid ∈ E₀) (hv : ¬ cid ∈ visited) :
    unvisCount E₀ (visited ++ [cid]) < unvisCount E₀ visited := by
  unfold unvisCount
  rw [filter_unvis_append]
  apply List.length_filter_lt_length_iff_exists.mpr
  exact ⟨cid, List.mem_filter.mpr ⟨hE, by simpa using hv⟩, by simp⟩

theorem endpoints_of_file {kg : KGState} {p : String × Relationship}
    (hp : p ∈ kg.relFiles) :
    p.2.sourceId ∈ relEndpoints kg ∧ p.2.targetId ∈ relEndpoints kg := by
  unfold relEndpoints
  constructor
  · exact List.mem_append.mpr (Or.inl (List.mem_append.mpr (Or.inl
      (List.mem_append.mpr (Or.inl (List.mem_map.mpr ⟨p, hp, rfl⟩))))))
  · exact List.mem_append.mpr (Or.inl (List.mem_append.mpr (Or.inl
      (List.mem_append.mpr (Or.inr (List.mem_map.mpr ⟨p, hp, rfl⟩))))))

theorem endpoints_of_cache {kg : KGState} {p : String × Relationship}
    (hp : p ∈ kg.relCache) :
    p.2.sourceId ∈ relEndpoints kg ∧ p.2.targetId ∈ relEndpoints kg := by
  unfold relEndpoints
  constructor
  · exact List.mem_append.mpr (Or.inl (List.mem_append.mpr (Or.inr
      (List.mem_map.mpr ⟨p, hp, rfl⟩))))
  · exact List.mem_append.mpr (Or.inr (List.mem_map.mpr ⟨p, hp, rfl⟩))

/-- Caching a relationship whose endpoints are already endpoints of the state
cannot grow the endpoint set. -/
theorem relEndpoints_cacheRel_subset {kg : KGState} {r : Relationship}
    (hr : r.sourceId ∈ relEndpoints kg ∧ r.targetId ∈ relEndpoints kg) :
    ∀ x ∈ relEndpoints (cacheRel kg r), x ∈ relEndpoints kg := by
  intro x hx
  unfold relEndpoints at hx
  rcases List.mem_append.mp hx with h1 | h1
  · rcases List.mem_append.mp h1 with h2 | h2
    · rcases List.mem_append.mp h2 with h3 | h3
      · obtain ⟨p, hp, hpx⟩ := List.mem_map.mp h3
        exact hpx ▸ (@endpoints_of_file kg p hp).1
      · obtain ⟨p, hp, hpx⟩ := List.mem_map.mp h3
        exact hpx ▸ (@endpoints_of_file kg p hp).2
    · obtain ⟨p, hp, hpx⟩ := List.mem_map.mp h2
      rcases mem_mapSet (mem_trimCache hp) with hm | hm
      · exact hpx ▸ (endpoints_of_cache hm).1
      · subst hm
        exact hpx ▸ hr.1
  · obtain ⟨p, hp, hpx⟩ := List.mem_map.mp h1
    rcases mem_mapSet (mem_trimCache hp) with hm | hm
    · exact hpx ▸ (endpoints_of_cache hm).2
    · subst hm
      exact hpx ▸ hr.2

/-- `getRelationship` returns a relationship whose endpoints are endpoints of
the input state, and only shrinks-or-refills the cache from the files, so the
endpoint set cannot grow. -/
theorem getRelationship_endpoints {kg : KGState} {id : String}
    {r : Relationship} {kg' : KGState}
    (h : getRelationship kg id = .ok (r, kg')) :
    (r.sourceId ∈ relEndpoints kg ∧ r.targetId ∈ relEndpoints kg) ∧
    (∀ x ∈ relEndpoints kg', x ∈ relEndpoints kg) := by
  unfold getRelationship at h
  cases hc : kg.relCache.lookup id with
  | some r' =>
      rw [hc] at h
      simp only [Except.ok.injEq, Prod.mk.injEq] at h
      obtain ⟨h1, h2⟩ := h
      cases h1
      cases h2
      exact ⟨endpoints_of_cache (mem_of_lookup_some hc), fun x hx => hx⟩
  | none =>
      rw [hc] at h
      cases hf : kg.relFiles.lookup id with
      | none => rw [hf] at h; simp at h
      | some rf =>
          rw [hf] at h
          simp only [Except.ok.injEq, Prod.mk.injEq] at h
          obtain ⟨h1, h2⟩ := h
          cases h1
          have hrf := endpoints_of_file (mem_of_lookup_some hf)
          refine ⟨hrf, ?_⟩
          subst h2
          exact relEndpoints_cacheRel_subset hrf

theorem gatherRels_endpoints {ty : Option String} :
    ∀ (ids : List String) (kg : KGState) (acc : List Relationship),
      (∀ rel ∈ (gatherRels kg ids ty acc).1, rel ∈ acc ∨
        (rel.sourceId ∈ relEndpoints kg ∧ rel.targetId ∈ relEndpoints kg)) ∧
      (∀ x ∈ relEndpoints (gatherRels kg ids ty acc).2, x ∈ relEndpoints kg) := by
  intro ids
  induction ids with
  | nil =>
      intro kg acc
      exact ⟨fun rel h => Or.inl h, fun x hx => hx⟩
  | cons id rest ih =>
      intro kg acc
      unfold gatherRels
      cases hg : getRelationship kg id with
      | error e =>
          simp only
          exact ih kg acc
      | ok p =>
          obtain ⟨r, kg₁⟩ := p
          obtain ⟨hr, hmono⟩ := getRelationship_endpoints hg
          simp only
          by_cases hty : typePass ty r
          · rw [if_pos hty]
            obtain ⟨ha, hb⟩ := ih kg₁ (acc ++ [r])
            refine ⟨fun rel hrel => ?_, fun x hx => hmono x (hb x hx)⟩
            rcases ha rel hrel with h1 | h1
            · rcases List.mem_append.mp h1 with h2 | h2
              · exact Or.inl h2
              · simp only [List.mem_singleton] at h2
                subst h2
                exact Or.inr hr
            · exact Or.inr ⟨hmono _ h1.1, hmono _ h1.2⟩
          · rw [if_neg hty]
            obtain ⟨ha, hb⟩ := ih kg₁ acc
            refine ⟨fun rel hrel => ?_, fun x hx => hmono x (hb x hx)⟩
            rcases ha rel hrel with h1 | h1
            · exact Or.inl h1
            · exact Or.inr ⟨hmono _ h1.1, hmono _ h1.2⟩

theorem listRelationships_endpoints {kg : KGState} {entityId : String}
    {ty : Option String} {direction : String} {limit offset : Nat} :
    (∀ rel ∈ (listRelationships kg entityId ty direction limit offset).1.relationships,
      rel.sourceId ∈ relEndpoints kg ∧ rel.targetId ∈ relEndpoints kg) ∧
    (∀ x ∈ relEndpoints (listRelationships kg entityId ty direction limit offset).2,
      x ∈ relEndpoints kg) := by
  unfold listRelationships
  simp only
  constructor
  · intro rel hrel
    have hrel' := List.drop_subset _ _ (List.take_subset _ _ hrel)
    rcases List.mem_append.mp hrel' with h | h
    · by_cases hdir : direction = "outgoing" ∨ direction = "both"
      · rw [if_pos hdir] at h
        rcases (gatherRels_endpoints _ kg []).1 rel h with h1 | h1
        · simp at h1
        · exact h1
      · rw [if_neg hdir] at h
        simp at h
    · by_cases hdir1 : direction = "outgoing" ∨ direction = "both" <;>
        by_cases hdir2 : direction = "incoming" ∨ direction = "both"
      · rw [if_pos hdir1, if_pos hdir2] at h
        rcases (gatherRels_endpoints _ _ []).1 rel h with h1 | h1
        · simp at h1
        · exact ⟨(gatherRels_endpoints _ kg []).2 _ h1.1,
            (gatherRels_endpoints _ kg []).2 _ h1.2⟩
      · rw [if_pos hdir1, if_neg hdir2] at h
        simp at h
      · rw [if_neg hdir1, if_pos hdir2] at h
        rcases (gatherRels_endpoints _ _ []).1 rel h with h1 | h1
        · simp at h1
        · exact h1
      · rw [if_neg hdir1, if_neg hdir2] at h
        simp at h
  · intro x hx
    by_cases hdir1 : direction = "outgoing" ∨ direction = "both" <;>
      by_cases hdir2 : direction = "incoming" ∨ direction = "both"
    · rw [if_pos hdir1, if_pos hdir2] at hx
      exact (gatherRels_endpoints _ kg []).2 x
        ((gatherRels_endpoints _ _ []).2 x hx)
    · rw [if_pos hdir1, if_neg hdir2] at hx
      exact (gatherRels_endpoints _ kg []).2 x hx
    · rw [if_neg hdir1, if_pos hdir2] at hx
      exact (gatherRels_endpoints _ kg []).2 x hx
    · rw [if_neg hdir1, if_neg hdir2] at hx
      exact hx

/-- Processing one relationship can only shrink the weighted measure
`2 · unvisited + new-queue length`: every enqueued entity is freshly marked
visited and is an endpoint of the relationship. -/
theorem processRel_measure {rts : Option (List String)} {eid : String}
    {depth : Nat} {E₀ : List String} {b : BfsSt} {rel : Relationship}
    (hrel : rel.sourceId ∈ E₀ ∧ rel.targetId ∈ E₀) :
    2 * unvisCount E₀ (processRel rts eid depth b rel).visited
      + (processRel rts eid depth b rel).newQ.length
    ≤ 2 * unvisCount E₀ b.visited + b.newQ.length := by
  unfold processRel
  by_cases hty : typeOk rts rel.type
  · rw [if_neg (by simpa using hty)]
    by_cases hvis : connOf eid rel ∈ b.visited
    · rw [if_pos hvis]
    · rw [if_neg hvis]
      have hcid : connOf eid rel ∈ E₀ := by
        unfold connOf
        split
        · exact hrel.2
        · exact hrel.1
      have hlt := unvisCount_append_lt hcid hvis
      cases hg : getEntity b.sm (connOf eid rel) none with
      | ok p =>
          obtain ⟨ce, sm'⟩ := p
          simp only [List.length_append, List.length_singleton]
          omega
      | error e =>
          simp only
          have hle := unvisCount_append_le E₀ b.visited (connOf eid rel)
          omega
  · rw [if_pos (by simpa using hty)]

theorem processRel_fold_measure {rts : Option (List String)} {eid : String}
    {depth : Nat} {E₀ : List String} :
    ∀ (rels : List Relationship) (b₀ : BfsSt),
      (∀ rel ∈ rels, rel.sourceId ∈ E₀ ∧ rel.targetId ∈ E₀) →
      2 * unvisCount E₀ (rels.foldl (processRel rts eid depth) b₀).visited
        + (rels.foldl (processRel rts eid depth) b₀).newQ.length
      ≤ 2 * unvisCount E₀ b₀.visited + b₀.newQ.length := by
  intro rels
  induction rels with
  | nil => intro b₀ _; exact Nat.le_refl _
  | cons rel rest ih =>
      intro b₀ hrels
      rw [List.foldl_cons]
      exact Nat.le_trans
        (ih _ (fun r hr => hrels r (List.mem_cons_of_mem _ hr)))
        (processRel_measure (hrels rel (List.mem_cons_self ..)))

/-- The loop never exhausts fuel exceeding the measure
`2 · unvisited-endpoints + queue length`. -/
theorem traverseLoop_no_fuel_error (rts : Option (List String)) (maxDepth : Nat)
    (direction : String) (E₀ : List String) :
    ∀ (fuel : Nat) (sm : SMState) (kg : KGState) (queue : List (String × Nat))
      (visited : List String) (res : TravResult),
      (∀ x ∈ relEndpoints kg, x ∈ E₀) →
      2 * unvisCount E₀ visited + queue.length < fuel →
      traverseLoop rts maxDepth direction fuel sm kg queue visited res ≠
        .error .fuelExhausted := by
  intro fuel
  induction fuel using Nat.strong_induction_on with
  | _ fuel ih =>
      intro sm kg queue visited res hE hfuel
      match queue with
      | [] =>
          unfold traverseLoop
          simp
      | (eid, depth) :: rest =>
          obtain ⟨fuel', rfl⟩ : ∃ f', fuel = f' + 1 :=
            ⟨fuel - 1, by simp at hfuel; omega⟩
          simp only [traverseLoop]
          by_cases hd : maxDepth ≤ depth
          · rw [if_pos hd]
            exact ih fuel' (by omega) sm kg rest visited res hE
              (by simp at hfuel ⊢; omega)
          · rw [if_neg hd]
            have hlist := @listRelationships_endpoints
              kg eid none direction 1000 0
            have hrels : ∀ rel ∈ (listRelationships kg eid none direction
                1000 0).1.relationships, rel.sourceId ∈ E₀ ∧ rel.targetId ∈ E₀ :=
              fun rel hr => ⟨hE _ (hlist.1 rel hr).1, hE _ (hlist.1 rel hr).2⟩
            have hfold := @processRel_fold_measure rts eid depth E₀
              (listRelationships kg eid none direction 1000 0).1.relationships
              ⟨sm, visited, res, []⟩ hrels
            apply ih fuel' (by omega)
            · intro x hx
              exact hE x (hlist.2 x hx)
            · simp only [List.length_append]
              simp only [List.length_cons] at hfuel
              simp only [List.length_nil] at hfold
              omega

/-- The only error a context probe can raise. -/
theorem findEntityInContext_error_shape {st : SMState} {id c : String} {e : Err}
    (h : findEntityInContext st id c = .error e) : e = .entityNotFound id := by
  unfold findEntityInContext at h
  split_ifs at h
  all_goals first
  | (rcases hscan : scanDirs st id _ with ⟨o, st₁⟩
     · rw [hscan] at h
       cases o with
       | none => simpa using h.symm
       | some e' => simp at h)
  | (rcases hread : fileRead st.files .shared id with _ | e'
     · simp only [readEntityFile, hread] at h
       simpa using h.symm
     · simp only [readEntityFile, hread] at h
       simp at h)
  | simpa using h.symm

/-- The only error `getEntity` can raise. -/
theorem getEntity_error_shape {sm : SMState} {id : String} {ctx : Option String}
    {e : Err} (h : getEntity sm id ctx = .error e) : e = .entityNotFound id := by
  unfold getEntity at h
  cases hc : sm.entityCache.lookup id with
  | some e' => rw [hc] at h; simp at h
  | none =>
      rw [hc] at h
      cases ctx with
      | some c => exact findEntityInContext_error_shape h
      | none =>
          rcases h1 : findEntityInContext sm id "agent" with e1 | p1
          · rw [h1] at h
            rcases h2 : findEntityInContext sm id "project" with e2 | p2
            · rw [h2] at h
              rcases h3 : findEntityInContext sm id "template" with e3 | p3
              · rw [h3] at h
                rcases h4 : findEntityInContext sm id "shared" with e4 | p4
                · rw [h4] at h
                  simpa using h.symm
                · rw [h4] at h
                  obtain ⟨a, b⟩ := p4
                  simp at h
              · rw [h3] at h
                obtain ⟨a, b⟩ := p3
                simp at h
            · rw [h2] at h
              obtain ⟨a, b⟩ := p2
              simp at h
          · rw [h1] at h
            obtain ⟨a, b⟩ := p1
            simp at h

/-- C2: on the chain A–B–C–D of `"next"` relationships, `traverseGraph` from A
with `maxDepth = 1` visits exactly {A, B}; with `maxDepth = 3` exactly
{A, B, C, D}; with relationship-type filter `["other"]` only {A}; and on every
finite graph the breadth-first loop terminates — the fuel bound
`2·|endpoints| + 2` is never exhausted, for any start, filter, depth and
direction. -/
theorem claim_C2_traversal_termination_and_correctness :
    travEntityIds (traverseGraph chainSys "A" none 1 "both") = some ["A", "B"] ∧
    travEntityIds (traverseGraph chainSys "A" none 3 "both")
      = some ["A", "B", "C", "D"] ∧
    travEntityIds (traverseGraph chainSys "A" (some ["other"]) 3 "both")
      = some ["A"] ∧
    ∀ (sys : Sys) (startId : String) (rts : Option (List String))
      (maxDepth : Nat) (direction : String),
      traverseGraph sys startId rts maxDepth direction ≠
        Except.error Err.fuelExhausted := by
  refine ⟨by decide, by decide, by decide, ?_⟩
  intro sys startId rts maxDepth direction h
  unfold traverseGraph at h
  cases hg : getEntity sys.sm startId none with
  | error e =>
      rw [hg] at h
      rw [getEntity_error_shape hg] at h
      simp at h
  | ok p =>
      obtain ⟨startEntity, sm₁⟩ := p
      rw [hg] at h
      simp only at h
      split at h
      · simp at h
      · rename_i e heq
        have he : e = Err.fuelExhausted := by simpa using h
        exact traverseLoop_no_fuel_error rts maxDepth direction
          (relEndpoints sys.kg) (2 * (relEndpoints sys.kg).length + 2)
          sm₁ sys.kg [(startId, 0)] [startId] _ (fun x hx => hx)
          (by
            have hle : unvisCount (relEndpoints sys.kg) [startId]
                ≤ (relEndpoints sys.kg).length := List.length_filter_le _ _
            simp only [List.length_cons, List.length_nil]
            omega)
          (he ▸ heq)

/-- Witness: the termination conjunct of C2 at a concrete system. -/
theorem claim_C2_witness :
    traverseGraph chainSys "A" none 1 "both" ≠
      Except.error Err.fuelExhausted :=
  claim_C2_traversal_termination_and_correctness.2.2.2
    chainSys "A" none 1 "both"

/-- The BFS loop's only error literal is fuel exhaustion: every run is `ok`
or `error fuelExhausted`. -/
theorem traverseLoop_ok_or_fuel (rts : Option (List String)) (maxDepth : Nat)
    (direction : String) :
    ∀ (fuel : Nat) (sm : SMState) (kg : KGState) (queue : List (String × Nat))
      (visited : List String) (res : TravResult),
      (∃ p, traverseLoop rts maxDepth direction fuel sm kg queue visited res
        = Except.ok p) ∨
      traverseLoop rts maxDepth direction fuel sm kg queue visited res =
        Except.error Err.fuelExhausted := by
  intro fuel
  induction fuel with
  | zero =>
      intro sm kg queue visited res
      match queue with
      | [] => exact Or.inl ⟨(res, sm, kg), rfl⟩
      | (eid, depth) :: rest => exact Or.inr rfl
  | succ fuel ih =>
      intro sm kg queue visited res
      match queue with
      | [] => exact Or.inl ⟨(res, sm, kg), rfl⟩
      | (eid, depth) :: rest =>
          simp only [traverseLoop]
          by_cases hd : maxDepth ≤ depth
          · rw [if_pos hd]
            exact ih sm kg rest visited res
          · rw [if_neg hd]
            exact ih _ _ _ _ _

/-- A successful entity read never produces the unresolvable id, and keeps it
unresolvable: the cache only ever gains entities read back from files. -/
theorem getEntity_unres {sm : SMState} {id : String} {ctx : Option String}
    {e : Entity} {sm' : SMState} {bid : String} (hu : Unres sm bid)
    (h : getEntity sm id ctx = .ok (e, sm')) :
    e.id ≠ bid ∧ Unres sm' bid := by
  have hfe : ∀ (c : String) (st' : SMState),
      findEntityInContext sm id c = .ok (e, st') → e.id ≠ bid ∧ Unres st' bid := by
    intro c st' hc
    obtain ⟨⟨d, hr⟩, hst⟩ := findEntityInContext_ok hc
    obtain ⟨f, hf, hfent, _, _⟩ := fileRead_some_spec hr
    have hne : e.id ≠ bid := hfent ▸ (hu.1 f hf).2
    subst hst
    refine ⟨hne, hu.1, fun p hp => ?_⟩
    simp only [cacheEntityS] at hp
    rcases mem_mapSet (mem_trimCache hp) with h1 | h1
    · exact hu.2 p h1
    · rw [h1]
      exact hne
  unfold getEntity at h
  cases hc : sm.entityCache.lookup id with
  | some e' =>
      rw [hc] at h
      simp only [Except.ok.injEq, Prod.mk.injEq] at h
      obtain ⟨he, hst⟩ := h
      cases he
      subst hst
      exact ⟨hu.2 _ (mem_of_lookup_some hc), hu⟩
  | none =>
      rw [hc] at h
      cases ctx with
      | some c => exact hfe c sm' h
      | none =>
          rcases h1 : findEntityInContext sm id "agent" with e1 | r1
          · rw [h1] at h
            rcases h2 : findEntityInContext sm id "project" with e2 | r2
            · rw [h2] at h
              rcases h3 : findEntityInContext sm id "template" with e3 | r3
              · rw [h3] at h
                rcases h4 : findEntityInContext sm id "shared" with e4 | r4
                · rw [h4] at h
                  simp at h
                · rw [h4] at h
                  simp only [Except.ok.injEq] at h
                  obtain ⟨e4a, st4⟩ := r4
                  cases h
                  exact hfe _ _ h4
              · rw [h3] at h
                simp only [Except.ok.injEq] at h
                obtain ⟨e3a, st3⟩ := r3
                cases h
                exact hfe _ _ h3
            · rw [h2] at h
              simp only [Except.ok.injEq] at h
              obtain ⟨e2a, st2⟩ := r2
              cases h
              exact hfe _ _ h2
          · rw [h1] at h
            simp only [Except.ok.injEq] at h
            obtain ⟨e1a, st1⟩ := r1
            cases h
            exact hfe _ _ h1

/-- One relationship-processing step keeps an unresolvable id out of the
collected entities. -/
theorem processRel_unres {rts : Option (List String)} {eid : String}
    {depth : Nat} {bid : String} {b : BfsSt} {rel : Relationship}
    (hu : Unres b.sm bid) (hres : ∀ e ∈ b.res.entities, e.id ≠ bid) :
    Unres (processRel rts eid depth b rel).sm bid ∧
    ∀ e ∈ (processRel rts eid depth b rel).res.entities, e.id ≠ bid := by
  unfold processRel
  by_cases hty : typeOk rts rel.type
  · rw [if_neg (by simpa using hty)]
    by_cases hvis : connOf eid rel ∈ b.visited
    · rw [if_pos hvis]
      refine ⟨hu, ?_⟩
      split
      · exact hres
      · exact hres
    · rw [if_neg hvis]
      cases hg : getEntity b.sm (connOf eid rel) none with
      | ok p =>
          obtain ⟨ce, sm'⟩ := p
          obtain ⟨hce, hu'⟩ := getEntity_unres hu hg
          refine ⟨hu', ?_⟩
          intro e he
          rcases List.mem_append.mp he with h1 | h1
          · revert h1
            split
            · exact fun h1 => hres e h1
            · exact fun h1 => hres e h1
          · have he' := List.mem_singleton.mp h1
            subst he'
            exact hce
      | error e' =>
          refine ⟨hu, ?_⟩
          intro e he
          by_cases hdup : (b.res.relationships.any fun r => decide (r.id = rel.id)) = true
          · rw [if_pos hdup] at he
            exact hres e he
          · rw [if_neg hdup] at he
            exact hres e he
  · rw [if_pos (by simpa using hty)]
    exact ⟨hu, hres⟩

theorem processRel_fold_unres {rts : Option (List String)} {eid : String}
    {depth : Nat} {bid : String} :
    ∀ (rels : List Relationship) (b₀ : BfsSt),
      Unres b₀.sm bid → (∀ e ∈ b₀.res.entities, e.id ≠ bid) →
      Unres ((rels.foldl (processRel rts eid depth) b₀)).sm bid ∧
      ∀ e ∈ ((rels.foldl (processRel rts eid depth) b₀)).res.entities,
        e.id ≠ bid := by
  intro rels
  induction rels with
  | nil => intro b₀ hu hres; exact ⟨hu, hres⟩
  | cons rel rest ih =>
      intro b₀ hu hres
      rw [List.foldl_cons]
      obtain ⟨hu', hres'⟩ := processRel_unres hu hres
      exact ih _ hu' hres'

/-- The whole loop keeps an unresolvable id out of the collected entities. -/
theorem traverseLoop_unres (rts : Option (List String)) (maxDepth : Nat)
    (direction : String) (bid : String) :
    ∀ (fuel : Nat) (sm : SMState) (kg : KGState) (queue : List (String × Nat))
      (visited : List String) (res res' : TravResult) (sm' : SMState)
      (kg' : KGState),
      Unres sm bid → (∀ e ∈ res.entities, e.id ≠ bid) →
      traverseLoop rts maxDepth direction fuel sm kg queue visited res =
        Except.ok (res', sm', kg') →
      ∀ e ∈ res'.entities, e.id ≠ bid := by
  intro fuel
  induction fuel with
  | zero =>
      intro sm kg queue visited res res' sm' kg' hu hres h
      match queue with
      | [] =>
          rw [show traverseLoop rts maxDepth direction 0 sm kg [] visited res
            = Except.ok (res, sm, kg) from rfl] at h
          simp only [Except.ok.injEq, Prod.mk.injEq] at h
          obtain ⟨h1, -, -⟩ := h
          subst h1
          exact hres
      | (eid, depth) :: rest =>
          rw [show traverseLoop rts maxDepth direction 0 sm kg
            ((eid, depth) :: rest) visited res
            = Except.error Err.fuelExhausted from rfl] at h
          simp at h
  | succ fuel ih =>
      intro sm kg queue visited res res' sm' kg' hu hres h
      match queue with
      | [] =>
          rw [show traverseLoop rts maxDepth direction (fuel + 1) sm kg []
            visited res = Except.ok (res, sm, kg) from rfl] at h
          simp only [Except.ok.injEq, Prod.mk.injEq] at h
          obtain ⟨h1, -, -⟩ := h
          subst h1
          exact hres
      | (eid, depth) :: rest =>
          simp only [traverseLoop] at h
          by_cases hd : maxDepth ≤ depth
          · rw [if_pos hd] at h
            exact ih sm kg rest visited res res' sm' kg' hu hres h
          · rw [if_neg hd] at h
            obtain ⟨hu', hres'⟩ := processRel_fold_unres
              (listRelationships kg eid none direction 1000 0).1.relationships
              ⟨sm, visited, res, []⟩ hu hres
            exact ih _ _ _ _ _ _ _ _ hu' hres' h

/-- C8 as stated is false: the relationship r1 = A→B has an unresolvable
`targetId` (no entity file exists at all), yet `traverseGraph` from its
`sourceId` A does not complete — resolving the start entity itself throws
`Entity not found`, which `traverseGraph` lets escape. -/
theorem claim_C8_counterexample :
    (relN "r1" "A" "B" "next").targetId = "B" ∧
    c8Sys.sm.files = [] ∧
    traverseGraph c8Sys "A" none 3 "both" =
      Except.error (Err.entityNotFound "A") :=
  ⟨rfl, rfl, rfl⟩

/-- C8 (amended): provided the start entity itself resolves, `traverseGraph`
completes without throwing; an id that resolves nowhere in storage never
appears among the returned entities (each resolution failure is swallowed
inside the loop); concretely, with A stored and a dangling relationship A→B
the traversal from A returns exactly the entity set {A}, omitting B. -/
theorem claim_C8_dangling_tolerance :
    (∀ (sys : Sys) (startId : String) (rts : Option (List String))
       (maxDepth : Nat) (direction : String) (s₀ : Entity) (sm₁ : SMState),
       getEntity sys.sm startId none = Except.ok (s₀, sm₁) →
       ∃ out, traverseGraph sys startId rts maxDepth direction = Except.ok out) ∧
    (∀ (sys : Sys) (startId bid : String) (rts : Option (List String))
       (maxDepth : Nat) (direction : String) (res : TravResult) (sys' : Sys),
       Unres sys.sm bid →
       traverseGraph sys startId rts maxDepth direction = Except.ok (res, sys') →
       ∀ e ∈ res.entities, e.id ≠ bid) ∧
    travEntityIds (traverseGraph danglingSys "A" none 3 "both") = some ["A"] := by
  refine ⟨?_, ?_, by decide⟩
  · intro sys startId rts maxDepth direction s₀ sm₁ hget
    cases hres : traverseGraph sys startId rts maxDepth direction with
    | ok out => exact ⟨out, rfl⟩
    | error e =>
        exfalso
        unfold traverseGraph at hres
        rw [hget] at hres
        simp only at hres
        split at hres
        · simp at hres
        · rename_i e' heq
          rcases traverseLoop_ok_or_fuel rts maxDepth direction
              (2 * (relEndpoints sys.kg).length + 2) sm₁ sys.kg
              [(startId, 0)] [startId]
              ⟨[s₀], [], [(startId, ⟨0, []⟩)]⟩ with hok | hf
          · obtain ⟨p, hp⟩ := hok
            rw [hp] at heq
            simp at heq
          · exact traverseLoop_no_fuel_error rts maxDepth direction
              (relEndpoints sys.kg) (2 * (relEndpoints sys.kg).length + 2)
              sm₁ sys.kg [(startId, 0)] [startId]
              ⟨[s₀], [], [(startId, ⟨0, []⟩)]⟩ (fun x hx => hx)
              (by
                have hle : unvisCount (relEndpoints sys.kg) [startId]
                    ≤ (relEndpoints sys.kg).length := List.length_filter_le _ _
                simp only [List.length_cons, List.length_nil]
                omega)
              hf
  · intro sys startId bid rts maxDepth direction res sys' hu hres
    unfold traverseGraph at hres
    cases hget : getEntity sys.sm startId none with
    | error e =>
        rw [hget] at hres
        simp at hres
    | ok p =>
        obtain ⟨s₀, sm₁⟩ := p
        obtain ⟨hs₀, hu₁⟩ := getEntity_unres hu hget
        rw [hget] at hres
        simp only at hres
        split at hres
        · rename_i res₂ sm₂ kg₂ heq
          simp only [Except.ok.injEq, Prod.mk.injEq] at hres
          obtain ⟨h1, -⟩ := hres
          subst h1
          refine traverseLoop_unres rts maxDepth direction bid _ _ _ _ _ _ _ _ _
            hu₁ ?_ heq
          intro e he
          simp at he
          subst he
          exact hs₀
        · simp at hres

/-- Witness: C8's no-throw conjunct at the dangling system, start hypothesis
discharged by evaluation. -/
theorem claim_C8_witness :
    ∃ out, traverseGraph danglingSys "A" none 3 "both" = Except.ok out :=
  claim_C8_dangling_tolerance.1 danglingSys "A" none 3 "both" (entN "A")
    (cacheEntityS (mkSM [entN "A"]) (entN "A")) rfl

/-- Stable insertion into a list sorted by a total transitive comparator keeps
it sorted. -/
theorem pairwise_stableInsert {α : Type} {le : α → α → Bool}
    (htot : ∀ a b, le a b = true ∨ le b a = true)
    (htrans : ∀ a b c, le a b = true → le b c = true → le a c = true)
    (x : α) :
    ∀ l : List α, l.Pairwise (fun a b => le a b = true) →
      (stableInsert le x l).Pairwise (fun a b => le a b = true) := by
  intro l
  induction l with
  | nil => intro _; simp [stableInsert]
  | cons y ys ih =>
      intro hp
      rw [List.pairwise_cons] at hp
      obtain ⟨hy, hys⟩ := hp
      by_cases h : le y x
      · rw [show stableInsert le x (y :: ys) = y :: stableInsert le x ys from by
          simp [stableInsert, h]]
        rw [List.pairwise_cons]
        refine ⟨?_, ih hys⟩
        intro a ha
        rcases (mem_stableInsert le x ys a).mp ha with rfl | ha'
        · exact h
        · exact hy a ha'
      · rw [show stableInsert le x (y :: ys) = x :: y :: ys from by
          simp [stableInsert, h]]
        have hxy : le x y = true := (htot y x).resolve_left h
        rw [List.pairwise_cons]
        constructor
        · intro a ha
          rcases List.mem_cons.mp ha with rfl | ha'
          · exact hxy
          · exact htrans x y a hxy (hy a ha')
        · rw [List.pairwise_cons]
          exact ⟨hy, hys⟩

/-- The stable sort sorts: its output is pairwise ordered by the
comparator. -/
theorem pairwise_stableSort {α : Type} {le : α → α → Bool}
    (htot : ∀ a b, le a b = true ∨ le b a = true)
    (htrans : ∀ a b c, le a b = true → le b c = true → le a c = true)
    (l : List α) :
    (stableSort le l).Pairwise (fun a b => le a b = true) := by
  unfold stableSort
  suffices h : ∀ acc : List α, acc.Pairwise (fun a b => le a b = true) →
      (l.foldl (fun acc x => stableInsert le x acc) acc).Pairwise
        (fun a b => le a b = true) by
    exact h [] (by simp)
  induction l with
  | nil => intro acc hacc; simpa using hacc
  | cons x xs ih =>
      intro acc hacc
      rw [List.foldl_cons]
      exact ih _ (pairwise_stableInsert htot htrans x acc hacc)

/-- Every member of a nonempty list is its head or sits in its tail. -/
theorem mem_headD_or_drop {α : Type} {l : List α} {a : α} (d : α)
    (h : a ∈ l) : a = l.headD d ∨ a ∈ l.drop 1 := by
  cases l with
  | nil => simp at h
  | cons x xs =>
      rcases List.mem_cons.mp h with rfl | h'
      · exact Or.inl rfl
      · exact Or.inr h'

/-- One relationship-processing step keeps the storage keys well-formed. -/
theorem processRel_wfsm {rts : Option (List String)} {eid : String}
    {depth : Nat} {b : BfsSt} {rel : Relationship}
    (hw : WFsmKeys b.sm) : WFsmKeys (processRel rts eid depth b rel).sm := by
  unfold processRel
  by_cases hty : typeOk rts rel.type
  · rw [if_neg (by simpa using hty)]
    by_cases hvis : connOf eid rel ∈ b.visited
    · rw [if_pos hvis]
      exact hw
    · rw [if_neg hvis]
      cases hg : getEntity b.sm (connOf eid rel) none with
      | ok p =>
          obtain ⟨ce, sm'⟩ := p
          exact (getEntity_ok_spec hw hg).2.2.2.2.2
      | error e' => exact hw
  · rw [if_pos (by simpa using hty)]
    exact hw

theorem processRel_fold_wfsm {rts : Option (List String)} {eid : String}
    {depth : Nat} :
    ∀ (rels : List Relationship) (b₀ : BfsSt), WFsmKeys b₀.sm →
      WFsmKeys ((rels.foldl (processRel rts eid depth) b₀)).sm := by
  intro rels
  induction rels with
  | nil => intro b₀ h; exact h
  | cons rel rest ih =>
      intro b₀ h
      rw [List.foldl_cons]
      exact ih _ (processRel_wfsm h)

/-- The BFS loop keeps the storage keys well-formed. -/
theorem traverseLoop_wfsm (rts : Option (List String)) (maxDepth : Nat)
    (direction : String) :
    ∀ (fuel : Nat) (sm : SMState) (kg : KGState) (queue : List (String × Nat))
      (visited : List String) (res res' : TravResult) (sm' : SMState)
      (kg' : KGState), WFsmKeys sm →
      traverseLoop rts maxDepth direction fuel sm kg queue visited res =
        Except.ok (res', sm', kg') →
      WFsmKeys sm' := by
  intro fuel
  induction fuel with
  | zero =>
      intro sm kg queue visited res res' sm' kg' hw h
      match queue with
      | [] =>
          rw [show traverseLoop rts maxDepth direction 0 sm kg [] visited res
            = Except.ok (res, sm, kg) from rfl] at h
          simp only [Except.ok.injEq, Prod.mk.injEq] at h
          obtain ⟨-, h2, -⟩ := h
          subst h2
          exact hw
      | (eid, depth) :: rest =>
          rw [show traverseLoop rts maxDepth direction 0 sm kg
            ((eid, depth) :: rest) visited res
            = Except.error Err.fuelExhausted from rfl] at h
          simp at h
  | succ fuel ih =>
      intro sm kg queue visited res res' sm' kg' hw h
      match queue with
      | [] =>
          rw [show traverseLoop rts maxDepth direction (fuel + 1) sm kg []
            visited res = Except.ok (res, sm, kg) from rfl] at h
          simp only [Except.ok.injEq, Prod.mk.injEq] at h
          obtain ⟨-, h2, -⟩ := h
          subst h2
          exact hw
      | (eid, depth) :: rest =>
          simp only [traverseLoop] at h
          by_cases hd : maxDepth ≤ depth
          · rw [if_pos hd] at h
            exact ih sm kg rest visited res res' sm' kg' hw h
          · rw [if_neg hd] at h
            exact ih _ _ _ _ _ _ _ _
              (processRel_fold_wfsm
                (listRelationships kg eid none direction 1000 0).1.relationships
                ⟨sm, visited, res, []⟩ hw) h

/-- A whole traversal keeps the storage keys well-formed. -/
theorem traverseGraph_wfsm {sys : Sys} {startId : String}
    {rts : Option (List String)} {maxDepth : Nat} {direction : String}
    {res : TravResult} {sys' : Sys} (hw : WFsmKeys sys.sm)
    (h : traverseGraph sys startId rts maxDepth direction = .ok (res, sys')) :
    WFsmKeys sys'.sm := by
  unfold traverseGraph at h
  cases hget : getEntity sys.sm startId none with
  | error e =>
      rw [hget] at h
      simp at h
  | ok p =>
      obtain ⟨s₀, sm₁⟩ := p
      have hw₁ := (getEntity_ok_spec hw hget).2.2.2.2.2
      rw [hget] at h
      simp only at h
      split at h
      · rename_i res₂ sm₂ kg₂ heq
        simp only [Except.ok.injEq, Prod.mk.injEq] at h
        obtain ⟨-, h2⟩ := h
        subst h2
        exact traverseLoop_wfsm rts maxDepth direction _ _ _ _ _ _ _ _ _ hw₁ heq
      · simp at h

/-- The sequence of traversals in `findCommonConnections` keeps the storage
keys well-formed. -/
theorem travAll_wfsm {rts : Option (List String)} {maxDepth : Nat}
    {direction : String} :
    ∀ (ids : List String) (sys : Sys) (trs : List TravResult) (sys₁ : Sys),
      WFsmKeys sys.sm →
      travAll sys ids rts maxDepth direction = Except.ok (trs, sys₁) →
      WFsmKeys sys₁.sm := by
  intro ids
  induction ids with
  | nil =>
      intro sys trs sys₁ hw h
      simp only [travAll, Except.ok.injEq, Prod.mk.injEq] at h
      obtain ⟨-, h2⟩ := h
      subst h2
      exact hw
  | cons i rest ih =>
      intro sys trs sys₁ hw h
      simp only [travAll] at h
      split at h
      · simp at h
      · rename_i r sys' heq
        split at h
        · simp at h
        · rename_i rs sys'' heq2
          simp only [Except.ok.injEq, Prod.mk.injEq] at h
          obtain ⟨-, h2⟩ := h
          subst h2
          exact ih sys' rs sys'' (traverseGraph_wfsm hw heq) heq2

/-- `getEntity` over a list of ids returns entities whose ids are exactly the
requested ids, in order, and keeps the storage keys well-formed. -/
theorem getAll_spec :
    ∀ (ids : List String) (sm : SMState) (es : List Entity) (sm' : SMState),
      WFsmKeys sm → getAll sm ids = Except.ok (es, sm') →
      es.map (·.id) = ids ∧ WFsmKeys sm' := by
  intro ids
  induction ids with
  | nil =>
      intro sm es sm' hw h
      simp only [getAll, Except.ok.injEq, Prod.mk.injEq] at h
      obtain ⟨h1, h2⟩ := h
      subst h1
      subst h2
      exact ⟨rfl, hw⟩
  | cons i rest ih =>
      intro sm es sm' hw h
      simp only [getAll] at h
      split at h
      · simp at h
      · rename_i e sm₁ hge
        split at h
        · simp at h
        · rename_i es₁ sm₂ hga
          simp only [Except.ok.injEq, Prod.mk.injEq] at h
          obtain ⟨h1, h2⟩ := h
          subst h1
          subst h2
          have hspec := (getEntity_ok_spec hw hge).1
          have hw₁ := (getEntity_ok_spec hw hge).2.2.2.2.2
          obtain ⟨hmap, hw₂⟩ := ih sm₁ es₁ sm₂ hw₁ hga
          refine ⟨?_, hw₂⟩
          simp [hmap, hspec]

/-- C9: `findCommonConnections` rejects fewer than two ids with the
validation error; the ranking average is the plain arithmetic mean with a
missing distance contributing 0; every returned entity lies in every
traversal's entity set and is none of the original ids, the returned list is
sorted ascending by average distance and holds at most `limit` entities; on
the concrete two-source system the common connections of {A, B} are exactly
[C, D]. -/
theorem claim_C9_common_connections :
    (∀ (sys : Sys) (entityIds : List String) (rts : Option (List String))
       (maxDepth : Nat) (direction : String) (limit : Nat),
       entityIds.length < 2 →
       findCommonConnections sys entityIds rts maxDepth direction limit =
         Except.error (Err.validation "At least two entity IDs are required")) ∧
    (∀ (results : List TravResult) (eid : String),
       avgDistance results eid =
         (((results.map (fun r => ((r.paths.lookup eid).map
             PathRec.distance).getD 0)).foldl (· + ·) 0 : Nat) : Rat) /
           (results.length : Rat)) ∧
    (∀ (sys : Sys) (entityIds : List String) (rts : Option (List String))
       (maxDepth : Nat) (direction : String) (limit : Nat)
       (out : List Entity) (sys₂ : Sys) (trs : List TravResult) (sys₁ : Sys),
       WFsmKeys sys.sm →
       travAll sys entityIds rts maxDepth direction = Except.ok (trs, sys₁) →
       findCommonConnections sys entityIds rts maxDepth direction limit =
         Except.ok (out, sys₂) →
       (∀ e ∈ out, (∀ tr ∈ trs, e.id ∈ tr.entities.map (·.id)) ∧
         ¬ e.id ∈ entityIds) ∧
       out.Pairwise (fun a b => avgDistance trs a.id ≤ avgDistance trs b.id) ∧
       out.length ≤ limit) ∧
    fccIds (findCommonConnections c9Sys ["A", "B"] none 2 "both" 10) =
      some ["C", "D"] := by
  refine ⟨?_, fun results eid => mkRat_nat_div _ _, ?_, by decide⟩
  · intro sys entityIds rts maxDepth direction limit h
    unfold findCommonConnections
    rw [if_pos h]
  · intro sys entityIds rts maxDepth direction limit out sys₂ trs sys₁
      hwk htr hok
    unfold findCommonConnections at hok
    by_cases hlen : entityIds.length < 2
    · rw [if_pos hlen] at hok
      simp at hok
    · rw [if_neg hlen] at hok
      rw [htr] at hok
      simp only at hok
      have hw₁ : WFsmKeys sys₁.sm := travAll_wfsm entityIds sys trs sys₁ hwk htr
      split at hok
      · simp at hok
      · rename_i ces sm₂ hga
        simp only [Except.ok.injEq, Prod.mk.injEq] at hok
        obtain ⟨hout, -⟩ := hok
        obtain ⟨hids, -⟩ := getAll_spec _ _ _ _ hw₁ hga
        subst hout
        refine ⟨?_, ?_, ?_⟩
        · intro e he
          obtain ⟨p, hp, rfl⟩ := List.mem_map.mp he
          obtain ⟨e', he', rfl⟩ := List.mem_map.mp
            ((mem_stableSort _ _ _).mp (List.mem_of_mem_take hp))
          have hmem : e'.id ∈ (((trs.map (fun r =>
              dedup (r.entities.map (·.id)))).drop 1).foldl
                (fun acc s => acc.filter (fun id => id ∈ s))
                ((trs.map (fun r => dedup (r.entities.map (·.id)))).headD
                  [])).filter (fun id => ¬ id ∈ entityIds) := by
            rw [← hids]
            exact List.mem_map.mpr ⟨e', he', rfl⟩
          have hsplit := List.mem_filter.mp hmem
          have hnotin : ¬ e'.id ∈ entityIds := by simpa using hsplit.2
          obtain ⟨hhead, hall⟩ := (foldl_filter_mem _ _ _).mp hsplit.1
          refine ⟨fun tr htr' => ?_, hnotin⟩
          have hmem2 : dedup (tr.entities.map (·.id)) ∈
              trs.map (fun r => dedup (r.entities.map (·.id))) :=
            List.mem_map.mpr ⟨tr, htr', rfl⟩
          rcases mem_headD_or_drop [] hmem2 with heq | hdrop
          · rw [← heq] at hhead
            exact (mem_dedup _ _).mp hhead
          · exact (mem_dedup _ _).mp (hall _ hdrop)
        · have htot : ∀ a b : Entity × Rat,
              decide (a.2 ≤ b.2) = true ∨ decide (b.2 ≤ a.2) = true :=
            fun a b => (le_total a.2 b.2).imp decide_eq_true decide_eq_true
          have htrans : ∀ a b c : Entity × Rat,
              decide (a.2 ≤ b.2) = true → decide (b.2 ≤ c.2) = true →
              decide (a.2 ≤ c.2) = true :=
            fun a b c hab hbc => decide_eq_true
              (le_trans (of_decide_eq_true hab) (of_decide_eq_true hbc))
          have hsorted := pairwise_stableSort htot htrans
            (ces.map fun e => (e, avgDistance trs e.id))
          have htake := List.Pairwise.sublist (List.take_sublist limit _) hsorted
          rw [List.pairwise_map]
          refine List.Pairwise.imp_of_mem ?_ htake
          intro a b ha hb hab
          obtain ⟨ea, -, hea⟩ := List.mem_map.mp
            ((mem_stableSort _ _ _).mp (List.mem_of_mem_take ha))
          obtain ⟨eb, -, heb⟩ := List.mem_map.mp
            ((mem_stableSort _ _ _).mp (List.mem_of_mem_take hb))
          subst hea
          subst heb
          exact of_decide_eq_true hab
        · simp only [List.length_map]
          exact List.length_take_le _ _

/-- Witness: C9's validation conjunct at a concrete short id list. -/
theorem claim_C9_witness :
    findCommonConnections c9Sys ["A"] none 2 "both" 10 =
      Except.error (Err.validation "At least two entity IDs are required") :=
  claim_C9_common_connections.1 c9Sys ["A"] none 2 "both" 10 (by decide)

theorem gatherPure_lookup {fsm : List (String × Relationship)} {ty : Option String}
    {rel : Relationship} :
    ∀ {ids : List String}, rel ∈ gatherPure fsm ids ty →
      ∃ id, fsm.lookup id = some rel := by
  intro ids
  induction ids with
  | nil => intro h; simp [gatherPure] at h
  | cons id rest ih =>
      intro h
      cases hf : fsm.lookup id with
      | some r =>
          by_cases hty : typePass ty r
          · rw [show gatherPure fsm (id :: rest) ty = r :: gatherPure fsm rest ty
              from by simp [gatherPure, hf, hty]] at h
            rcases List.mem_cons.mp h with rfl | h'
            · exact ⟨id, hf⟩
            · exact ih h'
          · rw [show gatherPure fsm (id :: rest) ty = gatherPure fsm rest ty
              from by simp [gatherPure, hf, hty]] at h
            exact ih h
      | none =>
          rw [show gatherPure fsm (id :: rest) ty = gatherPure fsm rest ty
            from by simp [gatherPure, hf]] at h
          exact ih h

theorem listedPure_lookup {fsm : List (String × Relationship)}
    {srcIdx tgtIdx : List (String × List String)} {x : String}
    {ty : Option String} {dir : String} {rel : Relationship}
    (h : rel ∈ listedPure fsm srcIdx tgtIdx x ty dir) :
    ∃ id, fsm.lookup id = some rel := by
  unfold listedPure at h
  rcases List.mem_append.mp h with h' | h'
  · by_cases hc : dir = "outgoing" ∨ dir = "both"
    · rw [if_pos hc] at h'
      exact gatherPure_lookup h'
    · rw [if_neg hc] at h'
      simp at h'
  · by_cases hc : dir = "incoming" ∨ dir = "both"
    · rw [if_pos hc] at h'
      exact gatherPure_lookup h'
    · rw [if_neg hc] at h'
      simp at h'

theorem connOf_mem_fileEnds {fsm : List (String × Relationship)} {x : String}
    {rel : Relationship} (h : ∃ id, fsm.lookup id = some rel) :
    connOf x rel ∈ fileEnds fsm := by
  obtain ⟨id, hid⟩ := h
  have hm := mem_of_lookup_some hid
  unfold connOf fileEnds
  split
  · exact List.mem_append.mpr (Or.inr (List.mem_map.mpr ⟨(id, rel), hm, rfl⟩))
  · exact List.mem_append.mpr (Or.inl (List.mem_map.mpr ⟨(id, rel), hm, rfl⟩))

theorem fileRead_isSome {fs : List EFile} {d : EDir} {n : String}
    (h : ∃ f ∈ fs, f.dir = d ∧ f.name = n) : (fileRead fs d n).isSome := by
  obtain ⟨f, hf, h1, h2⟩ := h
  cases hq : fs.find? (fun f => f.dir = d ∧ f.name = n) with
  | none =>
      have := List.find?_eq_none.mp hq f hf
      simp [h1, h2] at this
  | some f' =>
      unfold fileRead
      rw [hq]
      rfl

theorem scanDirs_isSome {st : SMState} {id : String} :
    ∀ ds : List EDir, (∃ d ∈ ds, (fileRead st.files d id).isSome) →
      (scanDirs st id ds).1.isSome := by
  intro ds
  induction ds with
  | nil => intro h; simp at h
  | cons d rest ih =>
      intro h
      cases hr : fileRead st.files d id with
      | some e =>
          rw [show scanDirs st id (d :: rest) = (some e, cacheEntityS st e) from by
            simp [scanDirs, readEntityFile, hr]]
          rfl
      | none =>
          rw [show scanDirs st id (d :: rest) = scanDirs st id rest from by
            simp [scanDirs, readEntityFile, hr]]
          apply ih
          obtain ⟨d', hd', hs⟩ := h
          rcases List.mem_cons.mp hd' with rfl | hd''
          · rw [hr] at hs
            simp at hs
          · exact ⟨d', hd'', hs⟩

theorem mem_agentSubdirs {fs : List EFile} {f : EFile} {s : String}
    (hf : f ∈ fs) (hd : f.dir = EDir.agents s) : s ∈ agentSubdirs fs := by
  unfold agentSubdirs
  rw [mem_dedup]
  exact List.mem_filterMap.mpr ⟨f, hf, by rw [hd]⟩

theorem mem_projectSubdirs {fs : List EFile} {f : EFile} {s : String}
    (hf : f ∈ fs) (hd : f.dir = EDir.projects s) : s ∈ projectSubdirs fs := by
  unfold projectSubdirs
  rw [mem_dedup]
  exact List.mem_filterMap.mpr ⟨f, hf, by rw [hd]⟩

theorem mem_templateSubdirs {fs : List EFile} {f : EFile} {s : String}
    (hf : f ∈ fs) (hd : f.dir = EDir.templates s) : s ∈ templateSubdirs fs := by
  unfold templateSubdirs
  rw [mem_dedup]
  exact List.mem_filterMap.mpr ⟨f, hf, by rw [hd]⟩

theorem findEntityInContext_agent_some {st : SMState} {id : String}
    (h : (scanDirs st id ((agentSubdirs st.files).map EDir.agents)).1.isSome) :
    ∃ r, findEntityInContext st id "agent" = Except.ok r := by
  unfold findEntityInContext
  rcases hp : scanDirs st id ((agentSubdirs st.files).map EDir.agents) with ⟨o, st'⟩
  rw [hp] at h
  cases o with
  | some e => exact ⟨(e, st'), by simp [hp]⟩
  | none => simp at h

theorem findEntityInContext_project_some {st : SMState} {id : String}
    (h : (scanDirs st id ((projectSubdirs st.files).map EDir.projects)).1.isSome) :
    ∃ r, findEntityInContext st id "project" = Except.ok r := by
  unfold findEntityInContext
  rcases hp : scanDirs st id ((projectSubdirs st.files).map EDir.projects) with ⟨o, st'⟩
  rw [hp] at h
  cases o with
  | some e => exact ⟨(e, st'), by simp [hp]⟩
  | none => simp at h

theorem findEntityInContext_template_some {st : SMState} {id : String}
    (h : (scanDirs st id ((templateSubdirs st.files).map EDir.templates)).1.isSome) :
    ∃ r, findEntityInContext st id "template" = Except.ok r := by
  unfold findEntityInContext
  rcases hp : scanDirs st id ((templateSubdirs st.files).map EDir.templates) with ⟨o, st'⟩
  rw [hp] at h
  cases o with
  | some e => exact ⟨(e, st'), by simp [hp]⟩
  | none => simp at h

theorem findEntityInContext_shared_some {st : SMState} {id : String}
    (h : (fileRead st.files EDir.shared id).isSome) :
    ∃ r, findEntityInContext st id "shared" = Except.ok r := by
  unfold findEntityInContext
  cases hr : fileRead st.files EDir.shared id with
  | some e => exact ⟨(e, cacheEntityS st e), by simp [readEntityFile, hr]⟩
  | none =>
      rw [hr] at h
      simp at h

/-- An entity with a file in any probed partition (anything but `temp`) always
resolves under the default four-context search. -/
theorem getEntity_of_fileBacked {sm : SMState} {id : String}
    (hf : ∃ f ∈ sm.files, f.name = id ∧ f.dir ≠ EDir.temp) :
    ∃ e sm', getEntity sm id none = Except.ok (e, sm') := by
  cases hc : sm.entityCache.lookup id with
  | some e =>
      refine ⟨e, sm, ?_⟩
      unfold getEntity
      rw [hc]
  | none =>
      have hprobe : (∃ r, findEntityInContext sm id "agent" = Except.ok r) ∨
          (∃ r, findEntityInContext sm id "project" = Except.ok r) ∨
          (∃ r, findEntityInContext sm id "template" = Except.ok r) ∨
          (∃ r, findEntityInContext sm id "shared" = Except.ok r) := by
        obtain ⟨f, hfm, hname, hdir⟩ := hf
        cases hd : f.dir with
        | agents s =>
            exact Or.inl (findEntityInContext_agent_some (scanDirs_isSome _
              ⟨EDir.agents s, List.mem_map.mpr ⟨s, mem_agentSubdirs hfm hd, rfl⟩,
               fileRead_isSome ⟨f, hfm, hd, hname⟩⟩))
        | projects s =>
            exact Or.inr (Or.inl (findEntityInContext_project_some (scanDirs_isSome _
              ⟨EDir.projects s, List.mem_map.mpr ⟨s, mem_projectSubdirs hfm hd, rfl⟩,
               fileRead_isSome ⟨f, hfm, hd, hname⟩⟩)))
        | templates s =>
            exact Or.inr (Or.inr (Or.inl (findEntityInContext_template_some
              (scanDirs_isSome _
                ⟨EDir.templates s, List.mem_map.mpr ⟨s, mem_templateSubdirs hfm hd, rfl⟩,
                 fileRead_isSome ⟨f, hfm, hd, hname⟩⟩))))
        | shared =>
            exact Or.inr (Or.inr (Or.inr (findEntityInContext_shared_some
              (fileRead_isSome ⟨f, hfm, hd, hname⟩))))
        | temp => exact absurd hd hdir
      unfold getEntity
      rw [hc]
      rcases h1 : findEntityInContext sm id "agent" with e1 | r1
      · rcases h2 : findEntityInContext sm id "project" with e2 | r2
        · rcases h3 : findEntityInContext sm id "template" with e3 | r3
          · rcases h4 : findEntityInContext sm id "shared" with e4 | r4
            · exfalso
              rcases hprobe with ⟨r, hr⟩ | ⟨r, hr⟩ | ⟨r, hr⟩ | ⟨r, hr⟩
              · rw [h1] at hr
                exact Except.noConfusion hr
              · rw [h2] at hr
                exact Except.noConfusion hr
              · rw [h3] at hr
                exact Except.noConfusion hr
              · rw [h4] at hr
                exact Except.noConfusion hr
            · obtain ⟨e4, st4⟩ := r4
              exact ⟨e4, st4, by simp only [h1, h2, h3, h4]⟩
          · obtain ⟨e3, st3⟩ := r3
            exact ⟨e3, st3, by simp only [h1, h2, h3]⟩
        · obtain ⟨e2, st2⟩ := r2
          exact ⟨e2, st2, by simp only [h1, h2]⟩
      · obtain ⟨e1, st1⟩ := r1
        exact ⟨e1, st1, by simp only [h1]⟩

theorem pairwise_le_of_const {l : List (String × Nat)} {c : Nat}
    (h : ∀ yd ∈ l, yd.2 = c) : l.Pairwise (fun a b => a.2 ≤ b.2) := by
  induction l with
  | nil => exact List.Pairwise.nil
  | cons a l' ih =>
      rw [List.pairwise_cons]
      refine ⟨fun b hb => ?_, ih (fun yd h' => h yd (List.mem_cons_of_mem _ h'))⟩
      rw [h a (List.mem_cons_self ..), h b (List.mem_cons_of_mem _ hb)]

/-- While the front of the queue sits at depth `dx < maxDepth`, every node
reachable within `dx` hops is already recorded, at a distance bounded by its
hop count. -/
theorem reach_bound {G : GraphView} {maxDepth : Nat} {start : String}
    {sm : SMState} {kg : KGState} {x : String} {dx : Nat}
    {rest : List (String × Nat)} {visited : List String} {res : TravResult}
    (hli : LoopInv G maxDepth start sm kg ((x, dx) :: rest) visited res)
    (hdx : dx < maxDepth) :
    ∀ z m, ReachS G start z m → m ≤ dx →
      ∃ p, res.paths.lookup z = some p ∧ p.distance ≤ m := by
  intro z m hreach
  induction hreach with
  | refl =>
      intro _
      obtain ⟨p, hp, hd⟩ := hli.hstart
      exact ⟨p, hp, by omega⟩
  | step hy hz ih =>
      rename_i y z' n
      intro hm
      obtain ⟨p, hp, hpd⟩ := ih (by omega)
      rcases hli.hfront y p hp with hq | hcut | hsucc
      · rcases List.mem_cons.mp hq with he | hr
        · have h2 := congrArg Prod.snd he
          simp only at h2
          omega
        · have hge := (List.pairwise_cons.mp hli.hqsorted).1 _ hr
          simp only at hge
          omega
      · omega
      · obtain ⟨q, hq, hqd⟩ := hsucc _ hz
        exact ⟨q, hq, by omega⟩

/-- A successor first discovered while processing the depth-`dx` front is at
true minimal distance `dx + 1`. -/
theorem fresh_min {G : GraphView} {maxDepth : Nat} {start : String}
    {sm : SMState} {kg : KGState} {x : String} {dx : Nat}
    {rest : List (String × Nat)} {visited : List String} {res : TravResult}
    (hli : LoopInv G maxDepth start sm kg ((x, dx) :: rest) visited res)
    (hdx : dx < maxDepth) {z : String} (hz : z ∈ succsOf G x)
    (hunrec : res.paths.lookup z = none) :
    ReachS G start z (dx + 1) ∧ ∀ m, ReachS G start z m → dx + 1 ≤ m := by
  obtain ⟨px, hpx, hpxd⟩ := hli.hqrec (x, dx) (List.mem_cons_self ..)
  constructor
  · have hreach := (hli.hmin x px hpx).1
    rw [hpxd] at hreach
    exact ReachS.step hreach hz
  · intro m hm
    by_contra hlt
    push_neg at hlt
    obtain ⟨p, hp, -⟩ := reach_bound hli hdx z m hm (by omega)
    rw [hunrec] at hp
    exact Option.noConfusion hp

/-- `FoldInv` only looks at the storage state, the visited set, the new queue
and the recorded paths. -/
theorem foldInv_congr {G : GraphView} {maxDepth : Nat} {start x : String}
    {dx : Nat} {rest : List (String × Nat)} {res₀ : TravResult} {b b' : BfsSt}
    (h1 : b'.sm = b.sm) (h2 : b'.visited = b.visited)
    (h3 : b'.newQ = b.newQ) (h4 : b'.res.paths = b.res.paths)
    (hinv : FoldInv G maxDepth start x dx rest res₀ b) :
    FoldInv G maxDepth start x dx rest res₀ b' := by
  refine ⟨?_, ?_, ?_, ?_, ?_, ?_, ?_, ?_⟩
  · rw [h1]
    exact hinv.hwfsm
  · rw [h1]
    exact hinv.hfb
  · rw [h4]
    exact hinv.hmono
  · rw [h2, h4]
    exact hinv.hvp
  · rw [h3, h4]
    exact hinv.hnewq
  · rw [h4]
    exact hinv.hbound
  · rw [h4]
    exact hinv.hmin
  · rw [h3, h4]
    exact hinv.hfront

/-- Discovering an unvisited successor of the front entity and resolving it
successfully preserves the relationship-loop invariant: the new node is
recorded at `dx + 1`, which `fresh_min` shows is its minimal distance. -/
theorem foldInv_record {G : GraphView} {maxDepth : Nat} {start x : String}
    {dx : Nat} {rest : List (String × Nat)} {sm₀ : SMState} {kg₀ : KGState}
    {visited₀ : List String} {res₀ : TravResult} {b : BfsSt}
    {cid : String} {ce : Entity} {sm' : SMState} {pth : List PathStep}
    {E : List Entity} {RL : List Relationship}
    (hli : LoopInv G maxDepth start sm₀ kg₀ ((x, dx) :: rest) visited₀ res₀)
    (hdx : dx < maxDepth) (hz : cid ∈ succsOf G x)
    (hinv : FoldInv G maxDepth start x dx rest res₀ b)
    (hg : getEntity b.sm cid none = Except.ok (ce, sm'))
    (hvis : ¬ cid ∈ b.visited) :
    FoldInv G maxDepth start x dx rest res₀
      ⟨sm', b.visited ++ [cid],
       ⟨E, RL, mapSet b.res.paths cid ⟨dx + 1, pth⟩⟩,
       b.newQ ++ [(cid, dx + 1)]⟩ := by
  have hcidnew : b.res.paths.lookup cid = none := by
    cases hl : b.res.paths.lookup cid with
    | none => rfl
    | some p => exact absurd ((hinv.hvp cid).mpr ⟨p, hl⟩) hvis
  have hcid₀ : res₀.paths.lookup cid = none := by
    cases hl : res₀.paths.lookup cid with
    | none => rfl
    | some p =>
        have hb := hinv.hmono cid p hl
        rw [hcidnew] at hb
        exact Option.noConfusion hb
  have hfresh := fresh_min hli hdx hz hcid₀
  have hspec := getEntity_ok_spec hinv.hwfsm hg
  have hkeep : ∀ y p, b.res.paths.lookup y = some p →
      (mapSet b.res.paths cid ⟨dx + 1, pth⟩).lookup y = some p := by
    intro y p hp
    have hy : y ≠ cid := by
      intro heq
      rw [heq, hcidnew] at hp
      exact Option.noConfusion hp
    rw [lookup_mapSet_ne _ _ hy]
    exact hp
  refine ⟨hspec.2.2.2.2.2, ?_, ?_, ?_, ?_, ?_, ?_, ?_⟩
  · intro x' hx'
    have hfiles : sm'.files = b.sm.files := hspec.2.1
    rw [hfiles]
    exact hinv.hfb x' hx'
  · exact fun y p hp => hkeep y p (hinv.hmono y p hp)
  · intro y
    by_cases hy : y = cid
    · subst hy
      constructor
      · intro _
        exact ⟨⟨dx + 1, pth⟩, lookup_mapSet_self ..⟩
      · intro _
        exact List.mem_append.mpr (Or.inr (List.mem_singleton.mpr rfl))
    · constructor
      · intro hm
        rcases List.mem_append.mp hm with h | h
        · obtain ⟨p, hp⟩ := (hinv.hvp y).mp h
          exact ⟨p, hkeep y p hp⟩
        · exact absurd (List.mem_singleton.mp h) hy
      · intro hp
        obtain ⟨p, hp'⟩ := hp
        rw [lookup_mapSet_ne _ _ hy] at hp'
        exact List.mem_append.mpr (Or.inl ((hinv.hvp y).mpr ⟨p, hp'⟩))
  · intro yd hm
    rcases List.mem_append.mp hm with h | h
    · obtain ⟨h2, p, hp, hd⟩ := hinv.hnewq yd h
      exact ⟨h2, p, hkeep _ _ hp, hd⟩
    · have he := List.mem_singleton.mp h
      subst he
      exact ⟨rfl, ⟨dx + 1, pth⟩, lookup_mapSet_self .., rfl⟩
  · intro y p hp
    by_cases hy : y = cid
    · subst hy
      rw [lookup_mapSet_self] at hp
      simp only [Option.some.injEq] at hp
      subst hp
      exact Nat.le_refl _
    · rw [lookup_mapSet_ne _ _ hy] at hp
      exact hinv.hbound y p hp
  · intro y p hp
    by_cases hy : y = cid
    · subst hy
      rw [lookup_mapSet_self] at hp
      simp only [Option.some.injEq] at hp
      subst hp
      exact ⟨hfresh.1, hfresh.2⟩
    · rw [lookup_mapSet_ne _ _ hy] at hp
      exact hinv.hmin y p hp
  · intro y p hp
    by_cases hy : y = cid
    · subst hy
      rw [lookup_mapSet_self] at hp
      simp only [Option.some.injEq] at hp
      subst hp
      exact Or.inl (List.mem_append.mpr (Or.inr (List.mem_append.mpr
        (Or.inr (List.mem_singleton.mpr rfl)))))
    · rw [lookup_mapSet_ne _ _ hy] at hp
      rcases hinv.hfront y p hp with hq | hcut | hs | hex
      · rcases List.mem_append.mp hq with h | h
        · exact Or.inl (List.mem_append.mpr (Or.inl h))
        · exact Or.inl (List.mem_append.mpr (Or.inr (List.mem_append.mpr
            (Or.inl h))))
      · exact Or.inr (Or.inl hcut)
      · refine Or.inr (Or.inr (Or.inl ?_))
        intro z hzz
        obtain ⟨q, hq, hqd⟩ := hs z hzz
        exact ⟨q, hkeep z q hq, hqd⟩
      · exact Or.inr (Or.inr (Or.inr hex))

/-- One pass of the relationship loop preserves the fold invariant; paths only
grow; and if the relationship passes the type filter, its connected entity
ends up recorded within distance `dx + 1`. -/
theorem processRel_inv {G : GraphView} {maxDepth : Nat} {start x : String}
    {dx : Nat} {rest : List (String × Nat)} {sm₀ : SMState} {kg₀ : KGState}
    {visited₀ : List String} {res₀ : TravResult} {b : BfsSt} {rel : Relationship}
    (hli : LoopInv G maxDepth start sm₀ kg₀ ((x, dx) :: rest) visited₀ res₀)
    (hdx : dx < maxDepth)
    (hpage : rel ∈ (listedPure G.fsm G.srcIdx G.tgtIdx x none G.direction).take 1000)
    (hinv : FoldInv G maxDepth start x dx rest res₀ b) :
    FoldInv G maxDepth start x dx rest res₀ (processRel G.rts x dx b rel) ∧
    (∀ y q, b.res.paths.lookup y = some q →
      (processRel G.rts x dx b rel).res.paths.lookup y = some q) ∧
    (typeOk G.rts rel.type = true →
      ∃ q, (processRel G.rts x dx b rel).res.paths.lookup (connOf x rel) = some q ∧
        q.distance ≤ dx + 1) := by
  unfold processRel
  by_cases hty : typeOk G.rts rel.type
  case neg =>
    rw [if_pos (by simpa using hty)]
    exact ⟨hinv, fun y q h => h, fun h => absurd h hty⟩
  case pos =>
    rw [if_neg (by simpa using hty)]
    have hRp : (if (b.res.relationships.any fun r => decide (r.id = rel.id)) = true
        then b.res
        else { b.res with relationships := b.res.relationships ++ [rel] }).paths
        = b.res.paths := by
      split
      · rfl
      · rfl
    have hzs : connOf x rel ∈ succsOf G x :=
      List.mem_map.mpr ⟨rel, List.mem_filter.mpr ⟨hpage, hty⟩, rfl⟩
    by_cases hvis : connOf x rel ∈ b.visited
    · rw [if_pos hvis]
      refine ⟨@foldInv_congr G maxDepth start x dx rest res₀ b _
        rfl rfl rfl hRp hinv, ?_, ?_⟩
      · intro y q h
        have hT : ({ b with res := (if (b.res.relationships.any fun r =>
            decide (r.id = rel.id)) = true then b.res
            else { b.res with relationships := b.res.relationships ++ [rel] }) }
              : BfsSt).res.paths = b.res.paths := hRp
        rw [hT]
        exact h
      · intro _
        obtain ⟨q, hq⟩ := (hinv.hvp (connOf x rel)).mp hvis
        have hT : ({ b with res := (if (b.res.relationships.any fun r =>
            decide (r.id = rel.id)) = true then b.res
            else { b.res with relationships := b.res.relationships ++ [rel] }) }
              : BfsSt).res.paths = b.res.paths := hRp
        rw [hT]
        exact ⟨q, hq, hinv.hbound _ q hq⟩
    · rw [if_neg hvis]
      cases hg : getEntity b.sm (connOf x rel) none with
      | error e' =>
          exfalso
          obtain ⟨e₁, sm₁, hok⟩ := getEntity_of_fileBacked
            (hinv.hfb (connOf x rel)
              (connOf_mem_fileEnds (listedPure_lookup (List.mem_of_mem_take hpage))))
          rw [hok] at hg
          exact Except.noConfusion hg
      | ok p =>
          obtain ⟨ce, sm'⟩ := p
          have hcidnew : b.res.paths.lookup (connOf x rel) = none := by
            cases hl : b.res.paths.lookup (connOf x rel) with
            | none => rfl
            | some q => exact absurd ((hinv.hvp _).mpr ⟨q, hl⟩) hvis
          have hkeep : ∀ (v : PathRec) (y : String) (q : PathRec),
              b.res.paths.lookup y = some q →
              (mapSet b.res.paths (connOf x rel) v).lookup y = some q := by
            intro v y q hq
            have hy : y ≠ connOf x rel := by
              intro heq
              rw [heq, hcidnew] at hq
              exact Option.noConfusion hq
            rw [lookup_mapSet_ne _ _ hy]
            exact hq
          dsimp only
          rw [hRp]
          refine ⟨foldInv_record hli hdx hzs hinv hg hvis, ?_, ?_⟩
          · exact fun y q hq => hkeep _ y q hq
          · intro _
            refine ⟨_, lookup_mapSet_self .., Nat.le_refl _⟩

/-- The whole relationship loop preserves the fold invariant, only grows the
paths, and records every type-passing connected entity within `dx + 1`. -/
theorem processRel_fold_inv {G : GraphView} {maxDepth : Nat} {start x : String}
    {dx : Nat} {rest : List (String × Nat)} {sm₀ : SMState} {kg₀ : KGState}
    {visited₀ : List String} {res₀ : TravResult}
    (hli : LoopInv G maxDepth start sm₀ kg₀ ((x, dx) :: rest) visited₀ res₀)
    (hdx : dx < maxDepth) :
    ∀ (rels : List Relationship) (b : BfsSt),
      (∀ rel ∈ rels,
        rel ∈ (listedPure G.fsm G.srcIdx G.tgtIdx x none G.direction).take 1000) →
      FoldInv G maxDepth start x dx rest res₀ b →
      FoldInv G maxDepth start x dx rest res₀
        (rels.foldl (processRel G.rts x dx) b) ∧
      (∀ y q, b.res.paths.lookup y = some q →
        (rels.foldl (processRel G.rts x dx) b).res.paths.lookup y = some q) ∧
      (∀ rel ∈ rels, typeOk G.rts rel.type = true →
        ∃ q, (rels.foldl (processRel G.rts x dx) b).res.paths.lookup
          (connOf x rel) = some q ∧ q.distance ≤ dx + 1) := by
  intro rels
  induction rels with
  | nil =>
      intro b _ hinv
      exact ⟨hinv, fun y q h => h, by simp⟩
  | cons rel rels' ih =>
      intro b hpage hinv
      rw [List.foldl_cons]
      obtain ⟨hinv₁, hmono₁, hrel₁⟩ :=
        processRel_inv hli hdx (hpage rel (List.mem_cons_self ..)) hinv
      obtain ⟨hinvF, hmonoF, hrelF⟩ :=
        ih _ (fun r h => hpage r (List.mem_cons_of_mem _ h)) hinv₁
      refine ⟨hinvF, fun y q h => hmonoF y q (hmono₁ y q h), ?_⟩
      intro r hr hty'
      rcases List.mem_cons.mp hr with rfl | hr'
      · obtain ⟨q, hq, hqd⟩ := hrel₁ hty'
        exact ⟨q, hmonoF _ _ hq, hqd⟩
      · exact hrelF r hr' hty'

/-- The BFS loop records only true minimal distances: every path entry of the
final result is a real hop count under the active filter and direction, and no
shorter route to that entity exists. -/
theorem traverseLoop_minimal (G : GraphView) (maxDepth : Nat) (start : String) :
    ∀ (fuel : Nat) (sm : SMState) (kg : KGState) (queue : List (String × Nat))
      (visited : List String) (res res' : TravResult) (sm' : SMState)
      (kg' : KGState),
      LoopInv G maxDepth start sm kg queue visited res →
      traverseLoop G.rts maxDepth G.direction fuel sm kg queue visited res =
        Except.ok (res', sm', kg') →
      ∀ y p, res'.paths.lookup y = some p →
        ReachS G start y p.distance ∧
        ∀ m, ReachS G start y m → p.distance ≤ m := by
  intro fuel
  induction fuel with
  | zero =>
      intro sm kg queue visited res res' sm' kg' hli h
      match queue with
      | [] =>
          rw [show traverseLoop G.rts maxDepth G.direction 0 sm kg [] visited res
            = Except.ok (res, sm, kg) from rfl] at h
          simp only [Except.ok.injEq, Prod.mk.injEq] at h
          obtain ⟨h1, -, -⟩ := h
          subst h1
          exact hli.hmin
      | (eid, depth) :: rest =>
          rw [show traverseLoop G.rts maxDepth G.direction 0 sm kg
            ((eid, depth) :: rest) visited res
            = Except.error Err.fuelExhausted from rfl] at h
          simp at h
  | succ fuel ih =>
      intro sm kg queue visited res res' sm' kg' hli h
      match queue with
      | [] =>
          rw [show traverseLoop G.rts maxDepth G.direction (fuel + 1) sm kg []
            visited res = Except.ok (res, sm, kg) from rfl] at h
          simp only [Except.ok.injEq, Prod.mk.injEq] at h
          obtain ⟨h1, -, -⟩ := h
          subst h1
          exact hli.hmin
      | (x, dx) :: rest =>
          simp only [traverseLoop] at h
          by_cases hd : maxDepth ≤ dx
          · rw [if_pos hd] at h
            refine ih sm kg rest visited res res' sm' kg' ?_ h
            refine ⟨hli.hfsm, hli.hsrc, hli.htgt, hli.hwfkg, hli.hwfsm, hli.hfb,
              hli.hvp, hli.hstart,
              fun yd hm => hli.hqrec yd (List.mem_cons_of_mem _ hm),
              (List.pairwise_cons.mp hli.hqsorted).2,
              fun a ha b hb => hli.hqspread a (List.mem_cons_of_mem _ ha)
                b (List.mem_cons_of_mem _ hb),
              fun y p hp b hb => hli.hqbound y p hp b (List.mem_cons_of_mem _ hb),
              ?_, hli.hmin⟩
            intro y p hp
            rcases hli.hfront y p hp with hq | hcut | hs
            · rcases List.mem_cons.mp hq with he | hr
              · refine Or.inr (Or.inl ?_)
                have h2 := congrArg Prod.snd he
                simp only at h2
                omega
              · exact Or.inl hr
            · exact Or.inr (Or.inl hcut)
            · exact Or.inr (Or.inr hs)
          · rw [if_neg hd] at h
            have hdx : dx < maxDepth := Nat.lt_of_not_le hd
            obtain ⟨kg₁, hlr, e1, e2, e3, e4, e5, hwfkg₁⟩ :=
              listRelationships_pure hli.hwfkg x none G.direction 1000 0
            rw [hlr] at h
            simp only at h
            rw [hli.hfsm, hli.hsrc, hli.htgt, List.drop_zero] at h
            have hinit : FoldInv G maxDepth start x dx rest res
                ⟨sm, visited, res, []⟩ := by
              refine ⟨hli.hwfsm, hli.hfb, fun y p hp => hp, hli.hvp,
                by simp, fun y p hp => hli.hqbound y p hp (x, dx)
                  (List.mem_cons_self ..), hli.hmin, ?_⟩
              intro y p hp
              rcases hli.hfront y p hp with hq | hcut | hs
              · rcases List.mem_cons.mp hq with he | hr
                · have hy := congrArg Prod.fst he
                  have h2 := congrArg Prod.snd he
                  simp only at hy h2
                  exact Or.inr (Or.inr (Or.inr ⟨hy, h2⟩))
                · exact Or.inl (by simpa using hr)
              · exact Or.inr (Or.inl hcut)
              · exact Or.inr (Or.inr (Or.inl hs))
            obtain ⟨hinvF, hmonoF, hrelF⟩ := processRel_fold_inv hli hdx
              ((listedPure G.fsm G.srcIdx G.tgtIdx x none G.direction).take 1000)
              ⟨sm, visited, res, []⟩ (fun r hr => hr) hinit
            refine ih _ _ _ _ _ res' sm' kg' ?_ h
            refine ⟨e1.trans hli.hfsm, e2.trans hli.hsrc, e3.trans hli.htgt,
              hwfkg₁, hinvF.hwfsm, hinvF.hfb, hinvF.hvp, ?_, ?_, ?_, ?_, ?_,
              ?_, hinvF.hmin⟩
            · obtain ⟨p, hp, hpd⟩ := hli.hstart
              exact ⟨p, hmonoF _ _ hp, hpd⟩
            · intro yd hm
              rcases List.mem_append.mp hm with hr | hn
              · obtain ⟨p, hp, hpd⟩ := hli.hqrec yd (List.mem_cons_of_mem _ hr)
                exact ⟨p, hmonoF _ _ hp, hpd⟩
              · exact (hinvF.hnewq yd hn).2
            · rw [List.pairwise_append]
              refine ⟨(List.pairwise_cons.mp hli.hqsorted).2,
                pairwise_le_of_const (fun yd hm => (hinvF.hnewq yd hm).1), ?_⟩
              intro a ha c hc
              have h1 := hli.hqspread a (List.mem_cons_of_mem _ ha) (x, dx)
                (List.mem_cons_self ..)
              have h2 := (hinvF.hnewq c hc).1
              simp only at h1 h2 ⊢
              omega
            · intro a ha c hc
              rcases List.mem_append.mp ha with ha' | ha' <;>
                rcases List.mem_append.mp hc with hc' | hc'
              · exact hli.hqspread a (List.mem_cons_of_mem _ ha')
                  c (List.mem_cons_of_mem _ hc')
              · have h1 := hli.hqspread a (List.mem_cons_of_mem _ ha') (x, dx)
                  (List.mem_cons_self ..)
                have h2 := (hinvF.hnewq c hc').1
                simp only at h1 h2 ⊢
                omega
              · have h1 := (hinvF.hnewq a ha').1
                have h2 := (List.pairwise_cons.mp hli.hqsorted).1 c hc'
                simp only at h1 h2 ⊢
                omega
              · have h1 := (hinvF.hnewq a ha').1
                have h2 := (hinvF.hnewq c hc').1
                simp only at h1 h2 ⊢
                omega
            · intro y p hp c hc
              have hb := hinvF.hbound y p hp
              rcases List.mem_append.mp hc with hc' | hc'
              · have h2 := (List.pairwise_cons.mp hli.hqsorted).1 c hc'
                simp only at h2 ⊢
                omega
              · have h2 := (hinvF.hnewq c hc').1
                simp only at h2 ⊢
                omega
            · intro y p hp
              rcases hinvF.hfront y p hp with hq | hcut | hs | hex
              · exact Or.inl hq
              · exact Or.inr (Or.inl hcut)
              · exact Or.inr (Or.inr hs)
              · obtain ⟨hy, hpd⟩ := hex
                subst hy
                refine Or.inr (Or.inr ?_)
                intro z hz
                unfold succsOf at hz
                obtain ⟨r, hrmem, hconn⟩ := List.mem_map.mp hz
                obtain ⟨hrpage, hrty⟩ := List.mem_filter.mp hrmem
                obtain ⟨q, hq, hqd⟩ := hrelF r hrpage hrty
                subst hconn
                exact ⟨q, hq, by omega⟩

theorem lookup_singleton_spec {α : Type} {k y : String} {v p : α}
    (h : [(k, v)].lookup y = some p) : y = k ∧ p = v := by
  by_cases hy : y = k
  · subst hy
    rw [lookup_cons_self] at h
    simp only [Option.some.injEq] at h
    exact ⟨rfl, h.symm⟩
  · rw [lookup_cons_ne hy] at h
    simp [List.lookup] at h

/-- `traverseGraph` on a well-formed system whose relationship endpoints are
all file-backed records, for every entity it returns a path for, the true
minimal hop distance from the start under the active type filter and
direction. -/
theorem traverseGraph_minimal {sys : Sys} {startId : String}
    {rts : Option (List String)} {maxDepth : Nat} {direction : String}
    {res : TravResult} {sys' : Sys} (hwfkg : WFkg sys.kg)
    (hwfsm : WFsmKeys sys.sm)
    (hfb : ∀ x ∈ fileEnds sys.kg.relFiles,
      ∃ f ∈ sys.sm.files, f.name = x ∧ f.dir ≠ EDir.temp)
    (h : traverseGraph sys startId rts maxDepth direction = .ok (res, sys')) :
    ∀ y p, res.paths.lookup y = some p →
      ReachS ⟨sys.kg.relFiles, sys.kg.srcIndex, sys.kg.tgtIndex, rts, direction⟩
        startId y p.distance ∧
      ∀ m, ReachS ⟨sys.kg.relFiles, sys.kg.srcIndex, sys.kg.tgtIndex, rts,
        direction⟩ startId y m → p.distance ≤ m := by
  unfold traverseGraph at h
  cases hget : getEntity sys.sm startId none with
  | error e =>
      rw [hget] at h
      simp at h
  | ok p =>
      obtain ⟨s₀, sm₁⟩ := p
      have hspec := getEntity_ok_spec hwfsm hget
      rw [hget] at h
      simp only at h
      split at h
      · rename_i res₂ sm₂ kg₂ heq
        simp only [Except.ok.injEq, Prod.mk.injEq] at h
        obtain ⟨h1, -⟩ := h
        subst h1
        refine traverseLoop_minimal
          ⟨sys.kg.relFiles, sys.kg.srcIndex, sys.kg.tgtIndex, rts, direction⟩
          maxDepth startId _ sm₁ sys.kg [(startId, 0)] [startId]
          ⟨[s₀], [], [(startId, ⟨0, []⟩)]⟩ res₂ sm₂ kg₂ ?_ heq
        refine ⟨rfl, rfl, rfl, hwfkg, hspec.2.2.2.2.2, ?_, ?_, ?_, ?_, ?_, ?_,
          ?_, ?_, ?_⟩
        · intro x hx
          rw [hspec.2.1]
          exact hfb x hx
        · intro y
          constructor
          · intro hm
            have hy := List.mem_singleton.mp hm
            subst hy
            exact ⟨⟨0, []⟩, lookup_cons_self ..⟩
          · intro hp
            obtain ⟨p, hp'⟩ := hp
            exact List.mem_singleton.mpr (lookup_singleton_spec hp').1
        · exact ⟨⟨0, []⟩, lookup_cons_self .., rfl⟩
        · intro yd hm
          have hy := List.mem_singleton.mp hm
          subst hy
          exact ⟨⟨0, []⟩, lookup_cons_self .., rfl⟩
        · simp
        · intro a ha b hb
          have ha' := List.mem_singleton.mp ha
          subst ha'
          simp
        · intro y p hp b hb
          obtain ⟨-, hpv⟩ := lookup_singleton_spec hp
          subst hpv
          simp
        · intro y p hp
          obtain ⟨hy, hpv⟩ := lookup_singleton_spec hp
          subst hy
          subst hpv
          exact Or.inl (List.mem_singleton.mpr rfl)
        · intro y p hp
          obtain ⟨hy, hpv⟩ := lookup_singleton_spec hp
          subst hy
          subst hpv
          exact ⟨ReachS.refl, fun m _ => Nat.zero_le m⟩
      · simp at h

/-- C3 as stated is false: in `farSys`, B is reachable from A by paths of two
different hop counts (4 and 5), yet `traverseGraph(A)` with the source's
default `maxDepth = 3` records no path for B at all — there is no entry whose
distance could equal the minimum hop count. -/
theorem claim_C3_counterexample :
    ReachS farG "A" "B" 4 ∧ ReachS farG "A" "B" 5 ∧
    travPathOf (traverseGraph farSys "A" none 3 "both") "B" = none := by
  refine ⟨?_, ?_, by decide⟩
  · have h1 : ReachS farG "A" "X1" 1 := ReachS.step ReachS.refl (by decide)
    have h2 : ReachS farG "A" "X2" 2 := ReachS.step h1 (by decide)
    have h3 : ReachS farG "A" "X3" 3 := ReachS.step h2 (by decide)
    exact ReachS.step h3 (by decide)
  · have h1 : ReachS farG "A" "Y1" 1 := ReachS.step ReachS.refl (by decide)
    have h2 : ReachS farG "A" "Y2" 2 := ReachS.step h1 (by decide)
    have h3 : ReachS farG "A" "Y3" 3 := ReachS.step h2 (by decide)
    have h4 : ReachS farG "A" "Y4" 4 := ReachS.step h3 (by decide)
    exact ReachS.step h4 (by decide)

/-- C3 (amended): on a well-formed system whose relationship endpoints are all
file-backed, every path `traverseGraph` records carries the entity's true
minimal hop distance from the start — breadth-first order with the single
global visited set makes the first-discovered path shortest; in the diamond
A→B, A→C, C→B the recorded path for B is the direct edge with distance 1,
although a 2-hop route also exists.  (Entities beyond `maxDepth` get no entry
at all — see the counterexample.) -/
theorem claim_C3_first_discovered_shortest :
    (∀ (sys : Sys) (startId : String) (rts : Option (List String))
       (maxDepth : Nat) (direction : String) (res : TravResult) (sys' : Sys),
       WFkg sys.kg → WFsmKeys sys.sm →
       (∀ x ∈ fileEnds sys.kg.relFiles,
         ∃ f ∈ sys.sm.files, f.name = x ∧ f.dir ≠ EDir.temp) →
       traverseGraph sys startId rts maxDepth direction = Except.ok (res, sys') →
       ∀ y p, res.paths.lookup y = some p →
         ReachS ⟨sys.kg.relFiles, sys.kg.srcIndex, sys.kg.tgtIndex, rts,
           direction⟩ startId y p.distance ∧
         ∀ m, ReachS ⟨sys.kg.relFiles, sys.kg.srcIndex, sys.kg.tgtIndex, rts,
           direction⟩ startId y m → p.distance ≤ m) ∧
    travPathOf (traverseGraph diamondSys "A" none 3 "both") "B" =
      some ⟨1, [⟨"r1", "e", "outgoing"⟩]⟩ ∧
    ReachS diaG "A" "B" 2 := by
  refine ⟨?_, by decide, ?_⟩
  · intro sys startId rts maxDepth direction res sys' h1 h2 h3 h4
    exact traverseGraph_minimal h1 h2 h3 h4
  · have h1 : ReachS diaG "A" "C" 1 := ReachS.step ReachS.refl (by decide)
    exact ReachS.step h1 (by decide)

/-- Witness: C3's general conjunct at a concrete one-entity system, the
recorded distance 0 of the start being its minimal distance. -/
theorem claim_C3_witness :
    ReachS ⟨c3Sys.kg.relFiles, c3Sys.kg.srcIndex, c3Sys.kg.tgtIndex, none,
      "both"⟩ "A" "A" 0 ∧
    ∀ m, ReachS ⟨c3Sys.kg.relFiles, c3Sys.kg.srcIndex, c3Sys.kg.tgtIndex,
      none, "both"⟩ "A" "A" m → 0 ≤ m :=
  claim_C3_first_discovered_shortest.1 c3Sys "A" none 3 "both"
    ⟨[entN "A"], [], [("A", ⟨0, []⟩)]⟩
    ⟨cacheEntityS (mkSM [entN "A"]) (entN "A"), mkKG []⟩
    (by unfold WFkg WFkgFiles WFkgCache; decide)
    (by unfold WFsmKeys; decide)
    (by decide) rfl "A" ⟨0, []⟩ rfl

end Memory
